import Mathlib

/-!
Verification of the subtensor per-block step (`pallets/subtensor/src/step.rs`).

The source is shallowly embedded:

* `I65F63` fixed-point numbers (signed, 63 fractional bits) are modelled by their
  raw value as an unbounded `ℤ`: a raw value `v` stands for the real number
  `v / 2 ^ 63`.  `from_num` of a `u64` is exact; multiplication and division
  discard low bits / remainders toward negative infinity (`Int.fdiv`), which is
  the truncation the `substrate_fixed` representation performs; every division
  and truncation reached by the theorems below has nonnegative operands, where
  rounding toward negative infinity and toward zero coincide.  Overflow of the
  65-bit integer part is outside the modelled range and is not exercised by any
  theorem or concrete instance in this file.
* `u64` storage values are natural numbers; subtraction sites of the source are
  modelled by `Nat` truncated subtraction or by explicit wrapping (`wsub`,
  `% 2 ^ 64`) at the sites where wraparound is the subject of a claim.
* The storage maps become explicit record fields; the iteration order of
  `IterableStorageMap` is the order of the `neurons` list.
* The transcendental `exp` and `log2` of the external numeric layer are not part
  of this repository's sources; the step is parameterised by them (`expFn`,
  `log2Fn`) and the general theorems hold for every implementation.  Concrete
  instances use the models `expSpec` / `log2Spec` below.
-/

namespace Subtensor

/-- Raw scale of the `I65F63` fixed-point type: one unit of least precision is
`1 / fscale`, and the raw representation of `1.0` is `fscale`. -/
def fscale : ℤ := 2 ^ 63

namespace Fx

/-- `I65F63::from_num` on a `u64`: exact. -/
def ofU64 (x : ℕ) : ℤ := (x : ℤ) * fscale

/-- Fixed-point `1.0`. -/
def one : ℤ := fscale

/-- Fixed-point multiplication: the double-width product keeps the high bits,
discarding the low fractional bits (floor). -/
def mul (a b : ℤ) : ℤ := (a * b).fdiv fscale

/-- Fixed-point division.  The source numeric layer fails on a zero divisor; the
total model returns `0` there, and `divisionGuards` below records the claim that
no reachable division has a zero divisor. -/
def div (a b : ℤ) : ℤ := (a * fscale).fdiv b

/-- `to_num::<u64>()`: truncation of the fractional bits.  All conversion sites
reached below carry nonnegative values. -/
def toU64 (a : ℤ) : ℕ := (a.fdiv fscale).toNat

end Fx

/-- `I65F63::from_num(u32::MAX)`, the scale of quantized weights. -/
def u32maxFx : ℤ := Fx.ofU64 (2 ^ 32 - 1)

/-- `I65F63::from_num(u64::MAX)`, the output scale of committed score fields. -/
def u64maxFx : ℤ := Fx.ofU64 (2 ^ 64 - 1)

/-- Wrapping `u64` subtraction `a - b` (both arguments below `2 ^ 64`). -/
def wsub (a b : ℕ) : ℕ := (a + 2 ^ 64 - b) % 2 ^ 64

/-- Pointwise array write: `f[i] = v` on a dense vector modelled as a total
function (source vectors have length `n`; all indices used are below `n`). -/
def upd {α : Type} (f : ℕ → α) (i : ℕ) (v : α) : ℕ → α :=
  fun j => if j = i then v else f j

/-! ## Difficulty controller (`update_difficulty`, step.rs lines 12-91) -/

/-- Storage touched by `update_difficulty`. -/
structure DiffSt where
  difficulty : ℕ
  last_adjustment : ℕ
  regs_this_interval : ℕ
  regs_this_block : ℕ
deriving DecidableEq

/-- Configuration constants of the difficulty controller. -/
structure DiffCfg where
  max_difficulty : ℕ
  min_difficulty : ℕ
  adjustment_interval : ℕ
  target_regs : ℕ
deriving DecidableEq

/-- `update_difficulty` (step.rs lines 12-91).  `RegistrationsThisBlock` is
zeroed unconditionally; on reaching the adjustment interval the difficulty is
doubled (`u64` multiplication, hence the `% 2 ^ 64`) and clamped above, or
halved (integer division) and clamped below, and the interval state is reset. -/
def update_difficulty (cfg : DiffCfg) (current_block : ℕ) (s : DiffSt) : DiffSt :=
  let s0 : DiffSt := { s with regs_this_block := 0 }
  if cfg.adjustment_interval ≤ wsub current_block s.last_adjustment then
    let next :=
      if cfg.target_regs < s.regs_this_interval then
        let nd := s.difficulty * 2 % 2 ^ 64
        if cfg.max_difficulty ≤ nd then cfg.max_difficulty else nd
      else
        let nd := s.difficulty / 2
        if nd ≤ cfg.min_difficulty then cfg.min_difficulty else nd
    { s0 with
      difficulty := next
      last_adjustment := current_block
      regs_this_interval := 0 }
  else s0

/-! ## Data model of the mechanism step -/

/-- One row of the `Neurons` storage map (`NeuronMetadataOf`): the fields read
and written by `mechanism_step`.  `weights` are `(target uid, u32 weight)`
pairs, `bonds` are `(target uid, u64 bond)` pairs. -/
structure Neuron where
  uid : ℕ
  stake : ℕ
  weights : List (ℕ × ℕ)
  bonds : List (ℕ × ℕ)
  last_update : ℕ
  priority : ℕ
  active : ℕ
  rank : ℕ
  trust : ℕ
  consensus : ℕ
  incentive : ℕ
  dividends : ℕ
  emission : ℕ
deriving DecidableEq, Inhabited

/-- The storage read and written by `mechanism_step`: the neuron table (in
iteration order), the pruning set `NeuronsToPruneAtNextEpoch` (as its key
list), configuration constants, and the global registers. -/
structure Chain where
  neurons : List Neuron
  prune : List ℕ
  activity_cutoff : ℕ
  bonds_moving_average : ℕ
  rho : ℕ
  kappa : ℕ
  self_ownership : ℕ
  total_issuance : ℕ
  total_stake : ℕ
  total_emission : ℕ
  total_bonds_purchased : ℕ
  last_mechanism_step_block : ℕ
deriving DecidableEq, Inhabited

/-- Number of peers `n` (`get_neuron_count`). -/
def nOf (ch : Chain) : ℕ := ch.neurons.length

/-- Modelled from the spec: the deterministic `exp` approximation of the
external fixed-point numeric layer (`substrate_fixed::transcendental::exp`),
which is not part of this repository's sources.  Every general theorem below is
proved for an arbitrary implementation `expFn : ℤ → ℕ` (the result of a real
exponential is nonnegative); this concrete model is the first-order expansion
`max 0 (1 + x)` on raw values, which agrees with every conforming
implementation at the argument `0` used by the concrete instances below
(`exp 0 = 1`). -/
def expSpec (x : ℤ) : ℕ := (Fx.one + x).toNat

/-- Integer binary logarithm by structural recursion on a fuel bound: with
fuel at least the bit length of `k`, `log2Fuel fuel k` is the floor of
`log2 k` (and 0 at 0). -/
def log2Fuel : ℕ → ℕ → ℕ
  | 0, _ => 0
  | fuel + 1, k => if k < 2 then 0 else log2Fuel fuel (k / 2) + 1

/-- Modelled from the spec: the deterministic `log2` approximation of the
external numeric layer composed with `from_num` and `u64` truncation, i.e. the
value of `log2(I65F63::from_num(k)).to_num::<u64>()`.  On positive integer
arguments below `2 ^ 64` the truncated binary logarithm is the integer binary
logarithm; 64 halvings exhaust every `u64`. -/
def log2Spec (k : ℕ) : ℕ := log2Fuel 64 k

/-! ### Ingest pass (step.rs lines 198-229) -/

/-- State accumulated by the ingest loop over the neuron table. -/
structure Ingest where
  uids : List ℕ
  active : ℕ → ℕ
  priority : ℕ → ℕ
  bond_totals : ℕ → ℕ
  bonds : ℕ → ℕ → ℕ
  weights : ℕ → List (ℕ × ℕ)
  total_stake : ℤ
  total_active_stake : ℤ
  stake : ℕ → ℤ

/-- One entry of a neuron's sparse bond map entering the dense bond matrix
(step.rs lines 217-227): entries whose target uid is in the pruning set are
skipped, otherwise the row entry is written and `bond_totals` accumulated.
State is `(bonds_row, bond_totals)`. -/
def bondRowStep (prune : List ℕ) (s : (ℕ → ℕ) × (ℕ → ℕ)) (p : ℕ × ℕ) :
    (ℕ → ℕ) × (ℕ → ℕ) :=
  if p.1 ∈ prune then s
  else (upd s.1 p.1 p.2, upd s.2 p.1 (s.2 p.1 + p.2))

/-- One iteration of the ingest loop (step.rs lines 198-229) for neuron `x`.
The source tests `block - last_update >= activity_cutoff` for *inactivity*;
the branches are stated here through the complementary condition. -/
def ingestStep (log2Fn : ℕ → ℕ) (prune : List ℕ) (block cutoff : ℕ)
    (s : Ingest) (x : Neuron) : Ingest :=
  let rb := x.bonds.foldl (bondRowStep prune) (fun _ => 0, s.bond_totals)
  { uids := s.uids ++ [x.uid]
    active := upd s.active x.uid (if wsub block x.last_update < cutoff then 1 else 0)
    priority := upd s.priority x.uid (x.priority + log2Fn ((x.stake + 1) % 2 ^ 64))
    bond_totals := rb.2
    bonds := upd s.bonds x.uid rb.1
    weights := upd s.weights x.uid x.weights
    total_stake := s.total_stake + Fx.ofU64 x.stake
    total_active_stake := s.total_active_stake +
      (if wsub block x.last_update < cutoff then Fx.ofU64 x.stake else 0)
    stake := upd s.stake x.uid (Fx.ofU64 x.stake) }

/-- The full ingest pass. -/
def ingest (log2Fn : ℕ → ℕ) (block : ℕ) (ch : Chain) : Ingest :=
  ch.neurons.foldl (ingestStep log2Fn ch.prune block ch.activity_cutoff)
    { uids := []
      active := fun _ => 0
      priority := fun _ => 0
      bond_totals := fun _ => 0
      bonds := fun _ _ => 0
      weights := fun _ => []
      total_stake := 0
      total_active_stake := 0
      stake := fun _ => 0 }

/-! ### Stake normalization (step.rs lines 230-239) -/

/-- Stake vector and `total_normalized_active_stake`. -/
structure NormSt where
  stake : ℕ → ℤ
  tnas : ℤ

/-- One iteration of the stake-normalization loop for uid `u`. -/
def normStep (active : ℕ → ℕ) (tas : ℤ) (s : NormSt) (u : ℕ) : NormSt :=
  let ns := Fx.div (s.stake u) tas
  { stake := upd s.stake u ns
    tnas := s.tnas + if active u = 1 then ns else 0 }

/-- Stake normalization: a no-op (with zero `tnas`) when
`total_active_stake = 0`. -/
def normalizeStake (uids : List ℕ) (active : ℕ → ℕ) (tas : ℤ) (stake0 : ℕ → ℤ) :
    NormSt :=
  if tas ≠ 0 then uids.foldl (normStep active tas) ⟨stake0, 0⟩ else ⟨stake0, 0⟩

/-! ### Rank / trust / bond edge pass (step.rs lines 246-299) -/

/-- The ordered edges the ranking loop actually processes: rows with zero
(normalized) stake are skipped by the outer `continue`, self-weights by the
inner one; the remaining `(i, j, w)` triples are visited in row-major order. -/
def edgeList (uids : List ℕ) (stake : ℕ → ℤ) (weights : ℕ → List (ℕ × ℕ)) :
    List (ℕ × ℕ × ℕ) :=
  (uids.filter fun i => !decide (stake i = 0)).flatMap fun i =>
    ((weights i).filter fun p => !decide (p.1 = i)).map fun p => (i, p.1, p.2)

/-- State of the edge pass. -/
structure EdgeSt where
  ranks : ℕ → ℤ
  trust : ℕ → ℤ
  total_ranks : ℤ
  total_trust : ℤ
  bonds : ℕ → ℕ → ℕ
  bond_totals : ℕ → ℕ
  tbp : ℕ

/-- One edge `(i, j, w)` of the rank/trust/bond pass (step.rs lines 262-298).
Inactive rows contribute zero increments (their bond moving average decays a
zero increment); `total_bonds_purchased` is overwritten, not summed. -/
def edgeStep (active : ℕ → ℕ) (stake : ℕ → ℤ) (bmaFx e1 : ℤ)
    (s : EdgeSt) (e : ℕ × ℕ × ℕ) : EdgeSt :=
  let i := e.1
  let j := e.2.1
  let w := e.2.2
  let rinc : ℤ :=
    if active i = 1 then Fx.mul (stake i) (Fx.div (Fx.ofU64 w) u32maxFx) else 0
  let tinc : ℤ := if active i = 1 then stake i else 0
  let binc : ℤ := Fx.mul rinc e1
  let prev : ℤ := Fx.ofU64 (s.bonds i j)
  let ma : ℤ := Fx.mul bmaFx prev + Fx.mul (Fx.one - bmaFx) binc
  { ranks := upd s.ranks j (s.ranks j + rinc)
    trust := upd s.trust j (s.trust j + tinc)
    total_ranks := s.total_ranks + rinc
    total_trust := s.total_trust + tinc
    bonds := upd s.bonds i (upd (s.bonds i) j (Fx.toU64 ma))
    bond_totals :=
      if ma ≤ prev then upd s.bond_totals j (s.bond_totals j - Fx.toU64 (prev - ma))
      else upd s.bond_totals j (s.bond_totals j + Fx.toU64 (ma - prev))
    tbp := if ma ≤ prev then Fx.toU64 (prev - ma) else Fx.toU64 (ma - prev) }

/-- The `|new - old|` magnitude (truncated to `u64`) edge `e` writes into
`total_bonds_purchased` when processed from state `s`. -/
def edgeDelta (active : ℕ → ℕ) (stake : ℕ → ℤ) (bmaFx e1 : ℤ)
    (s : EdgeSt) (e : ℕ × ℕ × ℕ) : ℕ :=
  let i := e.1
  let j := e.2.1
  let w := e.2.2
  let rinc : ℤ :=
    if active i = 1 then Fx.mul (stake i) (Fx.div (Fx.ofU64 w) u32maxFx) else 0
  let binc : ℤ := Fx.mul rinc e1
  let prev : ℤ := Fx.ofU64 (s.bonds i j)
  let ma : ℤ := Fx.mul bmaFx prev + Fx.mul (Fx.one - bmaFx) binc
  if ma ≤ prev then Fx.toU64 (prev - ma) else Fx.toU64 (ma - prev)

/-- The full edge pass from the ingested bond matrix. -/
def edgePass (active : ℕ → ℕ) (stake : ℕ → ℤ) (bmaFx e1 : ℤ)
    (uids : List ℕ) (weights : ℕ → List (ℕ × ℕ))
    (bonds0 : ℕ → ℕ → ℕ) (bt0 : ℕ → ℕ) : EdgeSt :=
  (edgeList uids stake weights).foldl (edgeStep active stake bmaFx e1)
    { ranks := fun _ => 0
      trust := fun _ => 0
      total_ranks := 0
      total_trust := 0
      bonds := bonds0
      bond_totals := bt0
      tbp := 0 }

/-! ### Rank and trust normalization (step.rs lines 300-306) -/

/-- Normalized rank and trust vectors. -/
structure RTSt where
  ranks : ℕ → ℤ
  trust : ℕ → ℤ

/-- One iteration of the rank/trust normalization loop: rank is divided by
`total_ranks`, trust by `total_normalized_active_stake`. -/
def rtStep (tr tnas : ℤ) (s : RTSt) (u : ℕ) : RTSt :=
  { ranks := upd s.ranks u (Fx.div (s.ranks u) tr)
    trust := upd s.trust u (Fx.div (s.trust u) tnas) }

/-- Rank/trust normalization, performed only when both totals are positive. -/
def normalizeRT (uids : List ℕ) (tr tt tnas : ℤ) (ranks0 trust0 : ℕ → ℤ) : RTSt :=
  if 0 < tt ∧ 0 < tr then uids.foldl (rtStep tr tnas) ⟨ranks0, trust0⟩
  else ⟨ranks0, trust0⟩

/-! ### Consensus and incentive (step.rs lines 311-337) -/

/-- Consensus and incentive vectors with `total_incentive`. -/
structure ConsSt where
  consensus : ℕ → ℤ
  incentive : ℕ → ℤ
  total_incentive : ℤ

/-- One iteration of the consensus/incentive loop (step.rs lines 316-330):
`consensus = 1 / (1 + exp(-(trust - 1/kappa) * rho))`,
`incentive = rank * consensus`. -/
def consStep (expFn : ℤ → ℕ) (kappaFx rhoFx : ℤ) (ranks trust : ℕ → ℤ)
    (s : ConsSt) (u : ℕ) : ConsSt :=
  let shifted : ℤ := trust u - kappaFx
  let temper : ℤ := Fx.mul shifted rhoFx
  let ex : ℤ := (expFn (-temper) : ℤ)
  let c : ℤ := Fx.div Fx.one (Fx.one + ex)
  let inc : ℤ := Fx.mul (ranks u) c
  { consensus := upd s.consensus u c
    incentive := upd s.incentive u inc
    total_incentive := s.total_incentive + inc }

/-- Consensus/incentive phase, skipped unless both rank and trust totals are
nonzero. -/
def consensusPhase (expFn : ℤ → ℕ) (kappaFx rhoFx : ℤ) (uids : List ℕ)
    (tr tt : ℤ) (ranks trust : ℕ → ℤ) : ConsSt :=
  if tr ≠ 0 ∧ tt ≠ 0 then
    uids.foldl (consStep expFn kappaFx rhoFx ranks trust)
      ⟨fun _ => 0, fun _ => 0, 0⟩
  else ⟨fun _ => 0, fun _ => 0, 0⟩

/-- One iteration of the incentive normalization loop (step.rs lines 332-337). -/
def incStep (ti : ℤ) (f : ℕ → ℤ) (u : ℕ) : ℕ → ℤ := upd f u (Fx.div (f u) ti)

/-- Incentive normalization, performed only when `total_incentive > 0`. -/
def normalizeIncentive (uids : List ℕ) (ti : ℤ) (inc0 : ℕ → ℤ) : ℕ → ℤ :=
  if 0 < ti then uids.foldl (incStep ti) inc0 else inc0

/-! ### Dividends (step.rs lines 340-382) -/

/-- Dividend vector, `total_dividends` and the sparsified bond lists. -/
structure DivSt where
  dividends : ℕ → ℤ
  total_dividends : ℤ
  sparse : ℕ → List (ℕ × ℕ)

/-- Inner loop of the dividend pass (step.rs lines 360-380): bond-ownership
dividends of holder `i` from target `j`, plus the sparse bond entry.  State is
`(dividends, total_dividends, sparse_bonds_row)`. -/
def divInner (selfOwnFx : ℤ) (incentive : ℕ → ℤ) (bonds : ℕ → ℕ → ℕ)
    (bt : ℕ → ℕ) (i : ℕ) (s : (ℕ → ℤ) × ℤ × List (ℕ × ℕ)) (j : ℕ) :
    (ℕ → ℤ) × ℤ × List (ℕ × ℕ) :=
  let bij := bonds i j
  let tbj := bt j
  if tbj = 0 then s
  else if bij = 0 then s
  else
    let frac : ℤ := Fx.div (Fx.ofU64 bij) (Fx.ofU64 tbj)
    let own : ℤ := Fx.mul (Fx.one - selfOwnFx) frac
    let dji : ℤ := Fx.mul (incentive j) own
    (upd s.1 i (s.1 i + dji), s.2.1 + dji, s.2.2 ++ [(j, bij)])

/-- One iteration of the dividend pass (step.rs lines 344-381) for holder `i`:
self-ownership dividends (the whole incentive when nobody holds bonds in `i`),
then the bond-ownership dividends over all targets. -/
def divStep (selfOwnFx : ℤ) (incentive : ℕ → ℤ) (bonds : ℕ → ℕ → ℕ)
    (bt : ℕ → ℕ) (uids : List ℕ) (s : DivSt) (i : ℕ) : DivSt :=
  let dii : ℤ :=
    Fx.mul (incentive i) selfOwnFx +
      (if bt i = 0 then Fx.mul (incentive i) (Fx.one - selfOwnFx) else 0)
  let inner :=
    uids.foldl (divInner selfOwnFx incentive bonds bt i)
      (upd s.dividends i (s.dividends i + dii), s.total_dividends + dii, [])
  { dividends := inner.1
    total_dividends := inner.2.1
    sparse := upd s.sparse i inner.2.2 }

/-- The full dividend pass. -/
def dividendsPhase (selfOwnFx : ℤ) (incentive : ℕ → ℤ) (bonds : ℕ → ℕ → ℕ)
    (bt : ℕ → ℕ) (uids : List ℕ) : DivSt :=
  uids.foldl (divStep selfOwnFx incentive bonds bt uids)
    ⟨fun _ => 0, 0, fun _ => []⟩

/-! ### Emission (step.rs lines 383-394) -/

/-- Normalized dividends, emission vector and `total_emission`. -/
structure EmitSt where
  dividends : ℕ → ℤ
  emission : ℕ → ℕ
  total_emission : ℕ

/-- One iteration of the emission loop: the dividend entry is overwritten by
its normalization and the emission is the truncated token amount. -/
def emitStep (e1 td : ℤ) (s : EmitSt) (u : ℕ) : EmitSt :=
  let d : ℤ := Fx.div (s.dividends u) td
  let e : ℕ := Fx.toU64 (Fx.mul e1 d)
  { dividends := upd s.dividends u d
    emission := upd s.emission u e
    total_emission := s.total_emission + e }

/-- Emission phase: all-zero when `total_dividends = 0` (and dividends are then
left unnormalized). -/
def emissionPhase (uids : List ℕ) (e1 td : ℤ) (div0 : ℕ → ℤ) : EmitSt :=
  if td ≠ 0 then uids.foldl (emitStep e1 td) ⟨div0, fun _ => 0, 0⟩
  else ⟨div0, fun _ => 0, 0⟩

/-! ### Commit (step.rs lines 398-426) and the whole step -/

/-- The write-back of one neuron record (step.rs lines 398-410).  Score fields
are scaled by `u64::MAX` and truncated; the stake receives the emission. -/
def commitNeuron (active priority : ℕ → ℕ) (emission : ℕ → ℕ)
    (ranksN trustN consensusV incentiveN dividendsN : ℕ → ℤ)
    (sparse : ℕ → List (ℕ × ℕ)) (x : Neuron) : Neuron :=
  { x with
    active := active x.uid
    priority := priority x.uid
    emission := emission x.uid
    stake := x.stake + emission x.uid
    rank := Fx.toU64 (Fx.mul (ranksN x.uid) u64maxFx)
    trust := Fx.toU64 (Fx.mul (trustN x.uid) u64maxFx)
    consensus := Fx.toU64 (Fx.mul (consensusV x.uid) u64maxFx)
    incentive := Fx.toU64 (Fx.mul (incentiveN x.uid) u64maxFx)
    dividends := Fx.toU64 (Fx.mul (dividendsN x.uid) u64maxFx)
    bonds := sparse x.uid }

/-- Fixed-point constants derived from the configuration (step.rs lines
176-185): `bonds_moving_average` is supplied in parts per million, `kappa` and
`self_ownership` enter as reciprocals. -/
def bmaFxOf (ch : Chain) : ℤ := Fx.div (Fx.ofU64 ch.bonds_moving_average) (Fx.ofU64 1000000)

def rhoFxOf (ch : Chain) : ℤ := Fx.ofU64 ch.rho

def kappaFxOf (ch : Chain) : ℤ := Fx.div Fx.one (Fx.ofU64 ch.kappa)

def selfOwnFxOf (ch : Chain) : ℤ := Fx.div Fx.one (Fx.ofU64 ch.self_ownership)

/-- Ingest result of the step on `ch`. -/
def ingestOf (log2Fn : ℕ → ℕ) (block : ℕ) (ch : Chain) : Ingest :=
  ingest log2Fn block ch

/-- Normalized-stake result of the step. -/
def normOf (log2Fn : ℕ → ℕ) (block : ℕ) (ch : Chain) : NormSt :=
  let ing := ingestOf log2Fn block ch
  normalizeStake ing.uids ing.active ing.total_active_stake ing.stake

/-- The processed edge list of the step. -/
def edgesOf (log2Fn : ℕ → ℕ) (block : ℕ) (ch : Chain) : List (ℕ × ℕ × ℕ) :=
  let ing := ingestOf log2Fn block ch
  edgeList ing.uids (normOf log2Fn block ch).stake ing.weights

/-- Edge-pass result of the step. -/
def edgeOf (log2Fn : ℕ → ℕ) (block e : ℕ) (ch : Chain) : EdgeSt :=
  let ing := ingestOf log2Fn block ch
  edgePass ing.active (normOf log2Fn block ch).stake (bmaFxOf ch) (Fx.ofU64 e)
    ing.uids ing.weights ing.bonds ing.bond_totals

/-- Normalized rank/trust result of the step. -/
def rtOf (log2Fn : ℕ → ℕ) (block e : ℕ) (ch : Chain) : RTSt :=
  let ing := ingestOf log2Fn block ch
  let ep := edgeOf log2Fn block e ch
  normalizeRT ing.uids ep.total_ranks ep.total_trust (normOf log2Fn block ch).tnas
    ep.ranks ep.trust

/-- Consensus/incentive result of the step. -/
def consOf (expFn : ℤ → ℕ) (log2Fn : ℕ → ℕ) (block e : ℕ) (ch : Chain) : ConsSt :=
  let ing := ingestOf log2Fn block ch
  let ep := edgeOf log2Fn block e ch
  let rt := rtOf log2Fn block e ch
  consensusPhase expFn (kappaFxOf ch) (rhoFxOf ch) ing.uids
    ep.total_ranks ep.total_trust rt.ranks rt.trust

/-- Normalized incentive vector of the step. -/
def incNOf (expFn : ℤ → ℕ) (log2Fn : ℕ → ℕ) (block e : ℕ) (ch : Chain) : ℕ → ℤ :=
  let cs := consOf expFn log2Fn block e ch
  normalizeIncentive (ingestOf log2Fn block ch).uids cs.total_incentive cs.incentive

/-- Dividend result of the step. -/
def divOf (expFn : ℤ → ℕ) (log2Fn : ℕ → ℕ) (block e : ℕ) (ch : Chain) : DivSt :=
  let ing := ingestOf log2Fn block ch
  let ep := edgeOf log2Fn block e ch
  dividendsPhase (selfOwnFxOf ch) (incNOf expFn log2Fn block e ch)
    ep.bonds ep.bond_totals ing.uids

/-- Emission result of the step. -/
def emitOf (expFn : ℤ → ℕ) (log2Fn : ℕ → ℕ) (block e : ℕ) (ch : Chain) : EmitSt :=
  let dv := divOf expFn log2Fn block e ch
  emissionPhase (ingestOf log2Fn block ch).uids (Fx.ofU64 e) dv.total_dividends
    dv.dividends

/-- `mechanism_step` (step.rs lines 163-427): the whole per-block computation
and its committed storage writes.  `e` is `emission_this_step`. -/
def mechanismStep (expFn : ℤ → ℕ) (log2Fn : ℕ → ℕ) (block e : ℕ) (ch : Chain) :
    Chain :=
  let ing := ingestOf log2Fn block ch
  let ep := edgeOf log2Fn block e ch
  let rt := rtOf log2Fn block e ch
  let cs := consOf expFn log2Fn block e ch
  let em := emitOf expFn log2Fn block e ch
  { ch with
    neurons :=
      ch.neurons.map
        (commitNeuron ing.active ing.priority em.emission rt.ranks rt.trust
          cs.consensus (incNOf expFn log2Fn block e ch) em.dividends
          (divOf expFn log2Fn block e ch).sparse)
    prune := ch.prune.filter fun u => !decide (u ∈ ing.uids)
    total_emission := em.total_emission
    total_bonds_purchased := ep.tbp
    total_issuance := ch.total_issuance + em.total_emission
    total_stake := ch.total_stake + em.total_emission
    last_mechanism_step_block := block }

/-- The dense bond row a neuron's sparse bond map expands to (pruned targets
excluded). -/
def bondRow (prune : List ℕ) (l : List (ℕ × ℕ)) : ℕ → ℕ :=
  l.foldl (fun r p => if p.1 ∈ prune then r else upd r p.1 p.2) (fun _ => 0)

/-- The contribution of one neuron's sparse bond map to `bond_totals[u]`. -/
def colContrib (prune : List ℕ) (l : List (ℕ × ℕ)) (u : ℕ) : ℕ :=
  ((l.filter fun p => !decide (p.1 ∈ prune) && decide (p.1 = u)).map Prod.snd).sum

/-- Column sums of the dense bond matrix. -/
def colsum (n : ℕ) (bonds : ℕ → ℕ → ℕ) (u : ℕ) : ℕ :=
  ∑ i ∈ Finset.range n, bonds i u

/-- Number of processed edges whose target is `u`. -/
def countTarget (es : List (ℕ × ℕ × ℕ)) (u : ℕ) : ℕ :=
  (es.filter fun e => decide (e.2.1 = u)).length

/-- The consensus value the loop computes for uid `u` (a function of the trust
vector only). -/
def consVal (expFn : ℤ → ℕ) (kappaFx rhoFx : ℤ) (trust : ℕ → ℤ) (u : ℕ) : ℤ :=
  Fx.div Fx.one (Fx.one + (expFn (-(Fx.mul (trust u - kappaFx) rhoFx)) : ℤ))

/-- The pre-normalization incentive value the loop computes for uid `u`. -/
def incVal (expFn : ℤ → ℕ) (kappaFx rhoFx : ℤ) (ranks trust : ℕ → ℤ) (u : ℕ) : ℤ :=
  Fx.mul (ranks u) (consVal expFn kappaFx rhoFx trust u)

/-- The argument the consensus loop feeds to `exp` for uid `u` (step.rs lines
316-321): the negated temperatured shifted trust
`-((trust[u] - 1/kappa) * rho)`. -/
def consExpArg (kappaFx rhoFx : ℤ) (trust : ℕ → ℤ) (u : ℕ) : ℤ :=
  -(Fx.mul (trust u - kappaFx) rhoFx)

/-- Well-formedness of the snapshotted storage: uids are distinct and dense in
`[0, n)`, and every weight/bond target is a valid index (the source indexes
length-`n` vectors with them). -/
def WF (ch : Chain) : Prop :=
  (ch.neurons.map Neuron.uid).Nodup ∧
  ∀ x ∈ ch.neurons, x.uid < nOf ch ∧
    (∀ p ∈ x.weights, p.1 < nOf ch) ∧
    (x.bonds.map Prod.fst).Nodup ∧ (∀ p ∈ x.bonds, p.1 < nOf ch)

/-- Two weight lists that agree except possibly on the values of entries
targeting `u` itself (same keys, same order). -/
def SelfWeightEq (u : ℕ) : List (ℕ × ℕ) → List (ℕ × ℕ) → Prop :=
  List.Forall₂ fun p q => p.1 = q.1 ∧ (p.1 ≠ u → p.2 = q.2)

/-- Two neuron records that differ at most in the values of self-weight
entries. -/
def NeuronRel (x y : Neuron) : Prop :=
  x.uid = y.uid ∧ x.stake = y.stake ∧ x.bonds = y.bonds ∧
  x.last_update = y.last_update ∧ x.priority = y.priority ∧
  SelfWeightEq x.uid x.weights y.weights

/-! ## Concrete instances

Small storage states used to settle the claims on concrete inputs.  They are
evaluated with the modelled transcendentals `expSpec` / `log2Spec`. -/

/-- A neuron record with the given uid, stake, weights and bonds; all other
fields zero. -/
def mkN (u s : ℕ) (w b : List (ℕ × ℕ)) : Neuron :=
  { uid := u, stake := s, weights := w, bonds := b, last_update := 0,
    priority := 0, active := 0, rank := 0, trust := 0, consensus := 0,
    incentive := 0, dividends := 0, emission := 0 }

/-- A chain state with the given neuron table, pruning set and
`bonds_moving_average` (ppm); `rho = 10`, `kappa = 1`, `self_ownership = 2`,
`activity_cutoff = 100`. -/
def baseCh (ns : List Neuron) (prune : List ℕ) (bma : ℕ) : Chain :=
  { neurons := ns, prune := prune, activity_cutoff := 100,
    bonds_moving_average := bma, rho := 10, kappa := 1, self_ownership := 2,
    total_issuance := 0, total_stake := 0, total_emission := 0,
    total_bonds_purchased := 0, last_mechanism_step_block := 0 }

/-- Four neurons; only uid 0 has stake, weighting 1, 2 and 3 fully. -/
def chC1 : Chain := baseCh
  [ mkN 0 1 [(1, 2 ^ 32 - 1), (2, 2 ^ 32 - 1), (3, 2 ^ 32 - 1)] [],
    mkN 1 0 [] [], mkN 2 0 [] [], mkN 3 0 [] [] ] [] 900000

/-- Uid 1 is in the pruning set while uid 0 weights it fully. -/
def chC2 : Chain := baseCh
  [ mkN 0 1 [(1, 2 ^ 32 - 1)] [], mkN 1 0 [] [] ] [1] 500000

/-- Uid 0 holds a 1-unit bond in uid 1 and weights it zero, so the moving
average decreases the bond. -/
def chC3 : Chain := baseCh
  [ mkN 0 1 [(1, 0)] [(1, 1)], mkN 1 0 [] [] ] [] 900000

/-- Three neurons with stakes 1, 2, 3 weighting each other fully in a ring. -/
def chC5 : Chain := baseCh
  [ mkN 0 1 [(1, 2 ^ 32 - 1)] [], mkN 1 2 [(2, 2 ^ 32 - 1)] [],
    mkN 2 3 [(0, 2 ^ 32 - 1)] [] ] [] 0

/-- A single neuron whose stake is `u64::MAX`. -/
def chC6 : Chain := baseCh [ mkN 0 (2 ^ 64 - 1) [] [] ] [] 0

/-- A single neuron with stake 1 and no weights. -/
def chC7 : Chain := baseCh [ mkN 0 1 [] [] ] [] 0

/-- Two neurons with stakes 1 and 2 weighting each other fully; all the
normalization guards of the step pass on it. -/
def chW5 : Chain := baseCh
  [ mkN 0 1 [(1, 2 ^ 32 - 1)] [], mkN 1 2 [(0, 2 ^ 32 - 1)] [] ] [] 0

/-- Two neurons where uid 0 carries a small self-weight next to a full weight
on uid 1. -/
def chC9 : Chain := baseCh
  [ mkN 0 1 [(0, 3), (1, 2 ^ 32 - 1)] [], mkN 1 2 [(0, 2 ^ 32 - 1)] [] ] [] 0

/-- The neuron table of `chC9` with uid 0's self-weight raised to `u32::MAX`. -/
def nsC9 : List Neuron :=
  [ mkN 0 1 [(0, 2 ^ 32 - 1), (1, 2 ^ 32 - 1)] [], mkN 1 2 [(0, 2 ^ 32 - 1)] [] ]

/-- Difficulty-controller configuration of the claim's worked example. -/
def cfgW4 : DiffCfg :=
  { max_difficulty := 10000, min_difficulty := 100, adjustment_interval := 5,
    target_regs := 10 }

/-- Controller state with difficulty 1000 and 50 registrations this interval. -/
def sW4 : DiffSt :=
  { difficulty := 1000, last_adjustment := 0, regs_this_interval := 50,
    regs_this_block := 7 }

/-- Controller state with difficulty 1000 and 2 registrations this interval. -/
def sW4b : DiffSt :=
  { difficulty := 1000, last_adjustment := 0, regs_this_interval := 2,
    regs_this_block := 7 }

/-! ## Fixed-point arithmetic facts -/

@[simp] theorem upd_same {α : Type} (f : ℕ → α) (i : ℕ) (v : α) : upd f i v i = v := by
  simp [upd]

theorem upd_ne {α : Type} (f : ℕ → α) (i : ℕ) (v : α) {j : ℕ} (h : j ≠ i) :
    upd f i v j = f j := by
  simp [upd, h]

theorem wsub_eq_sub {a b : ℕ} (hba : b ≤ a) (ha : a < 2 ^ 64) : wsub a b = a - b := by
  unfold wsub
  have : a + 2 ^ 64 - b = (a - b) + 2 ^ 64 := by omega
  rw [this, Nat.add_mod_right, Nat.mod_eq_of_lt (by omega)]

theorem update_difficulty_regs_block (cfg : DiffCfg) (cb : ℕ) (s : DiffSt) :
    (update_difficulty cfg cb s).regs_this_block = 0 := by
  unfold update_difficulty
  split <;> rfl

theorem update_difficulty_noop (cfg : DiffCfg) (cb : ℕ) (s : DiffSt)
    (hle : s.last_adjustment ≤ cb) (hcb : cb < 2 ^ 64)
    (h : cb - s.last_adjustment < cfg.adjustment_interval) :
    update_difficulty cfg cb s = { s with regs_this_block := 0 } := by
  unfold update_difficulty
  rw [wsub_eq_sub hle hcb]
  simp [Nat.not_le.mpr h]

theorem update_difficulty_adjust (cfg : DiffCfg) (cb : ℕ) (s : DiffSt)
    (hle : s.last_adjustment ≤ cb) (hcb : cb < 2 ^ 64)
    (hmul : s.difficulty * 2 < 2 ^ 64)
    (h : cfg.adjustment_interval ≤ cb - s.last_adjustment) :
    update_difficulty cfg cb s =
      { difficulty :=
          if cfg.target_regs < s.regs_this_interval then
            min (s.difficulty * 2) cfg.max_difficulty
          else max (s.difficulty / 2) cfg.min_difficulty
        last_adjustment := cb
        regs_this_interval := 0
        regs_this_block := 0 } := by
  unfold update_difficulty
  rw [wsub_eq_sub hle hcb]
  simp only [h, if_true]
  split
  · rw [Nat.mod_eq_of_lt hmul]
    rcases le_or_lt cfg.max_difficulty (s.difficulty * 2) with hc | hc
    · simp [hc, Nat.min_eq_right hc]
    · simp [Nat.not_le.mpr hc, Nat.min_eq_left (le_of_lt hc)]
  · rcases le_or_lt (s.difficulty / 2) cfg.min_difficulty with hc | hc
    · simp [hc, Nat.max_eq_right hc]
    · simp [Nat.not_le.mpr hc, Nat.max_eq_left (le_of_lt hc)]

theorem fscale_pos : (0 : ℤ) < fscale := by norm_num [fscale]

theorem fscale_nonneg : (0 : ℤ) ≤ fscale := le_of_lt fscale_pos

theorem Fx.mul_eq (a b : ℤ) : Fx.mul a b = a * b / fscale :=
  Int.fdiv_eq_ediv _ fscale_nonneg

theorem Fx.div_eq (a : ℤ) {b : ℤ} (hb : 0 ≤ b) : Fx.div a b = a * fscale / b :=
  Int.fdiv_eq_ediv _ hb

theorem Fx.toU64_eq (a : ℤ) : Fx.toU64 a = (a / fscale).toNat := by
  unfold Fx.toU64
  rw [Int.fdiv_eq_ediv _ fscale_nonneg]

theorem Fx.ofU64_nonneg (x : ℕ) : 0 ≤ Fx.ofU64 x :=
  mul_nonneg (Int.natCast_nonneg x) fscale_nonneg

theorem Fx.one_pos : (0 : ℤ) < Fx.one := fscale_pos

theorem Fx.mul_nonneg {a b : ℤ} (ha : 0 ≤ a) (hb : 0 ≤ b) : 0 ≤ Fx.mul a b := by
  rw [Fx.mul_eq]
  exact Int.ediv_nonneg (Int.mul_nonneg ha hb) fscale_nonneg

theorem Fx.div_nonneg {a b : ℤ} (ha : 0 ≤ a) (hb : 0 ≤ b) : 0 ≤ Fx.div a b := by
  rw [Fx.div_eq _ hb]
  exact Int.ediv_nonneg (Int.mul_nonneg ha fscale_nonneg) hb

theorem Fx.mul_ofU64_left (x : ℕ) (b : ℤ) : Fx.mul (Fx.ofU64 x) b = (x : ℤ) * b := by
  rw [Fx.mul_eq, Fx.ofU64]
  rw [show (x : ℤ) * fscale * b = (x : ℤ) * b * fscale by ring]
  exact Int.mul_ediv_cancel _ (ne_of_gt fscale_pos)

/-- A reciprocal `1 / from_num(k)` lies in `[0, 1]` in fixed point (it is `0`
in the total model when `k = 0`). -/
theorem recip_bounds (k : ℕ) :
    0 ≤ Fx.div Fx.one (Fx.ofU64 k) ∧ Fx.div Fx.one (Fx.ofU64 k) ≤ Fx.one := by
  constructor
  · exact Fx.div_nonneg (le_of_lt Fx.one_pos) (Fx.ofU64_nonneg k)
  · rcases Nat.eq_zero_or_pos k with hk | hk
    · subst hk
      have h0 : Fx.ofU64 0 = 0 := by simp [Fx.ofU64]
      rw [h0, Fx.div_eq _ (le_refl (0 : ℤ)), Int.ediv_zero]
      exact le_of_lt Fx.one_pos
    · rw [Fx.div_eq _ (Fx.ofU64_nonneg k)]
      have hkpos : (0 : ℤ) < (k : ℤ) * fscale :=
        mul_pos (by exact_mod_cast hk) fscale_pos
      have h1 : Fx.one * fscale ≤ ((k : ℤ) * fscale) * fscale := by
        have : (1 : ℤ) ≤ (k : ℤ) := by exact_mod_cast hk
        have := mul_le_mul_of_nonneg_right this fscale_nonneg
        unfold Fx.one
        nlinarith [fscale_pos]
      calc Fx.one * fscale / ((k : ℤ) * fscale)
          ≤ ((k : ℤ) * fscale) * fscale / ((k : ℤ) * fscale) :=
            Int.ediv_le_ediv hkpos h1
        _ = fscale := Int.mul_ediv_cancel_left _ (ne_of_gt hkpos)

theorem selfOwnFx_bounds (ch : Chain) :
    0 ≤ selfOwnFxOf ch ∧ selfOwnFxOf ch ≤ Fx.one := recip_bounds ch.self_ownership

theorem kappaFx_bounds (ch : Chain) :
    0 ≤ kappaFxOf ch ∧ kappaFxOf ch ≤ Fx.one := recip_bounds ch.kappa

/-- For a valid configuration (`bonds_moving_average` at most one million parts
per million) the moving-average coefficient lies in `[0, 1]`. -/
theorem bmaFx_bounds (ch : Chain) (h : ch.bonds_moving_average ≤ 1000000) :
    0 ≤ bmaFxOf ch ∧ bmaFxOf ch ≤ Fx.one := by
  unfold bmaFxOf
  constructor
  · exact Fx.div_nonneg (Fx.ofU64_nonneg _) (Fx.ofU64_nonneg _)
  · rw [Fx.div_eq _ (Fx.ofU64_nonneg _)]
    have hp : (0 : ℤ) < Fx.ofU64 1000000 :=
      mul_pos (by norm_num) fscale_pos
    have h1 : Fx.ofU64 ch.bonds_moving_average * fscale ≤ Fx.ofU64 1000000 * fscale := by
      have hc : (ch.bonds_moving_average : ℤ) ≤ (1000000 : ℤ) := by exact_mod_cast h
      unfold Fx.ofU64
      exact mul_le_mul_of_nonneg_right
        (mul_le_mul_of_nonneg_right hc fscale_nonneg) fscale_nonneg
    calc Fx.ofU64 ch.bonds_moving_average * fscale / Fx.ofU64 1000000
        ≤ Fx.ofU64 1000000 * fscale / Fx.ofU64 1000000 := Int.ediv_le_ediv hp h1
      _ = fscale := Int.mul_ediv_cancel_left _ (ne_of_gt hp)

/-- Division-sum bounds: for a positive divisor `T`, the summed truncated
quotients `Σ (a i * fscale) / T` recover `(Σ a i) * fscale` up to less than one
divisor unit per summand. -/
theorem sum_div_bounds (F : Finset ℕ) (hF : F.Nonempty) (a : ℕ → ℤ) {T : ℤ}
    (hT : 0 < T) :
    (∑ i ∈ F, a i) * fscale - F.card * T < (∑ i ∈ F, a i * fscale / T) * T ∧
    (∑ i ∈ F, a i * fscale / T) * T ≤ (∑ i ∈ F, a i) * fscale := by
  constructor
  · have h1 : ∀ i ∈ F, a i * fscale < (a i * fscale / T + 1) * T := fun i _ =>
      Int.lt_ediv_add_one_mul_self _ hT
    have h2 : (∑ i ∈ F, a i * fscale) < ∑ i ∈ F, (a i * fscale / T + 1) * T :=
      Finset.sum_lt_sum_of_nonempty hF h1
    have h3 : (∑ i ∈ F, (a i * fscale / T + 1) * T) =
        (∑ i ∈ F, a i * fscale / T) * T + F.card * T := by
      simp only [add_mul, one_mul]
      rw [Finset.sum_add_distrib, Finset.sum_const, nsmul_eq_mul, Finset.sum_mul]
    have h4 : (∑ i ∈ F, a i * fscale) = (∑ i ∈ F, a i) * fscale := by
      rw [Finset.sum_mul]
    rw [h3, h4] at h2
    linarith
  · have h5 : (∑ i ∈ F, a i * fscale / T) * T = ∑ i ∈ F, a i * fscale / T * T := by
      rw [Finset.sum_mul]
    have h6 : (∑ i ∈ F, a i * fscale / T * T) ≤ ∑ i ∈ F, a i * fscale :=
      Finset.sum_le_sum fun i _ => Int.ediv_mul_le _ (ne_of_gt hT)
    have h7 : (∑ i ∈ F, a i * fscale) = (∑ i ∈ F, a i) * fscale := by
      rw [Finset.sum_mul]
    linarith

/-! ## Generic sum and list helpers -/

theorem sum_ite_eq_upd {β : Type} [AddCommMonoid β] (F : Finset ℕ) (f : ℕ → β)
    (i : ℕ) (v : β) (hi : i ∈ F) :
    (∑ u ∈ F, (if u = i then v else f u)) = v + ∑ u ∈ F.erase i, f u := by
  rw [← Finset.add_sum_erase _ _ hi]
  simp only [if_pos rfl]
  congr 1
  exact Finset.sum_congr rfl fun u hu => if_neg (Finset.ne_of_mem_erase hu)

theorem sum_eq_add_erase {β : Type} [AddCommMonoid β] (F : Finset ℕ) (f : ℕ → β)
    (i : ℕ) (hi : i ∈ F) :
    (∑ u ∈ F, f u) = f i + ∑ u ∈ F.erase i, f u := (Finset.add_sum_erase F f hi).symm

theorem sum_upd_int (F : Finset ℕ) (f : ℕ → ℤ) (i : ℕ) (v : ℤ) (hi : i ∈ F) :
    (∑ u ∈ F, upd f i v u) = (∑ u ∈ F, f u) - f i + v := by
  have h1 : (∑ u ∈ F, upd f i v u) = v + ∑ u ∈ F.erase i, f u := by
    simpa [upd] using sum_ite_eq_upd F f i v hi
  have h2 := sum_eq_add_erase F f i hi
  omega

/-- A list of dense distinct uids below `n` of length `n` hits every index. -/
theorem dense_mem {l : List ℕ} {n : ℕ} (hnd : l.Nodup) (hlen : l.length = n)
    (hlt : ∀ u ∈ l, u < n) : ∀ u < n, u ∈ l := by
  have hsub : l.toFinset ⊆ Finset.range n := by
    intro u hu
    exact Finset.mem_range.mpr (hlt u (List.mem_toFinset.mp hu))
  have hcard : (Finset.range n).card ≤ l.toFinset.card := by
    rw [List.toFinset_card_of_nodup hnd, hlen, Finset.card_range]
  have heq : l.toFinset = Finset.range n := Finset.eq_of_subset_of_card_le hsub hcard
  intro u hu
  have : u ∈ l.toFinset := heq ▸ Finset.mem_range.mpr hu
  exact List.mem_toFinset.mp this

theorem toFinset_eq_range {l : List ℕ} {n : ℕ} (hnd : l.Nodup) (hlen : l.length = n)
    (hlt : ∀ u ∈ l, u < n) : l.toFinset = Finset.range n := by
  have hsub : l.toFinset ⊆ Finset.range n := by
    intro u hu
    exact Finset.mem_range.mpr (hlt u (List.mem_toFinset.mp hu))
  have hcard : (Finset.range n).card ≤ l.toFinset.card := by
    rw [List.toFinset_card_of_nodup hnd, hlen, Finset.card_range]
  exact Finset.eq_of_subset_of_card_le hsub hcard

/-- Sums over a dense nodup uid list agree with sums over `Finset.range n`. -/
theorem sum_uids_eq_range {β : Type} [AddCommMonoid β] {l : List ℕ} {n : ℕ}
    (hnd : l.Nodup) (hlen : l.length = n) (hlt : ∀ u ∈ l, u < n) (f : ℕ → β) :
    (l.map f).sum = ∑ u ∈ Finset.range n, f u := by
  rw [← toFinset_eq_range hnd hlen hlt, List.sum_toFinset f hnd]

/-- Division-sum bounds for a general integer numerator family. -/
theorem sum_ediv_bounds (F : Finset ℕ) (hF : F.Nonempty) (b : ℕ → ℤ) {T : ℤ}
    (hT : 0 < T) :
    (∑ u ∈ F, b u / T) * T ≤ ∑ u ∈ F, b u ∧
    (∑ u ∈ F, b u) < ((∑ u ∈ F, b u / T) + F.card) * T := by
  constructor
  · have h5 : (∑ u ∈ F, b u / T) * T = ∑ u ∈ F, b u / T * T := by
      rw [Finset.sum_mul]
    have h6 : (∑ u ∈ F, b u / T * T) ≤ ∑ u ∈ F, b u :=
      Finset.sum_le_sum fun u _ => Int.ediv_mul_le _ (ne_of_gt hT)
    omega
  · have h1 : ∀ u ∈ F, b u < (b u / T + 1) * T := fun u _ =>
      Int.lt_ediv_add_one_mul_self _ hT
    have h2 : (∑ u ∈ F, b u) < ∑ u ∈ F, (b u / T + 1) * T :=
      Finset.sum_lt_sum_of_nonempty hF h1
    have h3 : (∑ u ∈ F, (b u / T + 1) * T) = ((∑ u ∈ F, b u / T) + F.card) * T := by
      simp only [add_mul, one_mul]
      rw [Finset.sum_add_distrib, Finset.sum_const, nsmul_eq_mul, Finset.sum_mul]
    omega

theorem list_sum_pos {l : List ℤ} (h : 0 < l.sum) : ∃ x ∈ l, 0 < x := by
  induction l with
  | nil => simp at h
  | cons a t ih =>
    rcases lt_or_le 0 a with ha | ha
    · exact ⟨a, List.mem_cons_self a t, ha⟩
    · have : 0 < t.sum := by
        simp only [List.sum_cons] at h
        omega
      obtain ⟨x, hx, hxp⟩ := ih this
      exact ⟨x, List.mem_cons_of_mem a hx, hxp⟩

theorem list_single_le_sum {l : List ℤ} (hnn : ∀ x ∈ l, 0 ≤ x) {x : ℤ} (hx : x ∈ l) :
    x ≤ l.sum := by
  induction l with
  | nil => simp at hx
  | cons a t ih =>
    have ht : ∀ y ∈ t, 0 ≤ y := fun y hy => hnn y (List.mem_cons_of_mem a hy)
    rcases List.mem_cons.mp hx with hxa | hx'
    · have : 0 ≤ t.sum := List.sum_nonneg ht
      simp only [List.sum_cons]
      omega
    · have := ih ht hx'
      have ha : 0 ≤ a := hnn a (List.mem_cons_self a t)
      simp only [List.sum_cons]
      omega

/-! ## Ingest-pass characterization -/

theorem bondRowStep_fst (prune : List ℕ) (l : List (ℕ × ℕ)) (r0 b0 : ℕ → ℕ) :
    (l.foldl (bondRowStep prune) (r0, b0)).1 =
      l.foldl (fun r p => if p.1 ∈ prune then r else upd r p.1 p.2) r0 := by
  induction l generalizing r0 b0 with
  | nil => rfl
  | cons p t ih =>
    simp only [List.foldl_cons, bondRowStep]
    split <;> exact ih _ _

theorem bondRowStep_snd (prune : List ℕ) (l : List (ℕ × ℕ)) (r0 b0 : ℕ → ℕ) (u : ℕ) :
    (l.foldl (bondRowStep prune) (r0, b0)).2 u = b0 u + colContrib prune l u := by
  induction l generalizing r0 b0 with
  | nil => simp [colContrib]
  | cons p t ih =>
    simp only [List.foldl_cons, bondRowStep, colContrib, List.filter_cons]
    rcases hp : decide (p.1 ∈ prune) with _ | _
    · have hp' : ¬ p.1 ∈ prune := of_decide_eq_false hp
      simp only [if_neg hp']
      rw [ih]
      rcases hu : decide (p.1 = u) with _ | _
      · have hu' : p.1 ≠ u := of_decide_eq_false hu
        simp [colContrib, hp, hu, upd_ne _ _ _ (Ne.symm hu')]
      · have hu' : p.1 = u := of_decide_eq_true hu
        subst hu'
        simp only [colContrib, List.filter_cons, hp, hu, upd_same, Bool.not_false,
          Bool.and_true, if_true, List.map_cons, List.sum_cons]
        omega
    · have hp' : p.1 ∈ prune := of_decide_eq_true hp
      simp only [if_pos hp']
      rw [ih]
      simp [colContrib, hp]

theorem colContrib_not_mem (prune : List ℕ) {l : List (ℕ × ℕ)} {u : ℕ}
    (h : u ∉ l.map Prod.fst) : colContrib prune l u = 0 := by
  induction l with
  | nil => rfl
  | cons p t ih =>
    simp only [List.map_cons, List.mem_cons] at h
    push_neg at h
    simp only [colContrib, List.filter_cons]
    have : decide (p.1 = u) = false := decide_eq_false fun hc => h.1 hc.symm
    simp only [this, Bool.and_false]
    exact ih h.2

theorem rowFold_not_mem (prune : List ℕ) {l : List (ℕ × ℕ)} (r0 : ℕ → ℕ) {u : ℕ}
    (h : u ∉ l.map Prod.fst) :
    l.foldl (fun r p => if p.1 ∈ prune then r else upd r p.1 p.2) r0 u = r0 u := by
  induction l generalizing r0 with
  | nil => rfl
  | cons p t ih =>
    simp only [List.map_cons, List.mem_cons] at h
    push_neg at h
    simp only [List.foldl_cons]
    rw [ih _ h.2]
    split
    · rfl
    · exact upd_ne _ _ _ h.1

theorem rowFold_eq_colContrib (prune : List ℕ) {l : List (ℕ × ℕ)}
    (hnd : (l.map Prod.fst).Nodup) (r0 : ℕ → ℕ) (u : ℕ) (h0 : r0 u = 0) :
    l.foldl (fun r p => if p.1 ∈ prune then r else upd r p.1 p.2) r0 u =
      colContrib prune l u := by
  induction l generalizing r0 with
  | nil => simpa [colContrib] using h0
  | cons p t ih =>
    simp only [List.map_cons, List.nodup_cons] at hnd
    simp only [List.foldl_cons]
    rcases Decidable.em (p.1 = u) with hu | hu
    · subst hu
      rw [rowFold_not_mem prune _ hnd.1]
      have hcc := colContrib_not_mem prune hnd.1
      have hself : decide (p.1 = p.1) = true := by simp
      simp only [colContrib, List.filter_cons, hself, Bool.and_true]
      rcases hp : decide (p.1 ∈ prune) with _ | _
      · have hp' : ¬ p.1 ∈ prune := of_decide_eq_false hp
        simp only [if_neg hp', upd_same, Bool.not_false, List.map_cons, List.sum_cons]
        simpa [colContrib] using hcc
      · have hp' : p.1 ∈ prune := of_decide_eq_true hp
        simp only [if_pos hp', Bool.not_true, Bool.false_and]
        rw [h0]
        simpa [colContrib] using hcc.symm
    · have h0' : (if p.1 ∈ prune then r0 else upd r0 p.1 p.2) u = 0 := by
        split
        · exact h0
        · rw [upd_ne _ _ _ fun hc => hu hc.symm]; exact h0
      rw [ih hnd.2 _ h0']
      simp only [colContrib, List.filter_cons]
      have : decide (p.1 = u) = false := decide_eq_false hu
      simp [this, colContrib]

/-- With distinct bond keys, the dense row and the totals contribution agree
pointwise. -/
theorem bondRow_eq_colContrib (prune : List ℕ) {l : List (ℕ × ℕ)}
    (hnd : (l.map Prod.fst).Nodup) (u : ℕ) :
    bondRow prune l u = colContrib prune l u :=
  rowFold_eq_colContrib prune hnd _ u rfl

theorem colContrib_prune {prune : List ℕ} (l : List (ℕ × ℕ)) {j : ℕ}
    (hj : j ∈ prune) : colContrib prune l j = 0 := by
  induction l with
  | nil => rfl
  | cons p t ih =>
    simp only [colContrib, List.filter_cons] at ih ⊢
    rcases Decidable.em (p.1 = j) with hp | hp
    · subst hp
      have : decide (p.1 ∈ prune) = true := decide_eq_true hj
      simp [this, ih]
    · have : decide (p.1 = j) = false := decide_eq_false hp
      simp [this, ih]

theorem rowFold_prune (prune : List ℕ) (l : List (ℕ × ℕ)) (r0 : ℕ → ℕ) {j : ℕ}
    (hj : j ∈ prune) (h0 : r0 j = 0) :
    l.foldl (fun r p => if p.1 ∈ prune then r else upd r p.1 p.2) r0 j = 0 := by
  induction l generalizing r0 with
  | nil => exact h0
  | cons p t ih =>
    simp only [List.foldl_cons]
    refine ih _ ?_
    split
    · exact h0
    · rename_i hp
      rw [upd_ne _ _ _ fun hc => hp (by rw [← hc]; exact hj)]
      exact h0

section IngestLemmas

variable (log2Fn : ℕ → ℕ) (prune : List ℕ) (block cutoff : ℕ)

theorem ingest_go_uids (ns : List Neuron) (s : Ingest) :
    (ns.foldl (ingestStep log2Fn prune block cutoff) s).uids =
      s.uids ++ ns.map Neuron.uid := by
  induction ns generalizing s with
  | nil => simp
  | cons x t ih => simp [ih, ingestStep]

theorem ingest_go_slot_ne (ns : List Neuron) (s : Ingest) (u : ℕ)
    (hu : u ∉ ns.map Neuron.uid) :
    (ns.foldl (ingestStep log2Fn prune block cutoff) s).stake u = s.stake u ∧
    (ns.foldl (ingestStep log2Fn prune block cutoff) s).active u = s.active u ∧
    (ns.foldl (ingestStep log2Fn prune block cutoff) s).priority u = s.priority u ∧
    (ns.foldl (ingestStep log2Fn prune block cutoff) s).weights u = s.weights u ∧
    (ns.foldl (ingestStep log2Fn prune block cutoff) s).bonds u = s.bonds u := by
  induction ns generalizing s with
  | nil => exact ⟨rfl, rfl, rfl, rfl, rfl⟩
  | cons x t ih =>
    simp only [List.map_cons, List.mem_cons] at hu
    push_neg at hu
    simp only [List.foldl_cons]
    obtain ⟨h1, h2, h3, h4, h5⟩ := ih (ingestStep log2Fn prune block cutoff s x) hu.2
    refine ⟨?_, ?_, ?_, ?_, ?_⟩
    · rw [h1]; exact upd_ne _ _ _ hu.1
    · rw [h2]; exact upd_ne _ _ _ hu.1
    · rw [h3]; exact upd_ne _ _ _ hu.1
    · rw [h4]; exact upd_ne _ _ _ hu.1
    · rw [h5]; exact upd_ne _ _ _ hu.1

theorem ingest_go_slot (ns : List Neuron) (s : Ingest) (x : Neuron) (hx : x ∈ ns)
    (hnd : (ns.map Neuron.uid).Nodup) :
    (ns.foldl (ingestStep log2Fn prune block cutoff) s).stake x.uid =
      Fx.ofU64 x.stake ∧
    (ns.foldl (ingestStep log2Fn prune block cutoff) s).active x.uid =
      (if wsub block x.last_update < cutoff then 1 else 0) ∧
    (ns.foldl (ingestStep log2Fn prune block cutoff) s).priority x.uid =
      x.priority + log2Fn ((x.stake + 1) % 2 ^ 64) ∧
    (ns.foldl (ingestStep log2Fn prune block cutoff) s).weights x.uid = x.weights ∧
    (ns.foldl (ingestStep log2Fn prune block cutoff) s).bonds x.uid =
      bondRow prune x.bonds := by
  induction ns generalizing s with
  | nil => cases hx
  | cons y t ih =>
    simp only [List.map_cons, List.nodup_cons] at hnd
    rcases List.mem_cons.mp hx with hxy | hxt
    · subst hxy
      simp only [List.foldl_cons]
      obtain ⟨h1, h2, h3, h4, h5⟩ :=
        ingest_go_slot_ne log2Fn prune block cutoff t
          (ingestStep log2Fn prune block cutoff s x) x.uid hnd.1
      rw [h1, h2, h3, h4, h5]
      unfold ingestStep
      refine ⟨?_, ?_, ?_, ?_, ?_⟩ <;> simp [bondRowStep_fst, bondRow]
    · simp only [List.foldl_cons]
      exact ih _ hxt hnd.2

theorem ingest_go_tas (ns : List Neuron) (s : Ingest) :
    (ns.foldl (ingestStep log2Fn prune block cutoff) s).total_active_stake =
      s.total_active_stake +
        (ns.map fun x =>
          if wsub block x.last_update < cutoff then Fx.ofU64 x.stake else 0).sum := by
  induction ns generalizing s with
  | nil => simp
  | cons x t ih =>
    simp only [List.foldl_cons, List.map_cons, List.sum_cons]
    rw [ih]
    show s.total_active_stake + _ + _ = _
    ring

theorem ingest_go_bt (ns : List Neuron) (s : Ingest) (u : ℕ) :
    (ns.foldl (ingestStep log2Fn prune block cutoff) s).bond_totals u =
      s.bond_totals u + (ns.map fun x => colContrib prune x.bonds u).sum := by
  induction ns generalizing s with
  | nil => simp
  | cons x t ih =>
    simp only [List.foldl_cons, List.map_cons, List.sum_cons]
    rw [ih]
    show (x.bonds.foldl (bondRowStep prune) (fun _ => 0, s.bond_totals)).2 u + _ = _
    rw [bondRowStep_snd]
    omega

/-- Running invariant of the ingest loop: stakes are nonnegative,
`total_active_stake` is nonnegative and bounds the stake of every active
participant. -/
theorem ingest_active_le (ns : List Neuron) (s : Ingest)
    (hs : ∀ u, 0 ≤ s.stake u) (h0 : 0 ≤ s.total_active_stake)
    (ha : ∀ u, s.active u = 1 → s.stake u ≤ s.total_active_stake) :
    (∀ u, 0 ≤ (ns.foldl (ingestStep log2Fn prune block cutoff) s).stake u) ∧
    0 ≤ (ns.foldl (ingestStep log2Fn prune block cutoff) s).total_active_stake ∧
    (∀ u, (ns.foldl (ingestStep log2Fn prune block cutoff) s).active u = 1 →
      (ns.foldl (ingestStep log2Fn prune block cutoff) s).stake u ≤
        (ns.foldl (ingestStep log2Fn prune block cutoff) s).total_active_stake) := by
  induction ns generalizing s with
  | nil => exact ⟨hs, h0, ha⟩
  | cons x t ih =>
    simp only [List.foldl_cons]
    refine ih _ ?_ ?_ ?_
    · intro u
      unfold ingestStep
      simp only
      rcases Decidable.em (u = x.uid) with hu | hu
      · subst hu
        rw [upd_same]
        exact Fx.ofU64_nonneg _
      · rw [upd_ne _ _ _ hu]
        exact hs u
    · unfold ingestStep
      simp only
      have : (0 : ℤ) ≤ (if wsub block x.last_update < cutoff then Fx.ofU64 x.stake else 0) := by
        split
        · exact Fx.ofU64_nonneg _
        · exact le_refl 0
      omega
    · intro u hu1
      unfold ingestStep at hu1 ⊢
      simp only at hu1 ⊢
      rcases Decidable.em (u = x.uid) with hu | hu
      · subst hu
        rw [upd_same] at hu1 ⊢
        rcases Decidable.em (wsub block x.last_update < cutoff) with hc | hc
        · rw [if_pos hc]
          omega
        · rw [if_neg hc] at hu1
          cases hu1
      · rw [upd_ne _ _ _ hu] at hu1 ⊢
        have h1 := ha u hu1
        have : (0 : ℤ) ≤ (if wsub block x.last_update < cutoff then Fx.ofU64 x.stake else 0) := by
          split
          · exact Fx.ofU64_nonneg _
          · exact le_refl 0
        omega

/-- During ingest, a pruned column stays zero in the bond matrix and in
`bond_totals`. -/
theorem ingest_prune_col (ns : List Neuron) (s : Ingest) {j : ℕ} (hj : j ∈ prune)
    (hb : ∀ i, s.bonds i j = 0) (ht : s.bond_totals j = 0) :
    (∀ i, (ns.foldl (ingestStep log2Fn prune block cutoff) s).bonds i j = 0) ∧
    (ns.foldl (ingestStep log2Fn prune block cutoff) s).bond_totals j = 0 := by
  induction ns generalizing s with
  | nil => exact ⟨hb, ht⟩
  | cons x t ih =>
    simp only [List.foldl_cons]
    refine ih _ ?_ ?_
    · intro i
      unfold ingestStep
      simp only
      rcases Decidable.em (i = x.uid) with hi | hi
      · subst hi
        rw [upd_same, bondRowStep_fst]
        exact rowFold_prune prune _ _ hj rfl
      · rw [upd_ne _ _ _ hi]
        exact hb i
    · unfold ingestStep
      simp only
      rw [bondRowStep_snd, ht, colContrib_prune _ hj]

end IngestLemmas

/-! ## Stake-normalization characterization -/

theorem norm_go (active : ℕ → ℕ) (tas : ℤ) (l : List ℕ) (s : NormSt) (hnd : l.Nodup) :
    (∀ u ∈ l, (l.foldl (normStep active tas) s).stake u = Fx.div (s.stake u) tas) ∧
    (∀ u, u ∉ l → (l.foldl (normStep active tas) s).stake u = s.stake u) ∧
    (l.foldl (normStep active tas) s).tnas =
      s.tnas + (l.map fun u => if active u = 1 then Fx.div (s.stake u) tas else 0).sum := by
  induction l generalizing s with
  | nil => simp
  | cons a t ih =>
    obtain ⟨ha, hndt⟩ := List.nodup_cons.mp hnd
    obtain ⟨ih1, ih2, ih3⟩ := ih (normStep active tas s a) hndt
    have hsa : ∀ u ∈ t, (normStep active tas s a).stake u = s.stake u := by
      intro u hu
      show upd s.stake a (Fx.div (s.stake a) tas) u = s.stake u
      exact upd_ne _ _ _ fun hc => ha (hc ▸ hu)
    refine ⟨?_, ?_, ?_⟩
    · intro u hu
      rcases List.mem_cons.mp hu with hua | hut
      · subst hua
        simp only [List.foldl_cons]
        rw [ih2 u ha]
        exact upd_same _ _ _
      · simp only [List.foldl_cons]
        rw [ih1 u hut, hsa u hut]
    · intro u hu
      simp only [List.mem_cons] at hu
      push_neg at hu
      simp only [List.foldl_cons]
      rw [ih2 u hu.2]
      show upd s.stake a (Fx.div (s.stake a) tas) u = s.stake u
      exact upd_ne _ _ _ hu.1
    · simp only [List.foldl_cons, List.map_cons, List.sum_cons]
      rw [ih3]
      have hmap : (t.map fun u =>
          if active u = 1 then Fx.div ((normStep active tas s a).stake u) tas else 0) =
          t.map fun u => if active u = 1 then Fx.div (s.stake u) tas else 0 := by
        refine List.map_congr_left fun u hu => ?_
        rw [hsa u hu]
      rw [hmap]
      show s.tnas + _ + _ = _
      ring

/-! ## Edge-pass characterization -/

theorem countTarget_cons (e : ℕ × ℕ × ℕ) (es : List (ℕ × ℕ × ℕ)) (u : ℕ) :
    countTarget (e :: es) u = (if e.2.1 = u then 1 else 0) + countTarget es u := by
  unfold countTarget
  rw [List.filter_cons]
  split
  · simp only [List.length_cons]
    rename_i hc
    rw [if_pos (of_decide_eq_true hc)]
    omega
  · rename_i hc
    rw [if_neg (of_decide_eq_false (Bool.not_eq_true _ ▸ hc))]
    omega

/-- Truncating a nonnegative fixed-point value and its complement below an
integer `P` loses at most one unit in total. -/
theorem toU64_split_le {P : ℕ} {ma : ℤ} (h0 : 0 ≤ ma) (hle : ma ≤ Fx.ofU64 P) :
    Fx.toU64 ma + Fx.toU64 (Fx.ofU64 P - ma) ≤ P ∧
    P ≤ Fx.toU64 ma + Fx.toU64 (Fx.ofU64 P - ma) + 1 := by
  rw [Fx.toU64_eq, Fx.toU64_eq]
  rw [Fx.ofU64] at hle ⊢
  have hq1 : (0 : ℤ) ≤ ma / fscale := Int.ediv_nonneg h0 fscale_nonneg
  have hq2 : (0 : ℤ) ≤ ((P : ℤ) * fscale - ma) / fscale :=
    Int.ediv_nonneg (by omega) fscale_nonneg
  have hm1 : ma / fscale * fscale ≤ ma := Int.ediv_mul_le _ (ne_of_gt fscale_pos)
  have hm2 : ((P : ℤ) * fscale - ma) / fscale * fscale ≤ (P : ℤ) * fscale - ma :=
    Int.ediv_mul_le _ (ne_of_gt fscale_pos)
  have hl1 : ma < ma / fscale * fscale + fscale := by
    have h := Int.lt_ediv_add_one_mul_self ma fscale_pos
    rw [add_mul, one_mul] at h
    exact h
  have hl2 : (P : ℤ) * fscale - ma <
      ((P : ℤ) * fscale - ma) / fscale * fscale + fscale := by
    have h := Int.lt_ediv_add_one_mul_self ((P : ℤ) * fscale - ma) fscale_pos
    rw [add_mul, one_mul] at h
    exact h
  have hsum_le : (ma / fscale + ((P : ℤ) * fscale - ma) / fscale) * fscale ≤ (P : ℤ) * fscale := by
    rw [add_mul]
    omega
  have hsum_lt : (P : ℤ) * fscale <
      (ma / fscale + ((P : ℤ) * fscale - ma) / fscale + 2) * fscale := by
    rw [add_mul, add_mul]
    omega
  have h1 : ma / fscale + ((P : ℤ) * fscale - ma) / fscale ≤ (P : ℤ) :=
    le_of_mul_le_mul_right hsum_le fscale_pos
  have h2 : (P : ℤ) < ma / fscale + ((P : ℤ) * fscale - ma) / fscale + 2 :=
    lt_of_mul_lt_mul_right hsum_lt fscale_nonneg
  have ht1 : ((ma / fscale).toNat : ℤ) = ma / fscale := Int.toNat_of_nonneg hq1
  have ht2 : ((((P : ℤ) * fscale - ma) / fscale).toNat : ℤ) =
      ((P : ℤ) * fscale - ma) / fscale := Int.toNat_of_nonneg hq2
  omega

/-- Truncating an increase above the integer `P` is an exact difference of
truncations. -/
theorem toU64_incr {P : ℕ} {ma : ℤ} (hgt : Fx.ofU64 P < ma) :
    Fx.toU64 (ma - Fx.ofU64 P) = Fx.toU64 ma - P ∧ P ≤ Fx.toU64 ma := by
  rw [Fx.toU64_eq, Fx.toU64_eq]
  rw [Fx.ofU64] at hgt ⊢
  have h0 : (0 : ℤ) ≤ ma := le_trans (Int.mul_nonneg (Int.natCast_nonneg P) fscale_nonneg)
    (le_of_lt hgt)
  have hdiv : (ma - (P : ℤ) * fscale) / fscale = ma / fscale - (P : ℤ) := by
    have := Int.add_mul_ediv_right ma (-(P : ℤ)) (ne_of_gt fscale_pos)
    rw [show ma + -(P : ℤ) * fscale = ma - (P : ℤ) * fscale by ring] at this
    rw [this]
    ring
  have hP : (P : ℤ) ≤ ma / fscale := by
    have h1 : ((P : ℤ) * fscale) / fscale ≤ ma / fscale :=
      Int.ediv_le_ediv fscale_pos (le_of_lt hgt)
    rwa [Int.mul_ediv_cancel _ (ne_of_gt fscale_pos)] at h1
  have hq1 : (0 : ℤ) ≤ ma / fscale := le_trans (Int.natCast_nonneg P) hP
  have ht1 : ((ma / fscale).toNat : ℤ) = ma / fscale := Int.toNat_of_nonneg hq1
  rw [hdiv]
  have ht2 : ((ma / fscale - (P : ℤ)).toNat : ℤ) = ma / fscale - (P : ℤ) :=
    Int.toNat_of_nonneg (by omega)
  omega

/-- Column sums after one bond write. -/
theorem colsum_upd (n : ℕ) (bonds : ℕ → ℕ → ℕ) (i j nb : ℕ) (hi : i < n) :
    (∀ u, u ≠ j → colsum n (upd bonds i (upd (bonds i) j nb)) u = colsum n bonds u) ∧
    colsum n (upd bonds i (upd (bonds i) j nb)) j + bonds i j = colsum n bonds j + nb := by
  constructor
  · intro u hu
    unfold colsum
    refine Finset.sum_congr rfl fun i' _ => ?_
    simp only [upd, ite_apply, if_neg hu]
    rcases Decidable.em (i' = i) with hii | hii
    · subst hii
      simp
    · simp [hii]
  · unfold colsum
    have hmem : i ∈ Finset.range n := Finset.mem_range.mpr hi
    have hsum : (∑ i' ∈ Finset.range n, (upd bonds i (upd (bonds i) j nb)) i' j) =
        nb + ∑ i' ∈ (Finset.range n).erase i, bonds i' j := by
      have : ∀ i', (upd bonds i (upd (bonds i) j nb)) i' j =
          (if i' = i then nb else bonds i' j) := by
        intro i'
        simp only [upd, ite_apply]
        split
        · simp [upd]
        · rfl
      rw [Finset.sum_congr rfl fun i' _ => this i']
      exact sum_ite_eq_upd _ _ _ _ hmem
    have hsplit : (∑ i' ∈ Finset.range n, bonds i' j) =
        bonds i j + ∑ i' ∈ (Finset.range n).erase i, bonds i' j :=
      sum_eq_add_erase (Finset.range n) (fun i' => bonds i' j) i hmem
    omega

theorem edge_rinc_nonneg (active : ℕ → ℕ) (stake : ℕ → ℤ) (hst : ∀ u, 0 ≤ stake u)
    (i w : ℕ) :
    0 ≤ (if active i = 1 then Fx.mul (stake i) (Fx.div (Fx.ofU64 w) u32maxFx) else 0) := by
  split
  · exact Fx.mul_nonneg (hst i) (Fx.div_nonneg (Fx.ofU64_nonneg _) (Fx.ofU64_nonneg _))
  · exact le_refl 0

theorem edge_ma_nonneg {bmaFx e1 : ℤ} (hbma0 : 0 ≤ bmaFx) (hbma1 : bmaFx ≤ Fx.one)
    (he1 : 0 ≤ e1) {rinc : ℤ} (hrinc : 0 ≤ rinc) (P : ℕ) :
    0 ≤ Fx.mul bmaFx (Fx.ofU64 P) + Fx.mul (Fx.one - bmaFx) (Fx.mul rinc e1) := by
  have h1 : 0 ≤ Fx.mul bmaFx (Fx.ofU64 P) := Fx.mul_nonneg hbma0 (Fx.ofU64_nonneg P)
  have h2 : 0 ≤ Fx.mul (Fx.one - bmaFx) (Fx.mul rinc e1) :=
    Fx.mul_nonneg (by omega) (Fx.mul_nonneg hrinc he1)
  omega

section EdgeLemmas

variable (active : ℕ → ℕ) (stake : ℕ → ℤ) (bmaFx e1 : ℤ)

theorem edgeStep_tbp (s : EdgeSt) (e : ℕ × ℕ × ℕ) :
    (edgeStep active stake bmaFx e1 s e).tbp = edgeDelta active stake bmaFx e1 s e := rfl

theorem edge_fold_append (es : List (ℕ × ℕ × ℕ)) (e : ℕ × ℕ × ℕ) (s : EdgeSt) :
    (es ++ [e]).foldl (edgeStep active stake bmaFx e1) s =
      edgeStep active stake bmaFx e1 (es.foldl (edgeStep active stake bmaFx e1) s) e := by
  simp [List.foldl_append]

theorem edge_go_sums (n : ℕ) (es : List (ℕ × ℕ × ℕ)) (s : EdgeSt)
    (hes : ∀ e ∈ es, e.2.1 < n) :
    (∑ u ∈ Finset.range n, (es.foldl (edgeStep active stake bmaFx e1) s).ranks u) -
        (es.foldl (edgeStep active stake bmaFx e1) s).total_ranks =
      (∑ u ∈ Finset.range n, s.ranks u) - s.total_ranks ∧
    (∑ u ∈ Finset.range n, (es.foldl (edgeStep active stake bmaFx e1) s).trust u) -
        (es.foldl (edgeStep active stake bmaFx e1) s).total_trust =
      (∑ u ∈ Finset.range n, s.trust u) - s.total_trust := by
  induction es generalizing s with
  | nil => exact ⟨rfl, rfl⟩
  | cons e t ih =>
    have he : e.2.1 < n := hes e (List.mem_cons_self e t)
    simp only [List.foldl_cons]
    obtain ⟨ih1, ih2⟩ := ih (edgeStep active stake bmaFx e1 s e)
      (fun e' he' => hes e' (List.mem_cons_of_mem e he'))
    rw [ih1, ih2]
    have hmem : e.2.1 ∈ Finset.range n := Finset.mem_range.mpr he
    constructor
    · show (∑ u ∈ Finset.range n, upd s.ranks e.2.1 (s.ranks e.2.1 + _) u) -
        (s.total_ranks + _) = _
      rw [sum_upd_int _ _ _ _ hmem]
      ring
    · show (∑ u ∈ Finset.range n, upd s.trust e.2.1 (s.trust e.2.1 + _) u) -
        (s.total_trust + _) = _
      rw [sum_upd_int _ _ _ _ hmem]
      ring

theorem edge_go_nonneg (es : List (ℕ × ℕ × ℕ)) (s : EdgeSt) (hst : ∀ u, 0 ≤ stake u)
    (h1 : ∀ u, 0 ≤ s.ranks u) (h2 : ∀ u, 0 ≤ s.trust u)
    (h3 : 0 ≤ s.total_ranks) (h4 : 0 ≤ s.total_trust) :
    (∀ u, 0 ≤ (es.foldl (edgeStep active stake bmaFx e1) s).ranks u) ∧
    (∀ u, 0 ≤ (es.foldl (edgeStep active stake bmaFx e1) s).trust u) ∧
    0 ≤ (es.foldl (edgeStep active stake bmaFx e1) s).total_ranks ∧
    0 ≤ (es.foldl (edgeStep active stake bmaFx e1) s).total_trust := by
  induction es generalizing s with
  | nil => exact ⟨h1, h2, h3, h4⟩
  | cons e t ih =>
    simp only [List.foldl_cons]
    have hrinc := edge_rinc_nonneg active stake hst e.1 e.2.2
    have htinc : 0 ≤ (if active e.1 = 1 then stake e.1 else 0) := by
      split
      · exact hst e.1
      · exact le_refl 0
    refine ih _ ?_ ?_ ?_ ?_
    · intro u
      show 0 ≤ upd s.ranks e.2.1 (s.ranks e.2.1 + _) u
      unfold upd
      split
      · have := h1 e.2.1
        omega
      · exact h1 u
    · intro u
      show 0 ≤ upd s.trust e.2.1 (s.trust e.2.1 + _) u
      unfold upd
      split
      · have := h2 e.2.1
        omega
      · exact h2 u
    · show 0 ≤ s.total_ranks + _
      omega
    · show 0 ≤ s.total_trust + _
      omega

theorem edge_go_high (n : ℕ) (es : List (ℕ × ℕ × ℕ)) (s : EdgeSt)
    (hes : ∀ e ∈ es, e.2.1 < n)
    (h : ∀ u, n ≤ u → s.ranks u = 0 ∧ s.trust u = 0) :
    ∀ u, n ≤ u → (es.foldl (edgeStep active stake bmaFx e1) s).ranks u = 0 ∧
      (es.foldl (edgeStep active stake bmaFx e1) s).trust u = 0 := by
  induction es generalizing s with
  | nil => exact h
  | cons e t ih =>
    have he : e.2.1 < n := hes e (List.mem_cons_self e t)
    simp only [List.foldl_cons]
    refine ih _ (fun e' he' => hes e' (List.mem_cons_of_mem e he')) ?_
    intro u hu
    have hne : u ≠ e.2.1 := by omega
    constructor
    · show upd s.ranks e.2.1 (s.ranks e.2.1 + _) u = 0
      rw [upd_ne _ _ _ hne]
      exact (h u hu).1
    · show upd s.trust e.2.1 (s.trust e.2.1 + _) u = 0
      rw [upd_ne _ _ _ hne]
      exact (h u hu).2

theorem edge_go_tt (es : List (ℕ × ℕ × ℕ)) (s : EdgeSt) :
    (es.foldl (edgeStep active stake bmaFx e1) s).total_trust =
      s.total_trust + (es.map fun e => if active e.1 = 1 then stake e.1 else 0).sum := by
  induction es generalizing s with
  | nil => simp
  | cons e t ih =>
    simp only [List.foldl_cons, List.map_cons, List.sum_cons]
    rw [ih]
    show s.total_trust + _ + _ = _
    ring

/-- One bond write together with its signed `bond_totals` delta keeps the
totals within one unit above the column sums. -/
theorem bt_update_bounds (n : ℕ) (bonds : ℕ → ℕ → ℕ) (bt : ℕ → ℕ) (i j : ℕ)
    (hi : i < n) (ma : ℤ) (hma : 0 ≤ ma) (k : ℕ → ℕ)
    (hinv : ∀ u, colsum n bonds u ≤ bt u ∧ bt u ≤ colsum n bonds u + k u) :
    ∀ u, colsum n (upd bonds i (upd (bonds i) j (Fx.toU64 ma))) u ≤
        (if ma ≤ Fx.ofU64 (bonds i j) then
          upd bt j (bt j - Fx.toU64 (Fx.ofU64 (bonds i j) - ma))
        else upd bt j (bt j + Fx.toU64 (ma - Fx.ofU64 (bonds i j)))) u ∧
      (if ma ≤ Fx.ofU64 (bonds i j) then
          upd bt j (bt j - Fx.toU64 (Fx.ofU64 (bonds i j) - ma))
        else upd bt j (bt j + Fx.toU64 (ma - Fx.ofU64 (bonds i j)))) u ≤
        colsum n (upd bonds i (upd (bonds i) j (Fx.toU64 ma))) u +
          (k u + if j = u then 1 else 0) := by
  intro u
  obtain ⟨hcs_ne, hcs_eq⟩ := colsum_upd n bonds i j (Fx.toU64 ma) hi
  have hP : bonds i j ≤ colsum n bonds j :=
    Finset.single_le_sum (f := fun i' => bonds i' j) (fun i' _ => Nat.zero_le _)
      (Finset.mem_range.mpr hi)
  rcases Decidable.em (ma ≤ Fx.ofU64 (bonds i j)) with hcase | hcase
  · rw [if_pos hcase]
    obtain ⟨hs1, hs2⟩ := toU64_split_le hma hcase
    rcases Decidable.em (u = j) with hu | hu
    · rw [hu, upd_same]
      have h0 := hinv j
      have ho : (if j = j then (1 : ℕ) else 0) = 1 := if_pos rfl
      omega
    · rw [upd_ne _ _ _ hu, hcs_ne u hu]
      have h0 := hinv u
      have hij : (if j = u then (1 : ℕ) else 0) = 0 := if_neg fun hc => hu hc.symm
      omega
  · rw [if_neg hcase]
    obtain ⟨hs1, hs2⟩ := toU64_incr (lt_of_not_le hcase)
    rcases Decidable.em (u = j) with hu | hu
    · rw [hu, upd_same]
      have h0 := hinv j
      have ho : (if j = j then (1 : ℕ) else 0) = 1 := if_pos rfl
      omega
    · rw [upd_ne _ _ _ hu, hcs_ne u hu]
      have h0 := hinv u
      have hij : (if j = u then (1 : ℕ) else 0) = 0 := if_neg fun hc => hu hc.symm
      omega

/-- The bond-totals/column-sum relation through the edge pass: exact column
sums can drift upward by at most one unit per edge into the column (the
decrease branch truncates the fixed-point moving average and the subtracted
difference separately). -/
theorem edge_go_colsum (n : ℕ) (hbma0 : 0 ≤ bmaFx) (hbma1 : bmaFx ≤ Fx.one)
    (he1 : 0 ≤ e1) (hst : ∀ u, 0 ≤ stake u)
    (es : List (ℕ × ℕ × ℕ)) (s : EdgeSt) (k : ℕ → ℕ)
    (hes : ∀ e ∈ es, e.1 < n ∧ e.2.1 < n)
    (hinv : ∀ u, colsum n s.bonds u ≤ s.bond_totals u ∧
      s.bond_totals u ≤ colsum n s.bonds u + k u) :
    ∀ u, colsum n (es.foldl (edgeStep active stake bmaFx e1) s).bonds u ≤
        (es.foldl (edgeStep active stake bmaFx e1) s).bond_totals u ∧
      (es.foldl (edgeStep active stake bmaFx e1) s).bond_totals u ≤
        colsum n (es.foldl (edgeStep active stake bmaFx e1) s).bonds u +
          (k u + countTarget es u) := by
  induction es generalizing s k with
  | nil =>
    intro u
    have := hinv u
    simp only [List.foldl_nil, countTarget, List.filter_nil, List.length_nil]
    omega
  | cons e t ih =>
    obtain ⟨hi, hj⟩ := hes e (List.mem_cons_self e t)
    simp only [List.foldl_cons]
    have hrinc := edge_rinc_nonneg active stake hst e.1 e.2.2
    have hma := edge_ma_nonneg hbma0 hbma1 he1 hrinc (s.bonds e.1 e.2.1)
    have hinv2 : ∀ u,
        colsum n (edgeStep active stake bmaFx e1 s e).bonds u ≤
          (edgeStep active stake bmaFx e1 s e).bond_totals u ∧
        (edgeStep active stake bmaFx e1 s e).bond_totals u ≤
          colsum n (edgeStep active stake bmaFx e1 s e).bonds u +
            (k u + if e.2.1 = u then 1 else 0) :=
      bt_update_bounds n s.bonds s.bond_totals e.1 e.2.1 hi
        (Fx.mul bmaFx (Fx.ofU64 (s.bonds e.1 e.2.1)) +
          Fx.mul (Fx.one - bmaFx)
            (Fx.mul (if active e.1 = 1 then
                Fx.mul (stake e.1) (Fx.div (Fx.ofU64 e.2.2) u32maxFx) else 0) e1))
        hma k hinv
    intro u
    have hres := ih _ (fun u' => k u' + if e.2.1 = u' then 1 else 0)
      (fun e' he' => hes e' (List.mem_cons_of_mem e he')) hinv2 u
    rw [countTarget_cons]
    omega

end EdgeLemmas

/-! ## Rank/trust normalization characterization -/

theorem rt_go (tr tnas : ℤ) (l : List ℕ) (s : RTSt) (hnd : l.Nodup) :
    (∀ u ∈ l, (l.foldl (rtStep tr tnas) s).ranks u = Fx.div (s.ranks u) tr ∧
      (l.foldl (rtStep tr tnas) s).trust u = Fx.div (s.trust u) tnas) ∧
    (∀ u, u ∉ l → (l.foldl (rtStep tr tnas) s).ranks u = s.ranks u ∧
      (l.foldl (rtStep tr tnas) s).trust u = s.trust u) := by
  induction l generalizing s with
  | nil => simp
  | cons a t ih =>
    obtain ⟨ha, hndt⟩ := List.nodup_cons.mp hnd
    obtain ⟨ih1, ih2⟩ := ih (rtStep tr tnas s a) hndt
    have hsa : ∀ u, u ≠ a → (rtStep tr tnas s a).ranks u = s.ranks u ∧
        (rtStep tr tnas s a).trust u = s.trust u :=
      fun u hu => ⟨upd_ne _ _ _ hu, upd_ne _ _ _ hu⟩
    constructor
    · intro u hu
      rcases List.mem_cons.mp hu with hua | hut
      · subst hua
        simp only [List.foldl_cons]
        obtain ⟨hr, ht⟩ := ih2 u ha
        rw [hr, ht]
        exact ⟨upd_same _ _ _, upd_same _ _ _⟩
      · simp only [List.foldl_cons]
        obtain ⟨hr, ht⟩ := ih1 u hut
        have hne : u ≠ a := fun hc => ha (hc ▸ hut)
        obtain ⟨hr2, ht2⟩ := hsa u hne
        rw [hr, ht, hr2, ht2]
        exact ⟨rfl, rfl⟩
    · intro u hu
      simp only [List.mem_cons] at hu
      push_neg at hu
      simp only [List.foldl_cons]
      obtain ⟨hr, ht⟩ := ih2 u hu.2
      obtain ⟨hr2, ht2⟩ := hsa u hu.1
      rw [hr, ht, hr2, ht2]
      exact ⟨rfl, rfl⟩

/-! ## Consensus and incentive characterization -/

theorem cons_go (expFn : ℤ → ℕ) (kappaFx rhoFx : ℤ) (ranks trust : ℕ → ℤ)
    (l : List ℕ) (s : ConsSt) :
    (∀ u ∈ l,
      (l.foldl (consStep expFn kappaFx rhoFx ranks trust) s).consensus u =
        consVal expFn kappaFx rhoFx trust u ∧
      (l.foldl (consStep expFn kappaFx rhoFx ranks trust) s).incentive u =
        incVal expFn kappaFx rhoFx ranks trust u) ∧
    (∀ u, u ∉ l →
      (l.foldl (consStep expFn kappaFx rhoFx ranks trust) s).consensus u =
        s.consensus u ∧
      (l.foldl (consStep expFn kappaFx rhoFx ranks trust) s).incentive u =
        s.incentive u) ∧
    (l.foldl (consStep expFn kappaFx rhoFx ranks trust) s).total_incentive =
      s.total_incentive + (l.map (incVal expFn kappaFx rhoFx ranks trust)).sum := by
  induction l generalizing s with
  | nil => simp
  | cons a t ih =>
    obtain ⟨ih1, ih2, ih3⟩ := ih (consStep expFn kappaFx rhoFx ranks trust s a)
    refine ⟨?_, ?_, ?_⟩
    · intro u hu
      rcases Decidable.em (u ∈ t) with hut | hut
      · exact ih1 u hut
      · have hua : u = a := by
          rcases List.mem_cons.mp hu with h | h
          · exact h
          · exact absurd h hut
        subst hua
        simp only [List.foldl_cons]
        obtain ⟨hc, hi⟩ := ih2 u hut
        rw [hc, hi]
        exact ⟨upd_same _ _ _, upd_same _ _ _⟩
    · intro u hu
      simp only [List.mem_cons] at hu
      push_neg at hu
      simp only [List.foldl_cons]
      obtain ⟨hc, hi⟩ := ih2 u hu.2
      rw [hc, hi]
      show upd s.consensus a _ u = s.consensus u ∧ upd s.incentive a _ u = s.incentive u
      exact ⟨upd_ne _ _ _ hu.1, upd_ne _ _ _ hu.1⟩
    · simp only [List.foldl_cons, List.map_cons, List.sum_cons]
      rw [ih3]
      show s.total_incentive + incVal expFn kappaFx rhoFx ranks trust a + _ = _
      ring

theorem inc_go (ti : ℤ) (l : List ℕ) (f0 : ℕ → ℤ) (hnd : l.Nodup) :
    (∀ u ∈ l, (l.foldl (incStep ti) f0) u = Fx.div (f0 u) ti) ∧
    (∀ u, u ∉ l → (l.foldl (incStep ti) f0) u = f0 u) := by
  induction l generalizing f0 with
  | nil => simp
  | cons a t ih =>
    obtain ⟨ha, hndt⟩ := List.nodup_cons.mp hnd
    obtain ⟨ih1, ih2⟩ := ih (incStep ti f0 a) hndt
    constructor
    · intro u hu
      rcases List.mem_cons.mp hu with hua | hut
      · subst hua
        simp only [List.foldl_cons]
        rw [ih2 u ha]
        exact upd_same _ _ _
      · simp only [List.foldl_cons]
        rw [ih1 u hut]
        have hne : u ≠ a := fun hc => ha (hc ▸ hut)
        show Fx.div (upd f0 a (Fx.div (f0 a) ti) u) ti = _
        rw [upd_ne _ _ _ hne]
    · intro u hu
      simp only [List.mem_cons] at hu
      push_neg at hu
      simp only [List.foldl_cons]
      rw [ih2 u hu.2]
      exact upd_ne _ _ _ hu.1

/-! ## Dividend-pass characterization -/

theorem divInner_go (selfOwnFx : ℤ) (incentive : ℕ → ℤ) (bonds : ℕ → ℕ → ℕ)
    (bt : ℕ → ℕ) (i : ℕ) (l : List ℕ) (s : (ℕ → ℤ) × ℤ × List (ℕ × ℕ)) (n : ℕ)
    (hi : i < n) (hso : 0 ≤ selfOwnFx ∧ selfOwnFx ≤ Fx.one)
    (hinc : ∀ u, 0 ≤ incentive u) :
    ((∑ u ∈ Finset.range n,
        (l.foldl (divInner selfOwnFx incentive bonds bt i) s).1 u) -
      (l.foldl (divInner selfOwnFx incentive bonds bt i) s).2.1 =
      (∑ u ∈ Finset.range n, s.1 u) - s.2.1) ∧
    ((∀ u, 0 ≤ s.1 u) →
      ∀ u, 0 ≤ (l.foldl (divInner selfOwnFx incentive bonds bt i) s).1 u) := by
  induction l generalizing s with
  | nil => exact ⟨rfl, fun h => h⟩
  | cons a t ih =>
    simp only [List.foldl_cons]
    have hstep : ∀ s' : (ℕ → ℤ) × ℤ × List (ℕ × ℕ),
        ((∑ u ∈ Finset.range n, (divInner selfOwnFx incentive bonds bt i s' a).1 u) -
          (divInner selfOwnFx incentive bonds bt i s' a).2.1 =
          (∑ u ∈ Finset.range n, s'.1 u) - s'.2.1) ∧
        ((∀ u, 0 ≤ s'.1 u) → ∀ u, 0 ≤ (divInner selfOwnFx incentive bonds bt i s' a).1 u) := by
      intro s'
      simp only [divInner]
      split
      · exact ⟨rfl, fun h => h⟩
      · split
        · exact ⟨rfl, fun h => h⟩
        · have hdji : 0 ≤ Fx.mul (incentive a)
              (Fx.mul (Fx.one - selfOwnFx)
                (Fx.div (Fx.ofU64 (bonds i a)) (Fx.ofU64 (bt a)))) :=
            Fx.mul_nonneg (hinc a)
              (Fx.mul_nonneg (by have := hso.2; omega)
                (Fx.div_nonneg (Fx.ofU64_nonneg _) (Fx.ofU64_nonneg _)))
          constructor
          · show (∑ u ∈ Finset.range n, upd s'.1 i (s'.1 i + _) u) - (s'.2.1 + _) = _
            rw [sum_upd_int _ _ _ _ (Finset.mem_range.mpr hi)]
            ring
          · intro h u
            show 0 ≤ upd s'.1 i (s'.1 i + _) u
            unfold upd
            split
            · have := h i
              omega
            · exact h u
    obtain ⟨ihs, ihn⟩ := ih (divInner selfOwnFx incentive bonds bt i s a)
    refine ⟨?_, ?_⟩
    · rw [ihs, (hstep s).1]
    · intro h
      exact ihn ((hstep s).2 h)

theorem div_go (selfOwnFx : ℤ) (incentive : ℕ → ℤ) (bonds : ℕ → ℕ → ℕ)
    (bt : ℕ → ℕ) (uids : List ℕ) (l : List ℕ) (s : DivSt) (n : ℕ)
    (hu : ∀ u ∈ l, u < n)
    (hso : 0 ≤ selfOwnFx ∧ selfOwnFx ≤ Fx.one) (hinc : ∀ u, 0 ≤ incentive u) :
    ((∑ u ∈ Finset.range n,
        (l.foldl (divStep selfOwnFx incentive bonds bt uids) s).dividends u) -
      (l.foldl (divStep selfOwnFx incentive bonds bt uids) s).total_dividends =
      (∑ u ∈ Finset.range n, s.dividends u) - s.total_dividends) ∧
    ((∀ u, 0 ≤ s.dividends u) →
      ∀ u, 0 ≤ (l.foldl (divStep selfOwnFx incentive bonds bt uids) s).dividends u) := by
  induction l generalizing s with
  | nil => exact ⟨rfl, fun h => h⟩
  | cons a t ih =>
    have han : a < n := hu a (List.mem_cons_self a t)
    have hut : ∀ u ∈ t, u < n := fun u h => hu u (List.mem_cons_of_mem a h)
    simp only [List.foldl_cons]
    have hdii : 0 ≤ Fx.mul (incentive a) selfOwnFx +
        (if bt a = 0 then Fx.mul (incentive a) (Fx.one - selfOwnFx) else 0) := by
      have h1 : 0 ≤ Fx.mul (incentive a) selfOwnFx := Fx.mul_nonneg (hinc a) hso.1
      have h2 : (0:ℤ) ≤ (if bt a = 0 then Fx.mul (incentive a) (Fx.one - selfOwnFx) else 0) := by
        split
        · exact Fx.mul_nonneg (hinc a) (by have := hso.2; omega)
        · exact le_refl 0
      omega
    have hinner := fun s0 => divInner_go selfOwnFx incentive bonds bt a uids s0 n han hso hinc
    have hstep :
        ((∑ u ∈ Finset.range n,
            (divStep selfOwnFx incentive bonds bt uids s a).dividends u) -
          (divStep selfOwnFx incentive bonds bt uids s a).total_dividends =
          (∑ u ∈ Finset.range n, s.dividends u) - s.total_dividends) ∧
        ((∀ u, 0 ≤ s.dividends u) →
          ∀ u, 0 ≤ (divStep selfOwnFx incentive bonds bt uids s a).dividends u) := by
      constructor
      · show (∑ u ∈ Finset.range n, (uids.foldl (divInner selfOwnFx incentive bonds bt a) _).1 u) -
          (uids.foldl (divInner selfOwnFx incentive bonds bt a) _).2.1 = _
        rw [(hinner _).1]
        show (∑ u ∈ Finset.range n, upd s.dividends a (s.dividends a + _) u) - (s.total_dividends + _) = _
        rw [sum_upd_int _ _ _ _ (Finset.mem_range.mpr han)]
        ring
      · intro h
        refine (hinner _).2 ?_
        intro u
        show 0 ≤ upd s.dividends a (s.dividends a + _) u
        unfold upd
        split
        · have := h a
          omega
        · exact h u
    obtain ⟨ihs, ihn⟩ := ih (divStep selfOwnFx incentive bonds bt uids s a) hut
    refine ⟨?_, ?_⟩
    · rw [ihs, hstep.1]
    · intro h
      exact ihn (hstep.2 h)

/-! ## Emission-pass characterization -/

theorem emit_go (e1 td : ℤ) (l : List ℕ) (s : EmitSt) (hnd : l.Nodup) :
    (∀ u ∈ l, (l.foldl (emitStep e1 td) s).dividends u = Fx.div (s.dividends u) td ∧
      (l.foldl (emitStep e1 td) s).emission u =
        Fx.toU64 (Fx.mul e1 (Fx.div (s.dividends u) td))) ∧
    (∀ u, u ∉ l → (l.foldl (emitStep e1 td) s).dividends u = s.dividends u ∧
      (l.foldl (emitStep e1 td) s).emission u = s.emission u) ∧
    (l.foldl (emitStep e1 td) s).total_emission = s.total_emission +
      (l.map fun u => Fx.toU64 (Fx.mul e1 (Fx.div (s.dividends u) td))).sum := by
  induction l generalizing s with
  | nil => simp
  | cons a t ih =>
    obtain ⟨ha, hndt⟩ := List.nodup_cons.mp hnd
    obtain ⟨ih1, ih2, ih3⟩ := ih (emitStep e1 td s a) hndt
    have hsa : ∀ u, u ≠ a → (emitStep e1 td s a).dividends u = s.dividends u ∧
        (emitStep e1 td s a).emission u = s.emission u :=
      fun u hu => ⟨upd_ne _ _ _ hu, upd_ne _ _ _ hu⟩
    refine ⟨?_, ?_, ?_⟩
    · intro u hu
      rcases List.mem_cons.mp hu with hua | hut
      · subst hua
        simp only [List.foldl_cons]
        obtain ⟨hd, he⟩ := ih2 u ha
        rw [hd, he]
        exact ⟨upd_same _ _ _, upd_same _ _ _⟩
      · simp only [List.foldl_cons]
        obtain ⟨hd, he⟩ := ih1 u hut
        have hne : u ≠ a := fun hc => ha (hc ▸ hut)
        obtain ⟨hd2, he2⟩ := hsa u hne
        rw [hd, he, hd2]
        exact ⟨rfl, rfl⟩
    · intro u hu
      simp only [List.mem_cons] at hu
      push_neg at hu
      simp only [List.foldl_cons]
      obtain ⟨hd, he⟩ := ih2 u hu.2
      obtain ⟨hd2, he2⟩ := hsa u hu.1
      rw [hd, he, hd2, he2]
      exact ⟨rfl, rfl⟩
    · simp only [List.foldl_cons, List.map_cons, List.sum_cons]
      rw [ih3]
      have hmap : (t.map fun u =>
          Fx.toU64 (Fx.mul e1 (Fx.div ((emitStep e1 td s a).dividends u) td))) =
          t.map fun u => Fx.toU64 (Fx.mul e1 (Fx.div (s.dividends u) td)) := by
        refine List.map_congr_left fun u hu => ?_
        rw [(hsa u fun hc => ha (hc ▸ hu)).1]
      rw [hmap]
      show s.total_emission + _ + _ = _
      ring

/-! ## Step-level assembly -/

section StepLemmas

variable (expFn : ℤ → ℕ) (log2Fn : ℕ → ℕ) (block e : ℕ) (ch : Chain)

theorem ingestOf_uids :
    (ingestOf log2Fn block ch).uids = ch.neurons.map Neuron.uid := by
  unfold ingestOf ingest
  rw [ingest_go_uids]
  exact List.nil_append _

theorem wf_uids_lt {ch : Chain} (h : WF ch) :
    ∀ u ∈ ch.neurons.map Neuron.uid, u < nOf ch := by
  intro u hu
  obtain ⟨x, hx, rfl⟩ := List.mem_map.mp hu
  exact (h.2 x hx).1

theorem wf_dense {ch : Chain} (h : WF ch) :
    ∀ u < nOf ch, u ∈ ch.neurons.map Neuron.uid :=
  dense_mem h.1 (List.length_map _ _) (wf_uids_lt h)

theorem ingestOf_stake_nonneg : ∀ u, 0 ≤ (ingestOf log2Fn block ch).stake u := by
  unfold ingestOf ingest
  refine (ingest_active_le log2Fn ch.prune block ch.activity_cutoff ch.neurons _
    (fun u => le_refl 0) (le_refl 0) ?_).1
  intro u hu
  simp at hu

theorem ingestOf_tas_nonneg : 0 ≤ (ingestOf log2Fn block ch).total_active_stake := by
  unfold ingestOf ingest
  refine (ingest_active_le log2Fn ch.prune block ch.activity_cutoff ch.neurons _
    (fun u => le_refl 0) (le_refl 0) ?_).2.1
  intro u hu
  simp at hu

theorem ingestOf_active_le :
    ∀ u, (ingestOf log2Fn block ch).active u = 1 →
      (ingestOf log2Fn block ch).stake u ≤ (ingestOf log2Fn block ch).total_active_stake := by
  unfold ingestOf ingest
  refine (ingest_active_le log2Fn ch.prune block ch.activity_cutoff ch.neurons _
    (fun u => le_refl 0) (le_refl 0) ?_).2.2
  intro u hu
  simp at hu

theorem norm_go_nonneg (active : ℕ → ℕ) (tas : ℤ) (hta : 0 ≤ tas) (l : List ℕ)
    (s : NormSt) (h : ∀ u, 0 ≤ s.stake u) (h2 : 0 ≤ s.tnas) :
    (∀ u, 0 ≤ (l.foldl (normStep active tas) s).stake u) ∧
    0 ≤ (l.foldl (normStep active tas) s).tnas := by
  induction l generalizing s with
  | nil => exact ⟨h, h2⟩
  | cons a t ih =>
    simp only [List.foldl_cons]
    have hdiv : 0 ≤ Fx.div (s.stake a) tas := Fx.div_nonneg (h a) hta
    refine ih _ ?_ ?_
    · intro u
      show 0 ≤ upd s.stake a (Fx.div (s.stake a) tas) u
      unfold upd
      split
      · exact hdiv
      · exact h u
    · show 0 ≤ s.tnas + _
      have : (0:ℤ) ≤ (if active a = 1 then Fx.div (s.stake a) tas else 0) := by
        split
        · exact hdiv
        · exact le_refl 0
      omega

theorem normOf_stake_nonneg : ∀ u, 0 ≤ (normOf log2Fn block ch).stake u := by
  simp only [normOf, normalizeStake]
  split
  · exact (norm_go_nonneg _ _ (ingestOf_tas_nonneg log2Fn block ch) _ _
      (ingestOf_stake_nonneg log2Fn block ch) (le_refl 0)).1
  · exact ingestOf_stake_nonneg log2Fn block ch

theorem normOf_tnas_nonneg : 0 ≤ (normOf log2Fn block ch).tnas := by
  simp only [normOf, normalizeStake]
  split
  · exact (norm_go_nonneg _ _ (ingestOf_tas_nonneg log2Fn block ch) _ _
      (ingestOf_stake_nonneg log2Fn block ch) (le_refl 0)).2
  · exact le_refl 0

/-- Per-uid slots after ingest, for a well-formed chain. -/
theorem ingestOf_slot {ch : Chain} (h : WF ch) (log2Fn : ℕ → ℕ) (block : ℕ)
    (x : Neuron) (hx : x ∈ ch.neurons) :
    (ingestOf log2Fn block ch).stake x.uid = Fx.ofU64 x.stake ∧
    (ingestOf log2Fn block ch).active x.uid =
      (if wsub block x.last_update < ch.activity_cutoff then 1 else 0) ∧
    (ingestOf log2Fn block ch).priority x.uid =
      x.priority + log2Fn ((x.stake + 1) % 2 ^ 64) ∧
    (ingestOf log2Fn block ch).weights x.uid = x.weights ∧
    (ingestOf log2Fn block ch).bonds x.uid = bondRow ch.prune x.bonds := by
  unfold ingestOf ingest
  exact ingest_go_slot log2Fn ch.prune block ch.activity_cutoff ch.neurons _ x hx h.1

/-- Every processed edge has a registered source and an in-range target. -/
theorem edgesOf_bounds {ch : Chain} (h : WF ch) (log2Fn : ℕ → ℕ) (block : ℕ) :
    ∀ ed ∈ edgesOf log2Fn block ch, ed.1 < nOf ch ∧ ed.2.1 < nOf ch := by
  intro ed hed
  unfold edgesOf edgeList at hed
  obtain ⟨i, hi, hmem⟩ := List.mem_flatMap.mp hed
  have hiu : i ∈ (ingestOf log2Fn block ch).uids := List.mem_of_mem_filter hi
  rw [ingestOf_uids] at hiu
  obtain ⟨x, hx, hxi⟩ := List.mem_map.mp hiu
  obtain ⟨p, hp, hpe⟩ := List.mem_map.mp hmem
  have hpw : p ∈ (ingestOf log2Fn block ch).weights i := List.mem_of_mem_filter hp
  have hslot := (ingestOf_slot h log2Fn block x hx).2.2.2.1
  rw [hxi] at hslot
  have hwx : p ∈ x.weights := by
    rw [hslot] at hpw
    exact hpw
  have h1 : i < nOf ch := hxi ▸ (h.2 x hx).1
  have h2 : p.1 < nOf ch := (h.2 x hx).2.1 p hwx
  rw [← hpe]
  exact ⟨h1, h2⟩

/-- The edge pass as an explicit fold over the processed edge list. -/
theorem edgeOf_eq (log2Fn : ℕ → ℕ) (block e : ℕ) (ch : Chain) :
    edgeOf log2Fn block e ch =
      (edgesOf log2Fn block ch).foldl
        (edgeStep (ingestOf log2Fn block ch).active (normOf log2Fn block ch).stake
          (bmaFxOf ch) (Fx.ofU64 e))
        { ranks := fun _ => 0
          trust := fun _ => 0
          total_ranks := 0
          total_trust := 0
          bonds := (ingestOf log2Fn block ch).bonds
          bond_totals := (ingestOf log2Fn block ch).bond_totals
          tbp := 0 } := rfl

/-- Rank and trust vectors sum exactly to their accumulated totals after the
edge pass (fixed-point addition is exact). -/
theorem edgeOf_sums {ch : Chain} (h : WF ch) (log2Fn : ℕ → ℕ) (block e : ℕ) :
    (∑ u ∈ Finset.range (nOf ch), (edgeOf log2Fn block e ch).ranks u) =
      (edgeOf log2Fn block e ch).total_ranks ∧
    (∑ u ∈ Finset.range (nOf ch), (edgeOf log2Fn block e ch).trust u) =
      (edgeOf log2Fn block e ch).total_trust := by
  have hb : ∀ ed ∈ edgesOf log2Fn block ch, ed.2.1 < nOf ch :=
    fun ed hed => (edgesOf_bounds h log2Fn block ed hed).2
  have hs := edge_go_sums (ingestOf log2Fn block ch).active
    (normOf log2Fn block ch).stake (bmaFxOf ch) (Fx.ofU64 e) (nOf ch)
    (edgesOf log2Fn block ch)
    { ranks := fun _ => 0
      trust := fun _ => 0
      total_ranks := 0
      total_trust := 0
      bonds := (ingestOf log2Fn block ch).bonds
      bond_totals := (ingestOf log2Fn block ch).bond_totals
      tbp := 0 } hb
  simp only [Finset.sum_const_zero, sub_zero] at hs
  rw [edgeOf_eq]
  constructor
  · have := hs.1
    omega
  · have := hs.2
    omega

theorem edgeOf_nonneg {ch : Chain} (log2Fn : ℕ → ℕ) (block e : ℕ) :
    (∀ u, 0 ≤ (edgeOf log2Fn block e ch).ranks u) ∧
    (∀ u, 0 ≤ (edgeOf log2Fn block e ch).trust u) ∧
    0 ≤ (edgeOf log2Fn block e ch).total_ranks ∧
    0 ≤ (edgeOf log2Fn block e ch).total_trust :=
  edge_go_nonneg (ingestOf log2Fn block ch).active (normOf log2Fn block ch).stake
    (bmaFxOf ch) (Fx.ofU64 e) (edgesOf log2Fn block ch) _
    (normOf_stake_nonneg log2Fn block ch)
    (fun _ => le_refl 0) (fun _ => le_refl 0) (le_refl 0) (le_refl 0)

theorem edgeOf_high {ch : Chain} (h : WF ch) (log2Fn : ℕ → ℕ) (block e : ℕ) :
    ∀ u, nOf ch ≤ u → (edgeOf log2Fn block e ch).ranks u = 0 ∧
      (edgeOf log2Fn block e ch).trust u = 0 :=
  edge_go_high (ingestOf log2Fn block ch).active (normOf log2Fn block ch).stake
    (bmaFxOf ch) (Fx.ofU64 e) (nOf ch) (edgesOf log2Fn block ch) _
    (fun ed hed => (edgesOf_bounds h log2Fn block ed hed).2)
    (fun _ _ => ⟨rfl, rfl⟩)

/-- If the accumulated trust total is positive, so is
`total_normalized_active_stake` (the divisor of the trust normalization). -/
theorem tnas_pos_of_tt_pos {ch : Chain} (h : WF ch) (log2Fn : ℕ → ℕ) (block e : ℕ)
    (htt : 0 < (edgeOf log2Fn block e ch).total_trust) :
    0 < (normOf log2Fn block ch).tnas := by
  have htt2 := htt
  rw [show (edgeOf log2Fn block e ch).total_trust =
      ((edgesOf log2Fn block ch).map fun ed =>
        if (ingestOf log2Fn block ch).active ed.1 = 1 then
          (normOf log2Fn block ch).stake ed.1 else 0).sum from by
    rw [edgeOf_eq]
    have := edge_go_tt (ingestOf log2Fn block ch).active
      (normOf log2Fn block ch).stake (bmaFxOf ch) (Fx.ofU64 e)
      (edgesOf log2Fn block ch)
      { ranks := fun _ => 0
        trust := fun _ => 0
        total_ranks := 0
        total_trust := 0
        bonds := (ingestOf log2Fn block ch).bonds
        bond_totals := (ingestOf log2Fn block ch).bond_totals
        tbp := 0 }
    simpa using this] at htt2
  obtain ⟨v, hv, hvpos⟩ := list_sum_pos htt2
  obtain ⟨ed, hed, hedv⟩ := List.mem_map.mp hv
  have hact : (ingestOf log2Fn block ch).active ed.1 = 1 ∧
      0 < (normOf log2Fn block ch).stake ed.1 := by
    by_cases hc : (ingestOf log2Fn block ch).active ed.1 = 1
    · refine ⟨hc, ?_⟩
      rw [if_pos hc] at hedv
      rw [hedv]
      exact hvpos
    · exfalso
      rw [if_neg hc] at hedv
      omega
  -- the edge's source uid is in the uid list
  have hiu : ed.1 ∈ (ingestOf log2Fn block ch).uids := by
    unfold edgesOf edgeList at hed
    obtain ⟨i, hi, hmem⟩ := List.mem_flatMap.mp hed
    obtain ⟨p, _, hpe⟩ := List.mem_map.mp hmem
    have := List.mem_of_mem_filter hi
    rw [← hpe]
    exact this
  -- total_active_stake must be nonzero: otherwise stakes are unnormalized and
  -- an active positive stake would contradict `total_active_stake = 0`
  rcases Decidable.em ((ingestOf log2Fn block ch).total_active_stake ≠ 0) with hT | hT
  · -- normalized case: tnas is the sum of the normalized active stakes
    have hgo := norm_go (ingestOf log2Fn block ch).active
      (ingestOf log2Fn block ch).total_active_stake
      (ingestOf log2Fn block ch).uids
      ⟨(ingestOf log2Fn block ch).stake, 0⟩
      (by rw [ingestOf_uids]; exact h.1)
    have hnormOf : normOf log2Fn block ch =
        (ingestOf log2Fn block ch).uids.foldl
          (normStep (ingestOf log2Fn block ch).active
            (ingestOf log2Fn block ch).total_active_stake)
          ⟨(ingestOf log2Fn block ch).stake, 0⟩ := by
      simp only [normOf, normalizeStake]
      rw [if_pos hT]
    have htnas : (normOf log2Fn block ch).tnas =
        (((ingestOf log2Fn block ch).uids).map fun u =>
          if (ingestOf log2Fn block ch).active u = 1 then
            Fx.div ((ingestOf log2Fn block ch).stake u)
              ((ingestOf log2Fn block ch).total_active_stake) else 0).sum := by
      rw [hnormOf]
      have := hgo.2.2
      simpa using this
    have hterm : (if (ingestOf log2Fn block ch).active ed.1 = 1 then
        Fx.div ((ingestOf log2Fn block ch).stake ed.1)
          ((ingestOf log2Fn block ch).total_active_stake) else 0) ∈
        (((ingestOf log2Fn block ch).uids).map fun u =>
          if (ingestOf log2Fn block ch).active u = 1 then
            Fx.div ((ingestOf log2Fn block ch).stake u)
              ((ingestOf log2Fn block ch).total_active_stake) else 0) :=
      List.mem_map_of_mem _ hiu
    have hval : (normOf log2Fn block ch).stake ed.1 =
        Fx.div ((ingestOf log2Fn block ch).stake ed.1)
          ((ingestOf log2Fn block ch).total_active_stake) := by
      rw [hnormOf]
      exact hgo.1 ed.1 hiu
    have hnn : ∀ v ∈ (((ingestOf log2Fn block ch).uids).map fun u =>
        if (ingestOf log2Fn block ch).active u = 1 then
          Fx.div ((ingestOf log2Fn block ch).stake u)
            ((ingestOf log2Fn block ch).total_active_stake) else 0), 0 ≤ v := by
      intro v hv2
      obtain ⟨u, _, rfl⟩ := List.mem_map.mp hv2
      split
      · exact Fx.div_nonneg (ingestOf_stake_nonneg log2Fn block ch u)
          (ingestOf_tas_nonneg log2Fn block ch)
      · exact le_refl 0
    have hle := list_single_le_sum hnn hterm
    rw [if_pos hact.1] at hle
    rw [htnas]
    calc (0:ℤ) < (normOf log2Fn block ch).stake ed.1 := hact.2
      _ = _ := hval
      _ ≤ _ := hle
  · -- degenerate case is impossible: the stake vector is untouched and an
    -- active neuron with positive stake bounds total_active_stake from below
    push_neg at hT
    exfalso
    have hstake : (normOf log2Fn block ch).stake ed.1 =
        (ingestOf log2Fn block ch).stake ed.1 := by
      simp only [normOf, normalizeStake]
      rw [if_neg (by simpa using hT)]
    have hbound := ingestOf_active_le log2Fn block ch ed.1 hact.1
    rw [hstake] at hact
    have := hact.2
    omega

/-- At matrix-build time the bond totals are exactly the column sums. -/
theorem ingestOf_colsum {ch : Chain} (h : WF ch) (log2Fn : ℕ → ℕ) (block : ℕ) :
    ∀ u, (ingestOf log2Fn block ch).bond_totals u =
      colsum (nOf ch) (ingestOf log2Fn block ch).bonds u := by
  intro u
  have h1 : (ingestOf log2Fn block ch).bond_totals u =
      (ch.neurons.map fun x => colContrib ch.prune x.bonds u).sum := by
    unfold ingestOf ingest
    rw [ingest_go_bt]
    simp
  have h2 : colsum (nOf ch) (ingestOf log2Fn block ch).bonds u =
      ((ch.neurons.map Neuron.uid).map fun i => (ingestOf log2Fn block ch).bonds i u).sum := by
    unfold colsum
    rw [sum_uids_eq_range h.1 (List.length_map _ _) (wf_uids_lt h)]
    rfl
  rw [h1, h2, List.map_map]
  congr 1
  refine List.map_congr_left fun x hx => ?_
  show colContrib ch.prune x.bonds u = (ingestOf log2Fn block ch).bonds x.uid u
  rw [(ingestOf_slot h log2Fn block x hx).2.2.2.2]
  exact (bondRow_eq_colContrib ch.prune (h.2 x hx).2.2.1 u).symm

/-- If the accumulated rank total is zero, every rank entry is zero (and
likewise for trust). -/
theorem edgeOf_zero_of_total_zero {ch : Chain} (h : WF ch) (log2Fn : ℕ → ℕ)
    (block e : ℕ) :
    ((edgeOf log2Fn block e ch).total_ranks = 0 →
      ∀ u, (edgeOf log2Fn block e ch).ranks u = 0) ∧
    ((edgeOf log2Fn block e ch).total_trust = 0 →
      ∀ u, (edgeOf log2Fn block e ch).trust u = 0) := by
  obtain ⟨hr, ht⟩ := edgeOf_sums h log2Fn block e
  obtain ⟨hnr, hnt, _, _⟩ := @edgeOf_nonneg ch log2Fn block e
  constructor
  · intro h0 u
    rcases lt_or_le u (nOf ch) with hu | hu
    · rw [h0] at hr
      have := (Finset.sum_eq_zero_iff_of_nonneg fun v _ => hnr v).mp hr u
        (Finset.mem_range.mpr hu)
      exact this
    · exact (edgeOf_high h log2Fn block e u hu).1
  · intro h0 u
    rcases lt_or_le u (nOf ch) with hu | hu
    · rw [h0] at ht
      exact (Finset.sum_eq_zero_iff_of_nonneg fun v _ => hnt v).mp ht u
        (Finset.mem_range.mpr hu)
    · exact (edgeOf_high h log2Fn block e u hu).2

/-- Normalized rank/trust slots when the normalization runs. -/
theorem rtOf_slots_pos {ch : Chain} (h : WF ch) (log2Fn : ℕ → ℕ) (block e : ℕ)
    (hpos : 0 < (edgeOf log2Fn block e ch).total_trust ∧
      0 < (edgeOf log2Fn block e ch).total_ranks) :
    ∀ u ∈ ch.neurons.map Neuron.uid,
      (rtOf log2Fn block e ch).ranks u =
        Fx.div ((edgeOf log2Fn block e ch).ranks u)
          ((edgeOf log2Fn block e ch).total_ranks) ∧
      (rtOf log2Fn block e ch).trust u =
        Fx.div ((edgeOf log2Fn block e ch).trust u) ((normOf log2Fn block ch).tnas) := by
  intro u hu
  have hE : rtOf log2Fn block e ch =
      (ingestOf log2Fn block ch).uids.foldl
        (rtStep (edgeOf log2Fn block e ch).total_ranks (normOf log2Fn block ch).tnas)
        ⟨(edgeOf log2Fn block e ch).ranks, (edgeOf log2Fn block e ch).trust⟩ := by
    simp only [rtOf, normalizeRT]
    rw [if_pos hpos]
  rw [hE]
  have hnd : ((ingestOf log2Fn block ch).uids).Nodup := by
    rw [ingestOf_uids]
    exact h.1
  have := (rt_go (edgeOf log2Fn block e ch).total_ranks (normOf log2Fn block ch).tnas
    (ingestOf log2Fn block ch).uids
    ⟨(edgeOf log2Fn block e ch).ranks, (edgeOf log2Fn block e ch).trust⟩ hnd).1 u
    (by rw [ingestOf_uids]; exact hu)
  exact this

/-- When either total vanishes, rank and trust are left unnormalized. -/
theorem rtOf_neg {ch : Chain} (log2Fn : ℕ → ℕ) (block e : ℕ)
    (hneg : ¬ (0 < (edgeOf log2Fn block e ch).total_trust ∧
      0 < (edgeOf log2Fn block e ch).total_ranks)) :
    (rtOf log2Fn block e ch).ranks = (edgeOf log2Fn block e ch).ranks ∧
    (rtOf log2Fn block e ch).trust = (edgeOf log2Fn block e ch).trust := by
  have hE : rtOf log2Fn block e ch =
      ⟨(edgeOf log2Fn block e ch).ranks, (edgeOf log2Fn block e ch).trust⟩ := by
    simp only [rtOf, normalizeRT]
    rw [if_neg hneg]
  rw [hE]
  exact ⟨rfl, rfl⟩

theorem rtOf_ranks_nonneg {ch : Chain} (h : WF ch) (log2Fn : ℕ → ℕ) (block e : ℕ) :
    ∀ u, 0 ≤ (rtOf log2Fn block e ch).ranks u := by
  intro u
  obtain ⟨hnr, _, htr, _⟩ := @edgeOf_nonneg ch log2Fn block e
  rcases Decidable.em (0 < (edgeOf log2Fn block e ch).total_trust ∧
      0 < (edgeOf log2Fn block e ch).total_ranks) with hpos | hneg
  · rcases Decidable.em (u ∈ ch.neurons.map Neuron.uid) with hu | hu
    · rw [(rtOf_slots_pos h log2Fn block e hpos u hu).1]
      exact Fx.div_nonneg (hnr u) htr
    · have hE : rtOf log2Fn block e ch =
          (ingestOf log2Fn block ch).uids.foldl
            (rtStep (edgeOf log2Fn block e ch).total_ranks (normOf log2Fn block ch).tnas)
            ⟨(edgeOf log2Fn block e ch).ranks, (edgeOf log2Fn block e ch).trust⟩ := by
        simp only [rtOf, normalizeRT]
        rw [if_pos hpos]
      rw [hE]
      have hnd : ((ingestOf log2Fn block ch).uids).Nodup := by
        rw [ingestOf_uids]
        exact h.1
      rw [((rt_go _ _ _ _ hnd).2 u (by rw [ingestOf_uids]; exact hu)).1]
      exact hnr u
  · rw [(rtOf_neg log2Fn block e hneg).1]
    exact hnr u

theorem consVal_nonneg (expFn : ℤ → ℕ) (kappaFx rhoFx : ℤ) (trust : ℕ → ℤ) (u : ℕ) :
    0 ≤ consVal expFn kappaFx rhoFx trust u := by
  unfold consVal
  refine Fx.div_nonneg (le_of_lt Fx.one_pos) ?_
  have h1 : (0:ℤ) ≤ (expFn (-(Fx.mul (trust u - kappaFx) rhoFx)) : ℤ) :=
    Int.natCast_nonneg _
  have h2 := Fx.one_pos
  omega

theorem incVal_nonneg (expFn : ℤ → ℕ) (kappaFx rhoFx : ℤ) (ranks trust : ℕ → ℤ)
    (u : ℕ) (hr : 0 ≤ ranks u) :
    0 ≤ incVal expFn kappaFx rhoFx ranks trust u :=
  Fx.mul_nonneg hr (consVal_nonneg expFn kappaFx rhoFx trust u)

theorem consOf_pos {ch : Chain} (h : WF ch) (expFn : ℤ → ℕ) (log2Fn : ℕ → ℕ)
    (block e : ℕ)
    (hne : (edgeOf log2Fn block e ch).total_ranks ≠ 0 ∧
      (edgeOf log2Fn block e ch).total_trust ≠ 0) :
    (∀ u ∈ ch.neurons.map Neuron.uid,
      (consOf expFn log2Fn block e ch).incentive u =
        incVal expFn (kappaFxOf ch) (rhoFxOf ch) (rtOf log2Fn block e ch).ranks
          (rtOf log2Fn block e ch).trust u) ∧
    (∀ u, u ∉ ch.neurons.map Neuron.uid →
      (consOf expFn log2Fn block e ch).incentive u = 0) ∧
    (consOf expFn log2Fn block e ch).total_incentive =
      ((ch.neurons.map Neuron.uid).map
        (incVal expFn (kappaFxOf ch) (rhoFxOf ch) (rtOf log2Fn block e ch).ranks
          (rtOf log2Fn block e ch).trust)).sum := by
  have hE : consOf expFn log2Fn block e ch =
      (ingestOf log2Fn block ch).uids.foldl
        (consStep expFn (kappaFxOf ch) (rhoFxOf ch) (rtOf log2Fn block e ch).ranks
          (rtOf log2Fn block e ch).trust)
        ⟨fun _ => 0, fun _ => 0, 0⟩ := by
    simp only [consOf, consensusPhase]
    rw [if_pos hne]
  obtain ⟨hg1, hg2, hg3⟩ := cons_go expFn (kappaFxOf ch) (rhoFxOf ch)
    (rtOf log2Fn block e ch).ranks (rtOf log2Fn block e ch).trust
    (ingestOf log2Fn block ch).uids ⟨fun _ => 0, fun _ => 0, 0⟩
  refine ⟨?_, ?_, ?_⟩
  · intro u hu
    rw [hE]
    exact (hg1 u (by rw [ingestOf_uids]; exact hu)).2
  · intro u hu
    rw [hE]
    exact (hg2 u (by rw [ingestOf_uids]; exact hu)).2
  · rw [hE, hg3, ingestOf_uids]
    simp

theorem consOf_neg {ch : Chain} (expFn : ℤ → ℕ) (log2Fn : ℕ → ℕ) (block e : ℕ)
    (hn : ¬ ((edgeOf log2Fn block e ch).total_ranks ≠ 0 ∧
      (edgeOf log2Fn block e ch).total_trust ≠ 0)) :
    (∀ u, (consOf expFn log2Fn block e ch).incentive u = 0) ∧
    (consOf expFn log2Fn block e ch).total_incentive = 0 := by
  have hE : consOf expFn log2Fn block e ch = ⟨fun _ => 0, fun _ => 0, 0⟩ := by
    simp only [consOf, consensusPhase]
    rw [if_neg hn]
  rw [hE]
  exact ⟨fun _ => rfl, rfl⟩

theorem consOf_incentive_nonneg {ch : Chain} (h : WF ch) (expFn : ℤ → ℕ)
    (log2Fn : ℕ → ℕ) (block e : ℕ) :
    ∀ u, 0 ≤ (consOf expFn log2Fn block e ch).incentive u := by
  intro u
  rcases Decidable.em ((edgeOf log2Fn block e ch).total_ranks ≠ 0 ∧
      (edgeOf log2Fn block e ch).total_trust ≠ 0) with hne | hn
  · rcases Decidable.em (u ∈ ch.neurons.map Neuron.uid) with hu | hu
    · rw [(consOf_pos h expFn log2Fn block e hne).1 u hu]
      exact incVal_nonneg _ _ _ _ _ _ (rtOf_ranks_nonneg h log2Fn block e u)
    · rw [(consOf_pos h expFn log2Fn block e hne).2.1 u hu]
  · rw [(consOf_neg expFn log2Fn block e hn).1 u]

/-- The incentive vector sums exactly to `total_incentive`. -/
theorem consOf_sum {ch : Chain} (h : WF ch) (expFn : ℤ → ℕ) (log2Fn : ℕ → ℕ)
    (block e : ℕ) :
    (∑ u ∈ Finset.range (nOf ch), (consOf expFn log2Fn block e ch).incentive u) =
      (consOf expFn log2Fn block e ch).total_incentive := by
  rcases Decidable.em ((edgeOf log2Fn block e ch).total_ranks ≠ 0 ∧
      (edgeOf log2Fn block e ch).total_trust ≠ 0) with hne | hn
  · obtain ⟨hs, _, hti⟩ := consOf_pos h expFn log2Fn block e hne
    rw [hti, sum_uids_eq_range h.1 (List.length_map _ _) (wf_uids_lt h)]
    refine Finset.sum_congr rfl fun u hu => ?_
    exact hs u (wf_dense h u (Finset.mem_range.mp hu))
  · obtain ⟨hz, hti⟩ := consOf_neg expFn log2Fn block e hn
    rw [hti]
    exact Finset.sum_eq_zero fun u _ => hz u

theorem incNOf_pos {ch : Chain} (h : WF ch) (expFn : ℤ → ℕ) (log2Fn : ℕ → ℕ)
    (block e : ℕ) (hti : 0 < (consOf expFn log2Fn block e ch).total_incentive) :
    ∀ u ∈ ch.neurons.map Neuron.uid,
      incNOf expFn log2Fn block e ch u =
        Fx.div ((consOf expFn log2Fn block e ch).incentive u)
          ((consOf expFn log2Fn block e ch).total_incentive) := by
  intro u hu
  have hE : incNOf expFn log2Fn block e ch =
      (ingestOf log2Fn block ch).uids.foldl
        (incStep (consOf expFn log2Fn block e ch).total_incentive)
        (consOf expFn log2Fn block e ch).incentive := by
    simp only [incNOf, normalizeIncentive]
    rw [if_pos hti]
  rw [hE]
  have hnd : ((ingestOf log2Fn block ch).uids).Nodup := by
    rw [ingestOf_uids]
    exact h.1
  exact (inc_go _ _ _ hnd).1 u (by rw [ingestOf_uids]; exact hu)

theorem incNOf_neg {ch : Chain} (expFn : ℤ → ℕ) (log2Fn : ℕ → ℕ) (block e : ℕ)
    (hti : ¬ 0 < (consOf expFn log2Fn block e ch).total_incentive) :
    incNOf expFn log2Fn block e ch = (consOf expFn log2Fn block e ch).incentive := by
  simp only [incNOf, normalizeIncentive]
  rw [if_neg hti]

theorem incNOf_nonneg {ch : Chain} (h : WF ch) (expFn : ℤ → ℕ) (log2Fn : ℕ → ℕ)
    (block e : ℕ) : ∀ u, 0 ≤ incNOf expFn log2Fn block e ch u := by
  intro u
  rcases Decidable.em (0 < (consOf expFn log2Fn block e ch).total_incentive) with hti | hti
  · rcases Decidable.em (u ∈ ch.neurons.map Neuron.uid) with hu | hu
    · rw [incNOf_pos h expFn log2Fn block e hti u hu]
      exact Fx.div_nonneg (consOf_incentive_nonneg h expFn log2Fn block e u)
        (le_of_lt hti)
    · have hE : incNOf expFn log2Fn block e ch =
          (ingestOf log2Fn block ch).uids.foldl
            (incStep (consOf expFn log2Fn block e ch).total_incentive)
            (consOf expFn log2Fn block e ch).incentive := by
        simp only [incNOf, normalizeIncentive]
        rw [if_pos hti]
      rw [hE]
      have hnd : ((ingestOf log2Fn block ch).uids).Nodup := by
        rw [ingestOf_uids]
        exact h.1
      rw [(inc_go _ _ _ hnd).2 u (by rw [ingestOf_uids]; exact hu)]
      exact consOf_incentive_nonneg h expFn log2Fn block e u
  · rw [incNOf_neg expFn log2Fn block e hti]
    exact consOf_incentive_nonneg h expFn log2Fn block e u

/-- The dividend vector sums exactly to `total_dividends`, and both are
nonnegative. -/
theorem divOf_sum {ch : Chain} (h : WF ch) (expFn : ℤ → ℕ) (log2Fn : ℕ → ℕ)
    (block e : ℕ) :
    ((∑ u ∈ Finset.range (nOf ch), (divOf expFn log2Fn block e ch).dividends u) =
      (divOf expFn log2Fn block e ch).total_dividends) ∧
    (∀ u, 0 ≤ (divOf expFn log2Fn block e ch).dividends u) ∧
    0 ≤ (divOf expFn log2Fn block e ch).total_dividends := by
  have huids : ∀ u ∈ (ingestOf log2Fn block ch).uids, u < nOf ch := by
    rw [ingestOf_uids]
    exact wf_uids_lt h
  have hE : divOf expFn log2Fn block e ch =
      (ingestOf log2Fn block ch).uids.foldl
        (divStep (selfOwnFxOf ch) (incNOf expFn log2Fn block e ch)
          (edgeOf log2Fn block e ch).bonds (edgeOf log2Fn block e ch).bond_totals
          (ingestOf log2Fn block ch).uids)
        ⟨fun _ => 0, 0, fun _ => []⟩ := rfl
  obtain ⟨hs, hn⟩ := div_go (selfOwnFxOf ch) (incNOf expFn log2Fn block e ch)
    (edgeOf log2Fn block e ch).bonds (edgeOf log2Fn block e ch).bond_totals
    (ingestOf log2Fn block ch).uids (ingestOf log2Fn block ch).uids
    ⟨fun _ => 0, 0, fun _ => []⟩ (nOf ch) huids
    (selfOwnFx_bounds ch) (incNOf_nonneg h expFn log2Fn block e)
  rw [hE]
  have hnn := hn (fun _ => le_refl 0)
  refine ⟨?_, hnn, ?_⟩
  · simp only [Finset.sum_const_zero, sub_zero] at hs
    omega
  · have h1 : (0:ℤ) ≤ ∑ u ∈ Finset.range (nOf ch),
        ((ingestOf log2Fn block ch).uids.foldl
          (divStep (selfOwnFxOf ch) (incNOf expFn log2Fn block e ch)
            (edgeOf log2Fn block e ch).bonds (edgeOf log2Fn block e ch).bond_totals
            (ingestOf log2Fn block ch).uids)
          ⟨fun _ => 0, 0, fun _ => []⟩).dividends u :=
      Finset.sum_nonneg fun u _ => hnn u
    simp only [Finset.sum_const_zero, sub_zero] at hs
    omega

theorem emitOf_pos {ch : Chain} (h : WF ch) (expFn : ℤ → ℕ) (log2Fn : ℕ → ℕ)
    (block e : ℕ)
    (htd : (divOf expFn log2Fn block e ch).total_dividends ≠ 0) :
    (∀ u ∈ ch.neurons.map Neuron.uid,
      (emitOf expFn log2Fn block e ch).dividends u =
        Fx.div ((divOf expFn log2Fn block e ch).dividends u)
          ((divOf expFn log2Fn block e ch).total_dividends) ∧
      (emitOf expFn log2Fn block e ch).emission u =
        Fx.toU64 (Fx.mul (Fx.ofU64 e)
          (Fx.div ((divOf expFn log2Fn block e ch).dividends u)
            ((divOf expFn log2Fn block e ch).total_dividends)))) ∧
    (emitOf expFn log2Fn block e ch).total_emission =
      ((ch.neurons.map Neuron.uid).map fun u =>
        Fx.toU64 (Fx.mul (Fx.ofU64 e)
          (Fx.div ((divOf expFn log2Fn block e ch).dividends u)
            ((divOf expFn log2Fn block e ch).total_dividends)))).sum := by
  have hE : emitOf expFn log2Fn block e ch =
      (ingestOf log2Fn block ch).uids.foldl
        (emitStep (Fx.ofU64 e) (divOf expFn log2Fn block e ch).total_dividends)
        ⟨(divOf expFn log2Fn block e ch).dividends, fun _ => 0, 0⟩ := by
    simp only [emitOf, emissionPhase]
    rw [if_pos htd]
  have hnd : ((ingestOf log2Fn block ch).uids).Nodup := by
    rw [ingestOf_uids]
    exact h.1
  obtain ⟨hg1, hg2, hg3⟩ := emit_go (Fx.ofU64 e)
    (divOf expFn log2Fn block e ch).total_dividends
    (ingestOf log2Fn block ch).uids
    ⟨(divOf expFn log2Fn block e ch).dividends, fun _ => 0, 0⟩ hnd
  refine ⟨?_, ?_⟩
  · intro u hu
    rw [hE]
    exact hg1 u (by rw [ingestOf_uids]; exact hu)
  · rw [hE, hg3, ingestOf_uids]
    simp

theorem emitOf_neg {ch : Chain} (expFn : ℤ → ℕ) (log2Fn : ℕ → ℕ) (block e : ℕ)
    (htd : ¬ (divOf expFn log2Fn block e ch).total_dividends ≠ 0) :
    (emitOf expFn log2Fn block e ch).dividends =
      (divOf expFn log2Fn block e ch).dividends ∧
    (∀ u, (emitOf expFn log2Fn block e ch).emission u = 0) ∧
    (emitOf expFn log2Fn block e ch).total_emission = 0 := by
  have hE : emitOf expFn log2Fn block e ch =
      ⟨(divOf expFn log2Fn block e ch).dividends, fun _ => 0, 0⟩ := by
    simp only [emitOf, emissionPhase]
    rw [if_neg htd]
  rw [hE]
  exact ⟨rfl, fun _ => rfl, rfl⟩

/-- The emission vector sums exactly to `total_emission`. -/
theorem emitOf_total_sum {ch : Chain} (h : WF ch) (expFn : ℤ → ℕ) (log2Fn : ℕ → ℕ)
    (block e : ℕ) :
    (∑ u ∈ Finset.range (nOf ch), (emitOf expFn log2Fn block e ch).emission u) =
      (emitOf expFn log2Fn block e ch).total_emission := by
  rcases Decidable.em ((divOf expFn log2Fn block e ch).total_dividends ≠ 0) with htd | htd
  · obtain ⟨hs, hte⟩ := emitOf_pos h expFn log2Fn block e htd
    rw [hte, sum_uids_eq_range h.1 (List.length_map _ _) (wf_uids_lt h)]
    refine Finset.sum_congr rfl fun u hu => ?_
    exact (hs u (wf_dense h u (Finset.mem_range.mp hu))).2
  · obtain ⟨_, hz, hte⟩ := emitOf_neg expFn log2Fn block e htd
    rw [hte]
    exact Finset.sum_eq_zero fun u _ => hz u

/-- Generic normalization bounds: the vector of truncated quotients `a u / T`
sums to `(Σ a) / T` within one divisor-unit per entry. -/
theorem norm_sum_bounds_gen (n : ℕ) (a : ℕ → ℤ) (A T : ℤ) (hn : 0 < n)
    (hT : 0 < T) (hsum : (∑ u ∈ Finset.range n, a u) = A) :
    A * fscale - n * T < (∑ u ∈ Finset.range n, Fx.div (a u) T) * T ∧
    (∑ u ∈ Finset.range n, Fx.div (a u) T) * T ≤ A * fscale := by
  have hF : (Finset.range n).Nonempty := ⟨0, Finset.mem_range.mpr hn⟩
  have hrw : (∑ u ∈ Finset.range n, Fx.div (a u) T) =
      ∑ u ∈ Finset.range n, a u * fscale / T :=
    Finset.sum_congr rfl fun u _ => Fx.div_eq _ (le_of_lt hT)
  obtain ⟨h1, h2⟩ := sum_div_bounds (Finset.range n) hF a hT
  rw [hsum] at h1 h2
  rw [hrw]
  rw [Finset.card_range] at h1
  exact ⟨h1, h2⟩

/-- Specialized normalization bounds when the vector sums exactly to the
divisor: the normalized sum lies in `(fscale - n, fscale]`. -/
theorem norm_sum_bounds (n : ℕ) (a : ℕ → ℤ) (T : ℤ) (hn : 0 < n) (hT : 0 < T)
    (hsum : (∑ u ∈ Finset.range n, a u) = T) :
    fscale - n < (∑ u ∈ Finset.range n, Fx.div (a u) T) ∧
    (∑ u ∈ Finset.range n, Fx.div (a u) T) ≤ fscale := by
  obtain ⟨h1, h2⟩ := norm_sum_bounds_gen n a T T hn hT hsum
  constructor
  · have h3 : (fscale - n) * T < (∑ u ∈ Finset.range n, Fx.div (a u) T) * T := by
      have : (fscale - (n:ℤ)) * T = fscale * T - n * T := by ring
      rw [this]
      have hTf : T * fscale = fscale * T := by ring
      omega
    exact lt_of_mul_lt_mul_right h3 (le_of_lt hT)
  · have h3 : (∑ u ∈ Finset.range n, Fx.div (a u) T) * T ≤ fscale * T := by
      have hTf : T * fscale = fscale * T := by ring
      omega
    exact le_of_mul_le_mul_right h3 hT

/-- Emission never overshoots the budget, and the two truncation layers lose
less than three units per participant in total. -/
theorem emitOf_deficit {ch : Chain} (h : WF ch) (expFn : ℤ → ℕ) (log2Fn : ℕ → ℕ)
    (block e : ℕ) (he : e < 2 ^ 64)
    (htd : (divOf expFn log2Fn block e ch).total_dividends ≠ 0) :
    (∑ u ∈ Finset.range (nOf ch), (emitOf expFn log2Fn block e ch).emission u) ≤ e ∧
    e - (∑ u ∈ Finset.range (nOf ch), (emitOf expFn log2Fn block e ch).emission u)
      < 3 * nOf ch := by
  obtain ⟨hDsum, hdnn, hDnn⟩ := divOf_sum h expFn log2Fn block e
  have hDpos : 0 < (divOf expFn log2Fn block e ch).total_dividends :=
    lt_of_le_of_ne hDnn (Ne.symm htd)
  have hn : 0 < nOf ch := by
    rcases Nat.eq_zero_or_pos (nOf ch) with h0 | h0
    · exfalso
      rw [h0] at hDsum
      simp at hDsum
      exact htd hDsum.symm
    · exact h0
  obtain ⟨hQlb, hQub⟩ := norm_sum_bounds (nOf ch)
    (divOf expFn log2Fn block e ch).dividends
    (divOf expFn log2Fn block e ch).total_dividends hn hDpos hDsum
  have hqnn : ∀ u, 0 ≤ Fx.div ((divOf expFn log2Fn block e ch).dividends u)
      ((divOf expFn log2Fn block e ch).total_dividends) :=
    fun u => Fx.div_nonneg (hdnn u) (le_of_lt hDpos)
  have hslot : ∀ u ∈ Finset.range (nOf ch),
      ((emitOf expFn log2Fn block e ch).emission u : ℤ) =
        (e : ℤ) * Fx.div ((divOf expFn log2Fn block e ch).dividends u)
          ((divOf expFn log2Fn block e ch).total_dividends) / fscale := by
    intro u hu
    rw [((emitOf_pos h expFn log2Fn block e htd).1 u
      (wf_dense h u (Finset.mem_range.mp hu))).2]
    rw [Fx.mul_ofU64_left, Fx.toU64_eq]
    exact Int.toNat_of_nonneg (Int.ediv_nonneg
      (Int.mul_nonneg (Int.natCast_nonneg e) (hqnn u)) fscale_nonneg)
  have hcast : ((∑ u ∈ Finset.range (nOf ch),
      (emitOf expFn log2Fn block e ch).emission u : ℕ) : ℤ) =
      ∑ u ∈ Finset.range (nOf ch),
        (e : ℤ) * Fx.div ((divOf expFn log2Fn block e ch).dividends u)
          ((divOf expFn log2Fn block e ch).total_dividends) / fscale := by
    push_cast
    exact Finset.sum_congr rfl hslot
  obtain ⟨hS1, hS2⟩ := sum_ediv_bounds (Finset.range (nOf ch))
    ⟨0, Finset.mem_range.mpr hn⟩
    (fun u => (e : ℤ) * Fx.div ((divOf expFn log2Fn block e ch).dividends u)
      ((divOf expFn log2Fn block e ch).total_dividends)) fscale_pos
  have hEQ : (∑ u ∈ Finset.range (nOf ch),
      (e : ℤ) * Fx.div ((divOf expFn log2Fn block e ch).dividends u)
        ((divOf expFn log2Fn block e ch).total_dividends)) =
      (e : ℤ) * ∑ u ∈ Finset.range (nOf ch),
        Fx.div ((divOf expFn log2Fn block e ch).dividends u)
          ((divOf expFn log2Fn block e ch).total_dividends) :=
    (Finset.mul_sum _ _ _).symm
  rw [hEQ] at hS1 hS2
  rw [Finset.card_range] at hS2
  have he0 : (0:ℤ) ≤ (e:ℤ) := Int.natCast_nonneg e
  have heb : (e:ℤ) ≤ 2 * fscale - 1 := by
    have : (e:ℤ) < 2 ^ 64 := by exact_mod_cast he
    have h2 : (2:ℤ) * fscale = 2 ^ 64 := by norm_num [fscale]
    omega
  -- abbreviations for the two integer sums
  have hup : (∑ u ∈ Finset.range (nOf ch),
      (e : ℤ) * Fx.div ((divOf expFn log2Fn block e ch).dividends u)
        ((divOf expFn log2Fn block e ch).total_dividends) / fscale) ≤ (e : ℤ) := by
    have h1 : (e:ℤ) * (∑ u ∈ Finset.range (nOf ch),
        Fx.div ((divOf expFn log2Fn block e ch).dividends u)
          ((divOf expFn log2Fn block e ch).total_dividends)) ≤ (e:ℤ) * fscale :=
      mul_le_mul_of_nonneg_left hQub he0
    have h2 : (∑ u ∈ Finset.range (nOf ch),
        (e : ℤ) * Fx.div ((divOf expFn log2Fn block e ch).dividends u)
          ((divOf expFn log2Fn block e ch).total_dividends) / fscale) * fscale ≤
        (e:ℤ) * fscale := le_trans hS1 h1
    exact le_of_mul_le_mul_right h2 fscale_pos
  have hlow : (e : ℤ) < (∑ u ∈ Finset.range (nOf ch),
      (e : ℤ) * Fx.div ((divOf expFn log2Fn block e ch).dividends u)
        ((divOf expFn log2Fn block e ch).total_dividends) / fscale) + 3 * nOf ch := by
    have hq2 : fscale - (nOf ch : ℤ) + 1 ≤ ∑ u ∈ Finset.range (nOf ch),
        Fx.div ((divOf expFn log2Fn block e ch).dividends u)
          ((divOf expFn log2Fn block e ch).total_dividends) := by omega
    have h1 : (e:ℤ) * (fscale - (nOf ch : ℤ) + 1) ≤
        (e:ℤ) * ∑ u ∈ Finset.range (nOf ch),
          Fx.div ((divOf expFn log2Fn block e ch).dividends u)
            ((divOf expFn log2Fn block e ch).total_dividends) :=
      mul_le_mul_of_nonneg_left hq2 he0
    have hA : (e:ℤ) * (fscale - (nOf ch : ℤ) + 1) =
        (e:ℤ) * fscale - (e:ℤ) * (nOf ch : ℤ) + (e:ℤ) := by ring
    have hB : ((∑ u ∈ Finset.range (nOf ch),
        (e : ℤ) * Fx.div ((divOf expFn log2Fn block e ch).dividends u)
          ((divOf expFn log2Fn block e ch).total_dividends) / fscale) +
        (nOf ch : ℤ)) * fscale =
        (∑ u ∈ Finset.range (nOf ch),
          (e : ℤ) * Fx.div ((divOf expFn log2Fn block e ch).dividends u)
            ((divOf expFn log2Fn block e ch).total_dividends) / fscale) * fscale +
        (nOf ch : ℤ) * fscale := by ring
    have hen : (e:ℤ) * (nOf ch : ℤ) ≤ 2 * ((nOf ch : ℤ) * fscale) - (nOf ch : ℤ) := by
      have := mul_le_mul_of_nonneg_right heb (Int.natCast_nonneg (nOf ch))
      have hr : (2 * fscale - 1) * (nOf ch : ℤ) =
          2 * ((nOf ch : ℤ) * fscale) - (nOf ch : ℤ) := by ring
      omega
    have hgoal_mul : (e:ℤ) * fscale <
        ((∑ u ∈ Finset.range (nOf ch),
          (e : ℤ) * Fx.div ((divOf expFn log2Fn block e ch).dividends u)
            ((divOf expFn log2Fn block e ch).total_dividends) / fscale) +
          3 * (nOf ch : ℤ)) * fscale := by
      have hC : ((∑ u ∈ Finset.range (nOf ch),
          (e : ℤ) * Fx.div ((divOf expFn log2Fn block e ch).dividends u)
            ((divOf expFn log2Fn block e ch).total_dividends) / fscale) +
          3 * (nOf ch : ℤ)) * fscale =
          (∑ u ∈ Finset.range (nOf ch),
            (e : ℤ) * Fx.div ((divOf expFn log2Fn block e ch).dividends u)
              ((divOf expFn log2Fn block e ch).total_dividends) / fscale) * fscale +
          3 * ((nOf ch : ℤ) * fscale) := by ring
      omega
    have := lt_of_mul_lt_mul_right hgoal_mul fscale_nonneg
    omega
  constructor
  · have : ((∑ u ∈ Finset.range (nOf ch),
        (emitOf expFn log2Fn block e ch).emission u : ℕ) : ℤ) ≤ (e:ℤ) := by
      rw [hcast]
      exact hup
    exact_mod_cast this
  · have h1 : ((e:ℤ)) < ((∑ u ∈ Finset.range (nOf ch),
        (emitOf expFn log2Fn block e ch).emission u : ℕ) : ℤ) + 3 * nOf ch := by
      rw [hcast]
      exact hlow
    omega

end StepLemmas

/-! ## Self-weight irrelevance (congruence through the step) -/

theorem selfweight_filter_eq {u : ℕ} {w1 w2 : List (ℕ × ℕ)}
    (hw : SelfWeightEq u w1 w2) :
    w1.filter (fun p => !decide (p.1 = u)) = w2.filter (fun p => !decide (p.1 = u)) := by
  induction hw with
  | nil => rfl
  | cons hpq htail ih =>
    rename_i p q t1 t2
    simp only [List.filter_cons]
    rcases Decidable.em (p.1 = u) with hp | hp
    · have hq : q.1 = u := hpq.1 ▸ hp
      simp only [hp, hq, decide_eq_true_eq]
      simp [ih]
    · have hq : ¬ q.1 = u := fun hc => hp (hpq.1 ▸ hc)
      have hval : p.2 = q.2 := hpq.2 hp
      have hpair : p = q := Prod.ext hpq.1 hval
      simp only [hpair]
      split
      · rw [ih]
      · exact ih

theorem edgeList_congr (uids : List ℕ) (stake : ℕ → ℤ) (w1 w2 : ℕ → List (ℕ × ℕ))
    (hw : ∀ u, SelfWeightEq u (w1 u) (w2 u)) :
    edgeList uids stake w1 = edgeList uids stake w2 := by
  unfold edgeList
  induction uids.filter (fun i => !decide (stake i = 0)) with
  | nil => rfl
  | cons i t ih =>
    simp only [List.flatMap_cons]
    rw [selfweight_filter_eq (hw i), ih]

/-- Ingest congruence: related neuron tables produce identical ingest output
except for the stored weight vectors, which remain related slotwise. -/
theorem ingest_congr (log2Fn : ℕ → ℕ) (prune : List ℕ) (block cutoff : ℕ)
    {ns1 ns2 : List Neuron} (hrel : List.Forall₂ NeuronRel ns1 ns2)
    (s1 s2 : Ingest)
    (hs : s1.uids = s2.uids ∧ s1.active = s2.active ∧ s1.priority = s2.priority ∧
      s1.bond_totals = s2.bond_totals ∧ s1.bonds = s2.bonds ∧
      s1.total_stake = s2.total_stake ∧
      s1.total_active_stake = s2.total_active_stake ∧ s1.stake = s2.stake ∧
      ∀ u, SelfWeightEq u (s1.weights u) (s2.weights u)) :
    (ns1.foldl (ingestStep log2Fn prune block cutoff) s1).uids =
      (ns2.foldl (ingestStep log2Fn prune block cutoff) s2).uids ∧
    (ns1.foldl (ingestStep log2Fn prune block cutoff) s1).active =
      (ns2.foldl (ingestStep log2Fn prune block cutoff) s2).active ∧
    (ns1.foldl (ingestStep log2Fn prune block cutoff) s1).priority =
      (ns2.foldl (ingestStep log2Fn prune block cutoff) s2).priority ∧
    (ns1.foldl (ingestStep log2Fn prune block cutoff) s1).bond_totals =
      (ns2.foldl (ingestStep log2Fn prune block cutoff) s2).bond_totals ∧
    (ns1.foldl (ingestStep log2Fn prune block cutoff) s1).bonds =
      (ns2.foldl (ingestStep log2Fn prune block cutoff) s2).bonds ∧
    (ns1.foldl (ingestStep log2Fn prune block cutoff) s1).total_stake =
      (ns2.foldl (ingestStep log2Fn prune block cutoff) s2).total_stake ∧
    (ns1.foldl (ingestStep log2Fn prune block cutoff) s1).total_active_stake =
      (ns2.foldl (ingestStep log2Fn prune block cutoff) s2).total_active_stake ∧
    (ns1.foldl (ingestStep log2Fn prune block cutoff) s1).stake =
      (ns2.foldl (ingestStep log2Fn prune block cutoff) s2).stake ∧
    ∀ u, SelfWeightEq u
      ((ns1.foldl (ingestStep log2Fn prune block cutoff) s1).weights u)
      ((ns2.foldl (ingestStep log2Fn prune block cutoff) s2).weights u) := by
  induction hrel generalizing s1 s2 with
  | nil => exact hs
  | cons hxy htail ih =>
    rename_i x y t1 t2
    obtain ⟨hu, hst, hb, hlu, hpr, hwrel⟩ := hxy
    obtain ⟨e1, e2, e3, e4, e5, e6, e7, e8, e9⟩ := hs
    simp only [List.foldl_cons]
    refine ih _ _ ⟨?_, ?_, ?_, ?_, ?_, ?_, ?_, ?_, ?_⟩
    · show s1.uids ++ [x.uid] = s2.uids ++ [y.uid]
      rw [e1, hu]
    · show upd s1.active x.uid _ = upd s2.active y.uid _
      rw [e2, hu, hlu]
    · show upd s1.priority x.uid _ = upd s2.priority y.uid _
      rw [e3, hu, hst, hpr]
    · show (x.bonds.foldl (bondRowStep prune) (fun _ => 0, s1.bond_totals)).2 =
        (y.bonds.foldl (bondRowStep prune) (fun _ => 0, s2.bond_totals)).2
      rw [e4, hb]
    · show upd s1.bonds x.uid (x.bonds.foldl (bondRowStep prune) (fun _ => 0, s1.bond_totals)).1 =
        upd s2.bonds y.uid (y.bonds.foldl (bondRowStep prune) (fun _ => 0, s2.bond_totals)).1
      rw [e5, e4, hu, hb]
    · show s1.total_stake + Fx.ofU64 x.stake = s2.total_stake + Fx.ofU64 y.stake
      rw [e6, hst]
    · show s1.total_active_stake + _ = s2.total_active_stake + _
      rw [e7, hst, hlu]
    · show upd s1.stake x.uid (Fx.ofU64 x.stake) = upd s2.stake y.uid (Fx.ofU64 y.stake)
      rw [e8, hu, hst]
    · intro u
      show SelfWeightEq u (upd s1.weights x.uid x.weights u)
        (upd s2.weights y.uid y.weights u)
      unfold upd
      rw [← hu]
      split
      · rename_i hux
        rw [hux]
        exact hwrel
      · exact e9 u

theorem map_eq_of_forall₂ {α β : Type} {R : α → α → Prop} {f g : α → β}
    {l1 l2 : List α} (hrel : List.Forall₂ R l1 l2)
    (h : ∀ x y, R x y → f x = g y) : l1.map f = l2.map g := by
  induction hrel with
  | nil => rfl
  | cons hxy htail ih =>
    rw [List.map_cons, List.map_cons, ih, h _ _ hxy]

/-- Committed neuron list, as a map over the table (step.rs lines 398-416). -/
theorem mechanismStep_neurons (expFn : ℤ → ℕ) (log2Fn : ℕ → ℕ) (block e : ℕ)
    (ch : Chain) :
    (mechanismStep expFn log2Fn block e ch).neurons =
      ch.neurons.map
        (commitNeuron (ingestOf log2Fn block ch).active
          (ingestOf log2Fn block ch).priority (emitOf expFn log2Fn block e ch).emission
          (rtOf log2Fn block e ch).ranks (rtOf log2Fn block e ch).trust
          (consOf expFn log2Fn block e ch).consensus (incNOf expFn log2Fn block e ch)
          (emitOf expFn log2Fn block e ch).dividends
          (divOf expFn log2Fn block e ch).sparse) := rfl

/-- Committed globals (step.rs lines 418-426). -/
theorem mechanismStep_globals (expFn : ℤ → ℕ) (log2Fn : ℕ → ℕ) (block e : ℕ)
    (ch : Chain) :
    (mechanismStep expFn log2Fn block e ch).total_emission =
      (emitOf expFn log2Fn block e ch).total_emission ∧
    (mechanismStep expFn log2Fn block e ch).total_bonds_purchased =
      (edgeOf log2Fn block e ch).tbp ∧
    (mechanismStep expFn log2Fn block e ch).total_issuance =
      ch.total_issuance + (emitOf expFn log2Fn block e ch).total_emission ∧
    (mechanismStep expFn log2Fn block e ch).total_stake =
      ch.total_stake + (emitOf expFn log2Fn block e ch).total_emission ∧
    (mechanismStep expFn log2Fn block e ch).last_mechanism_step_block = block :=
  ⟨rfl, rfl, rfl, rfl, rfl⟩

theorem mechanismStep_prune (expFn : ℤ → ℕ) (log2Fn : ℕ → ℕ) (block e : ℕ)
    (ch : Chain) :
    (mechanismStep expFn log2Fn block e ch).prune =
      ch.prune.filter fun u => !decide (u ∈ (ingestOf log2Fn block ch).uids) := rfl

/-- A pruned uid that is registered is removed from the pruning set at
commit. -/
theorem mechanismStep_prune_cleared (expFn : ℤ → ℕ) (log2Fn : ℕ → ℕ)
    (block e : ℕ) (ch : Chain) {j : ℕ} (hj : j ∈ ch.neurons.map Neuron.uid) :
    j ∉ (mechanismStep expFn log2Fn block e ch).prune := by
  rw [mechanismStep_prune]
  intro hmem
  have := (List.mem_filter.mp hmem).2
  rw [ingestOf_uids] at this
  simp only [Bool.not_eq_true', decide_eq_false_iff_not] at this
  exact this hj

/-- The pruned-column facts at the level of the step. -/
theorem ingestOf_prune_col {ch : Chain} (log2Fn : ℕ → ℕ) (block : ℕ) {j : ℕ}
    (hj : j ∈ ch.prune) :
    (∀ i, (ingestOf log2Fn block ch).bonds i j = 0) ∧
    (ingestOf log2Fn block ch).bond_totals j = 0 := by
  unfold ingestOf ingest
  exact ingest_prune_col log2Fn ch.prune block ch.activity_cutoff ch.neurons _ hj
    (fun _ => rfl) rfl

section CongrStep

variable (expFn : ℤ → ℕ) (log2Fn : ℕ → ℕ) (block e : ℕ)

/-- Claim C9: changing only self-weight entries (for example raising
`weight[i -> i]` to `u32::MAX`) never changes any committed rank, trust, or
bond output of `mechanism_step`: the edge pass drops self-loops before they
can contribute any rank, trust, or bond increment. -/
theorem claim_C9 (ch1 : Chain) (ns2 : List Neuron)
    (hrel : List.Forall₂ NeuronRel ch1.neurons ns2) :
    ((mechanismStep expFn log2Fn block e ch1).neurons.map fun x =>
      (x.rank, x.trust, x.bonds)) =
    ((mechanismStep expFn log2Fn block e
        { ch1 with neurons := ns2 }).neurons.map fun x =>
      (x.rank, x.trust, x.bonds)) := by
  obtain ⟨Hu, Ha, Hp, Hbt, Hb, Hts, Htas, Hsk, Hw⟩ :=
    ingest_congr log2Fn ch1.prune block ch1.activity_cutoff hrel
      { uids := []
        active := fun _ => 0
        priority := fun _ => 0
        bond_totals := fun _ => 0
        bonds := fun _ _ => 0
        weights := fun _ => []
        total_stake := 0
        total_active_stake := 0
        stake := fun _ => 0 }
      { uids := []
        active := fun _ => 0
        priority := fun _ => 0
        bond_totals := fun _ => 0
        bonds := fun _ _ => 0
        weights := fun _ => []
        total_stake := 0
        total_active_stake := 0
        stake := fun _ => 0 }
      ⟨rfl, rfl, rfl, rfl, rfl, rfl, rfl, rfl, fun _ => List.Forall₂.nil⟩
  have HuI : (ingestOf log2Fn block ch1).uids =
      (ingestOf log2Fn block { ch1 with neurons := ns2 }).uids := Hu
  have HaI : (ingestOf log2Fn block ch1).active =
      (ingestOf log2Fn block { ch1 with neurons := ns2 }).active := Ha
  have HpI : (ingestOf log2Fn block ch1).priority =
      (ingestOf log2Fn block { ch1 with neurons := ns2 }).priority := Hp
  have HbtI : (ingestOf log2Fn block ch1).bond_totals =
      (ingestOf log2Fn block { ch1 with neurons := ns2 }).bond_totals := Hbt
  have HbI : (ingestOf log2Fn block ch1).bonds =
      (ingestOf log2Fn block { ch1 with neurons := ns2 }).bonds := Hb
  have HtasI : (ingestOf log2Fn block ch1).total_active_stake =
      (ingestOf log2Fn block { ch1 with neurons := ns2 }).total_active_stake := Htas
  have HskI : (ingestOf log2Fn block ch1).stake =
      (ingestOf log2Fn block { ch1 with neurons := ns2 }).stake := Hsk
  have HwI : ∀ u, SelfWeightEq u ((ingestOf log2Fn block ch1).weights u)
      ((ingestOf log2Fn block { ch1 with neurons := ns2 }).weights u) := Hw
  have Hnorm : normOf log2Fn block ch1 =
      normOf log2Fn block { ch1 with neurons := ns2 } := by
    simp only [normOf]
    rw [HuI, HaI, HtasI, HskI]
  have Hedges : edgesOf log2Fn block ch1 =
      edgesOf log2Fn block { ch1 with neurons := ns2 } := by
    calc edgesOf log2Fn block ch1
        = edgeList (ingestOf log2Fn block ch1).uids
            (normOf log2Fn block ch1).stake
            (ingestOf log2Fn block { ch1 with neurons := ns2 }).weights :=
          edgeList_congr _ _ _ _ HwI
      _ = _ := by
          simp only [edgesOf]
          rw [HuI, Hnorm]
  have Hbma : bmaFxOf ch1 = bmaFxOf { ch1 with neurons := ns2 } := rfl
  have Hkap : kappaFxOf ch1 = kappaFxOf { ch1 with neurons := ns2 } := rfl
  have Hrho : rhoFxOf ch1 = rhoFxOf { ch1 with neurons := ns2 } := rfl
  have Hso : selfOwnFxOf ch1 = selfOwnFxOf { ch1 with neurons := ns2 } := rfl
  have Hedge : edgeOf log2Fn block e ch1 =
      edgeOf log2Fn block e { ch1 with neurons := ns2 } := by
    rw [edgeOf_eq, edgeOf_eq, Hedges, HaI, Hnorm, HbI, HbtI, Hbma]
  have Hrt : rtOf log2Fn block e ch1 =
      rtOf log2Fn block e { ch1 with neurons := ns2 } := by
    simp only [rtOf]
    rw [HuI, Hedge, Hnorm]
  have Hcons : consOf expFn log2Fn block e ch1 =
      consOf expFn log2Fn block e { ch1 with neurons := ns2 } := by
    simp only [consOf]
    rw [HuI, Hedge, Hrt, Hkap, Hrho]
  have HincN : incNOf expFn log2Fn block e ch1 =
      incNOf expFn log2Fn block e { ch1 with neurons := ns2 } := by
    simp only [incNOf]
    rw [HuI, Hcons]
  have Hdiv : divOf expFn log2Fn block e ch1 =
      divOf expFn log2Fn block e { ch1 with neurons := ns2 } := by
    simp only [divOf]
    rw [HuI, Hedge, HincN, Hso]
  have Hemit : emitOf expFn log2Fn block e ch1 =
      emitOf expFn log2Fn block e { ch1 with neurons := ns2 } := by
    simp only [emitOf]
    rw [HuI, Hdiv]
  rw [mechanismStep_neurons, mechanismStep_neurons, List.map_map, List.map_map]
  refine map_eq_of_forall₂ hrel ?_
  intro x y hxy
  simp only [Function.comp_apply, commitNeuron]
  rw [← hxy.1, ← Hrt, ← Hdiv]

end CongrStep

/-- `consVal` applies `exp` exactly at `consExpArg`. -/
theorem consVal_expArg (expFn : ℤ → ℕ) (kappaFx rhoFx : ℤ) (trust : ℕ → ℤ)
    (u : ℕ) :
    consVal expFn kappaFx rhoFx trust u =
      Fx.div Fx.one (Fx.one + (expFn (consExpArg kappaFx rhoFx trust u) : ℤ)) :=
  rfl

/-- Normalized trust entries are nonnegative. -/
theorem rtOf_trust_nonneg {ch : Chain} (h : WF ch) (log2Fn : ℕ → ℕ)
    (block e : ℕ) :
    ∀ u, 0 ≤ (rtOf log2Fn block e ch).trust u := by
  intro u
  obtain ⟨hnr, hnt, htr, htt⟩ := @edgeOf_nonneg ch log2Fn block e
  rcases Decidable.em (0 < (edgeOf log2Fn block e ch).total_trust ∧
      0 < (edgeOf log2Fn block e ch).total_ranks) with hpos | hneg
  · rcases Decidable.em (u ∈ ch.neurons.map Neuron.uid) with hu | hu
    · rw [(rtOf_slots_pos h log2Fn block e hpos u hu).2]
      exact Fx.div_nonneg (hnt u) (normOf_tnas_nonneg log2Fn block ch)
    · have hE : rtOf log2Fn block e ch =
          (ingestOf log2Fn block ch).uids.foldl
            (rtStep (edgeOf log2Fn block e ch).total_ranks
              (normOf log2Fn block ch).tnas)
            ⟨(edgeOf log2Fn block e ch).ranks, (edgeOf log2Fn block e ch).trust⟩ := by
        simp only [rtOf, normalizeRT]
        rw [if_pos hpos]
      rw [hE]
      have hnd : ((ingestOf log2Fn block ch).uids).Nodup := by
        rw [ingestOf_uids]
        exact h.1
      rw [((rt_go _ _ _ _ hnd).2 u (by rw [ingestOf_uids]; exact hu)).2]
      exact hnt u
  · rw [(rtOf_neg log2Fn block e hneg).2]
    exact hnt u

/-- The argument fed to `exp` never exceeds the fixed-point `rho`: the shifted
trust is at least `-1` (trust entries are nonnegative, `1/kappa` is at most
`1`), so the negated temperatured term is at most `rho`.  This is the positive
direction, the one an exponential can overflow on. -/
theorem consExpArg_le_rho {ch : Chain} (h : WF ch) (log2Fn : ℕ → ℕ)
    (block e : ℕ) :
    ∀ u, consExpArg (kappaFxOf ch) (rhoFxOf ch)
      ((rtOf log2Fn block e ch).trust) u ≤ rhoFxOf ch := by
  intro u
  have ht0 : 0 ≤ (rtOf log2Fn block e ch).trust u :=
    rtOf_trust_nonneg h log2Fn block e u
  have hk : kappaFxOf ch ≤ Fx.one := (kappaFx_bounds ch).2
  have hr0 : 0 ≤ rhoFxOf ch := Fx.ofU64_nonneg ch.rho
  have hs : -Fx.one ≤ (rtOf log2Fn block e ch).trust u - kappaFxOf ch := by omega
  have h1 : (-Fx.one) * rhoFxOf ch ≤
      ((rtOf log2Fn block e ch).trust u - kappaFxOf ch) * rhoFxOf ch :=
    mul_le_mul_of_nonneg_right hs hr0
  have h2 : Fx.mul (-Fx.one) (rhoFxOf ch) ≤
      Fx.mul ((rtOf log2Fn block e ch).trust u - kappaFxOf ch) (rhoFxOf ch) := by
    rw [Fx.mul_eq, Fx.mul_eq]
    exact Int.ediv_le_ediv fscale_pos h1
  have h3 : Fx.mul (-Fx.one) (rhoFxOf ch) = -(rhoFxOf ch) := by
    rw [Fx.mul_eq]
    rw [show (-Fx.one) * rhoFxOf ch = fscale * (-(rhoFxOf ch)) by
      unfold Fx.one; ring]
    exact Int.mul_ediv_cancel_left _ (ne_of_gt fscale_pos)
  rw [h3] at h2
  unfold consExpArg
  omega

/-! ## The claims -/

/-- Claim C4: `update_difficulty` always zeroes `RegistrationsThisBlock`;
before the adjustment interval it changes nothing else; at the interval it
clamps the doubled difficulty above by `max_difficulty` when registrations
exceed the target and the halved difficulty below by `min_difficulty`
otherwise, then resets the interval state.  Stated away from `u64` wraparound
of the block subtraction and of the doubling. -/
theorem claim_C4 (cfg : DiffCfg) (cb : ℕ) (s : DiffSt)
    (hle : s.last_adjustment ≤ cb) (hcb : cb < 2 ^ 64)
    (hmul : s.difficulty * 2 < 2 ^ 64) :
    (update_difficulty cfg cb s).regs_this_block = 0 ∧
    (cb - s.last_adjustment < cfg.adjustment_interval →
      update_difficulty cfg cb s = { s with regs_this_block := 0 }) ∧
    (cfg.adjustment_interval ≤ cb - s.last_adjustment →
      update_difficulty cfg cb s =
        { difficulty :=
            if cfg.target_regs < s.regs_this_interval then
              min (s.difficulty * 2) cfg.max_difficulty
            else max (s.difficulty / 2) cfg.min_difficulty
          last_adjustment := cb
          regs_this_interval := 0
          regs_this_block := 0 }) := by
  refine ⟨update_difficulty_regs_block cfg cb s, ?_, ?_⟩
  · exact fun hlt => update_difficulty_noop cfg cb s hle hcb hlt
  · exact fun hge => update_difficulty_adjust cfg cb s hle hcb hmul hge

theorem claim_C4_witness :
    (sW4.last_adjustment ≤ 5 ∧ 5 < 2 ^ 64 ∧ sW4.difficulty * 2 < 2 ^ 64 ∧
      ((update_difficulty cfgW4 5 sW4).regs_this_block = 0 ∧
        (5 - sW4.last_adjustment < cfgW4.adjustment_interval →
          update_difficulty cfgW4 5 sW4 = { sW4 with regs_this_block := 0 }) ∧
        (cfgW4.adjustment_interval ≤ 5 - sW4.last_adjustment →
          update_difficulty cfgW4 5 sW4 =
            { difficulty :=
                if cfgW4.target_regs < sW4.regs_this_interval then
                  min (sW4.difficulty * 2) cfgW4.max_difficulty
                else max (sW4.difficulty / 2) cfgW4.min_difficulty
              last_adjustment := 5
              regs_this_interval := 0
              regs_this_block := 0 }))) ∧
    (update_difficulty cfgW4 5 sW4).difficulty = 2000 ∧
    (update_difficulty cfgW4 5 sW4b).difficulty = 500 :=
  ⟨⟨by decide, by decide, by decide,
    claim_C4 cfgW4 5 sW4 (by decide) (by decide) (by decide)⟩,
   by decide, by decide⟩

/-- Claim C2 (amended): a pruned target uid `j` contributes zero bonds while
the bond matrix is *built*: every ingested `bonds[i][j]` is zero and
`bond_totals[j]` is zero after ingest; and a pruned uid that is registered is
cleared from the pruning set at commit.  (The original claim's "for the whole
step" part is refuted by `claim_C2_counterexample`: the moving-average pass
re-creates bonds toward a pruned uid, which then reach the committed sparse
bond lists.) -/
theorem claim_C2 {ch : Chain} (expFn : ℤ → ℕ) (log2Fn : ℕ → ℕ) (block e : ℕ)
    {j : ℕ} (hj : j ∈ ch.prune) :
    (∀ i, (ingestOf log2Fn block ch).bonds i j = 0) ∧
    (ingestOf log2Fn block ch).bond_totals j = 0 ∧
    (j ∈ ch.neurons.map Neuron.uid →
      j ∉ (mechanismStep expFn log2Fn block e ch).prune) := by
  obtain ⟨h1, h2⟩ := ingestOf_prune_col log2Fn block hj
  exact ⟨h1, h2, fun hjm => mechanismStep_prune_cleared expFn log2Fn block e ch hjm⟩

/-- Claim C2, counterexample to the original statement: on `chC2` the uid 1 is
in the pruning set, yet neuron 0's committed sparse bond list carries the pair
`(1, 500000)` created by the moving-average pass of this very step. -/
theorem claim_C2_counterexample :
    1 ∈ chC2.prune ∧
    (mechanismStep expSpec log2Spec 0 1000000 chC2).neurons.map Neuron.bonds =
      [[(1, 500000)], []] := by decide

theorem claim_C2_witness :
    1 ∈ chC2.prune ∧
    ((∀ i, (ingestOf log2Spec 0 chC2).bonds i 1 = 0) ∧
      (ingestOf log2Spec 0 chC2).bond_totals 1 = 0 ∧
      (1 ∈ chC2.neurons.map Neuron.uid →
        1 ∉ (mechanismStep expSpec log2Spec 0 1000000 chC2).prune)) :=
  ⟨by decide, claim_C2 expSpec log2Spec 0 1000000 (by decide)⟩

/-- Claim C7 (amended): the committed priority is not the unchanged input
priority but the input priority plus `log2(stake + 1)` (on the wrapped `u64`
sum), accumulated by the ingest loop. -/
theorem claim_C7 {ch : Chain} (h : WF ch) (expFn : ℤ → ℕ) (log2Fn : ℕ → ℕ)
    (block e : ℕ) :
    List.Forall₂
      (fun x y => y.priority = x.priority + log2Fn ((x.stake + 1) % 2 ^ 64))
      ch.neurons (mechanismStep expFn log2Fn block e ch).neurons := by
  rw [mechanismStep_neurons, List.forall₂_map_right_iff]
  refine List.forall₂_same.mpr fun x hx => ?_
  exact (ingestOf_slot h log2Fn block x hx).2.2.1

/-- Claim C7, counterexample to the original statement: the single neuron of
`chC7` enters the step with priority 0 and leaves it with priority
`log2(1 + 1) = 1`. -/
theorem claim_C7_counterexample :
    chC7.neurons.map Neuron.priority = [0] ∧
    (mechanismStep expSpec log2Spec 0 0 chC7).neurons.map Neuron.priority =
      [1] := by decide

theorem claim_C7_witness :
    WF chC7 ∧
    List.Forall₂
      (fun x y => y.priority = x.priority + log2Spec ((x.stake + 1) % 2 ^ 64))
      chC7.neurons (mechanismStep expSpec log2Spec 0 0 chC7).neurons :=
  ⟨by unfold WF; decide, claim_C7 (by unfold WF; decide) expSpec log2Spec 0 0⟩

/-- Claim C6 (amended): the step's partial operations are in-domain under the
stated side conditions.  With every stake below `u64::MAX`, the wrapped
`stake + 1` fed to `log2` is strictly positive (`claim_C6_counterexample`
shows a `u64::MAX` stake makes that argument 0); whenever the trust
normalization's guard `total_trust > 0` holds, its actual divisor
`total_normalized_active_stake` is also positive; `exp` is applied only to
the shifted-trust argument `consExpArg`, which is bounded above by the
fixed-point `rho` (the direction an exponential overflows on) because trust
entries are nonnegative and `1/kappa` is at most `1`; the bond-fraction
division is reached only under its `bond_totals[j] ≠ 0` guard; and the
rank/trust and stake normalizations are skipped entirely when their guards
fail, so no division by a vanishing total is reached there. -/
theorem claim_C6 {ch : Chain} (h : WF ch) (log2Fn : ℕ → ℕ) (block e : ℕ)
    (hst : ∀ x ∈ ch.neurons, x.stake < 2 ^ 64 - 1) :
    (∀ x ∈ ch.neurons, 0 < (x.stake + 1) % 2 ^ 64) ∧
    (0 < (edgeOf log2Fn block e ch).total_trust →
      0 < (normOf log2Fn block ch).tnas) ∧
    (∀ u, consExpArg (kappaFxOf ch) (rhoFxOf ch)
      ((rtOf log2Fn block e ch).trust) u ≤ rhoFxOf ch) ∧
    (∀ selfOwnFx : ℤ, ∀ incentive : ℕ → ℤ, ∀ bonds : ℕ → ℕ → ℕ, ∀ bt : ℕ → ℕ,
      ∀ i : ℕ, ∀ s : (ℕ → ℤ) × ℤ × List (ℕ × ℕ), ∀ j : ℕ, bt j = 0 →
        divInner selfOwnFx incentive bonds bt i s j = s) ∧
    (∀ uids : List ℕ, ∀ tr tt tnas : ℤ, ∀ ranks0 trust0 : ℕ → ℤ,
      ¬ (0 < tt ∧ 0 < tr) →
        normalizeRT uids tr tt tnas ranks0 trust0 = ⟨ranks0, trust0⟩) ∧
    (∀ uids : List ℕ, ∀ active : ℕ → ℕ, ∀ stake0 : ℕ → ℤ,
      normalizeStake uids active 0 stake0 = ⟨stake0, 0⟩) := by
  refine ⟨?_, ?_, ?_, ?_, ?_, ?_⟩
  · intro x hx
    have hlt := hst x hx
    have hmod : (x.stake + 1) % 2 ^ 64 = x.stake + 1 :=
      Nat.mod_eq_of_lt (by omega)
    omega
  · exact fun htt => tnas_pos_of_tt_pos h log2Fn block e htt
  · exact consExpArg_le_rho h log2Fn block e
  · intro so inc b bt i s j hbt
    simp [divInner, hbt]
  · intro uids tr tt tnas r0 t0 hneg
    simp [normalizeRT, hneg]
  · intro uids active st0
    simp [normalizeStake]

/-- Claim C6, counterexample to the original statement: on `chC6`, whose
single neuron's stake is `u64::MAX`, the ingest pass applies `log2` to the
wrapped `stake + 1 = 0` -- not to a strictly positive argument -- whatever the
`log2` implementation is. -/
theorem claim_C6_counterexample :
    chC6.neurons.map Neuron.stake = [2 ^ 64 - 1] ∧
    ∀ lf : ℕ → ℕ, (ingestOf lf 0 chC6).priority 0 = lf 0 := by
  refine ⟨by decide, fun lf => ?_⟩
  show 0 + lf ((2 ^ 64 - 1 + 1) % 2 ^ 64) = lf 0
  have h0 : (2 ^ 64 - 1 + 1) % 2 ^ 64 = 0 := by norm_num
  rw [h0, Nat.zero_add]

theorem claim_C6_witness :
    WF chW5 ∧ (∀ x ∈ chW5.neurons, x.stake < 2 ^ 64 - 1) ∧
    ((∀ x ∈ chW5.neurons, 0 < (x.stake + 1) % 2 ^ 64) ∧
      (0 < (edgeOf log2Spec 0 10 chW5).total_trust →
        0 < (normOf log2Spec 0 chW5).tnas) ∧
      (∀ u, consExpArg (kappaFxOf chW5) (rhoFxOf chW5)
        ((rtOf log2Spec 0 10 chW5).trust) u ≤ rhoFxOf chW5) ∧
      (∀ selfOwnFx : ℤ, ∀ incentive : ℕ → ℤ, ∀ bonds : ℕ → ℕ → ℕ, ∀ bt : ℕ → ℕ,
        ∀ i : ℕ, ∀ s : (ℕ → ℤ) × ℤ × List (ℕ × ℕ), ∀ j : ℕ, bt j = 0 →
          divInner selfOwnFx incentive bonds bt i s j = s) ∧
      (∀ uids : List ℕ, ∀ tr tt tnas : ℤ, ∀ ranks0 trust0 : ℕ → ℤ,
        ¬ (0 < tt ∧ 0 < tr) →
          normalizeRT uids tr tt tnas ranks0 trust0 = ⟨ranks0, trust0⟩) ∧
      (∀ uids : List ℕ, ∀ active : ℕ → ℕ, ∀ stake0 : ℕ → ℤ,
        normalizeStake uids active 0 stake0 = ⟨stake0, 0⟩)) :=
  ⟨by unfold WF; decide, by decide, claim_C6 (by unfold WF; decide) log2Spec 0 10 (by decide)⟩

/-- Claim C8: `total_bonds_purchased` is overwritten on every processed edge,
so the committed global equals the truncated `|new - old|` bond delta of the
single last edge of the pass (evaluated in the state the earlier edges
built), not a sum over edges. -/
theorem claim_C8 {ch : Chain} (expFn : ℤ → ℕ) (log2Fn : ℕ → ℕ) (block e : ℕ)
    (es : List (ℕ × ℕ × ℕ)) (elast : ℕ × ℕ × ℕ)
    (hes : edgesOf log2Fn block ch = es ++ [elast]) :
    (mechanismStep expFn log2Fn block e ch).total_bonds_purchased =
      edgeDelta (ingestOf log2Fn block ch).active (normOf log2Fn block ch).stake
        (bmaFxOf ch) (Fx.ofU64 e)
        (es.foldl
          (edgeStep (ingestOf log2Fn block ch).active
            (normOf log2Fn block ch).stake (bmaFxOf ch) (Fx.ofU64 e))
          { ranks := fun _ => 0
            trust := fun _ => 0
            total_ranks := 0
            total_trust := 0
            bonds := (ingestOf log2Fn block ch).bonds
            bond_totals := (ingestOf log2Fn block ch).bond_totals
            tbp := 0 })
        elast := by
  have h1 : (mechanismStep expFn log2Fn block e ch).total_bonds_purchased =
      (edgeOf log2Fn block e ch).tbp :=
    (mechanismStep_globals expFn log2Fn block e ch).2.1
  rw [h1, edgeOf_eq, hes, edge_fold_append]
  exact edgeStep_tbp _ _ _ _ _ _

/-- The committed stake column sums to the input stakes plus the emission of
each registered uid. -/
theorem commit_stake_sum (active priority : ℕ → ℕ) (emission : ℕ → ℕ)
    (ranksN trustN consensusV incentiveN dividendsN : ℕ → ℤ)
    (sparse : ℕ → List (ℕ × ℕ)) (l : List Neuron) :
    ((l.map (commitNeuron active priority emission ranksN trustN consensusV
        incentiveN dividendsN sparse)).map Neuron.stake).sum =
      (l.map Neuron.stake).sum + ((l.map Neuron.uid).map emission).sum := by
  induction l with
  | nil => rfl
  | cons x t ih =>
    simp only [List.map_cons, List.sum_cons, ih]
    show x.stake + emission x.uid + _ = _
    omega

/-- Claim C3 (amended): after the bond matrix is *built*, `bond_totals[j]` is
the exact column sum of the dense bonds; after the moving-average pass the
totals may drift above the column sum by at most one unit per edge aimed at
`j` (each decrease branch subtracts a floored delta where the stored column
entry also fell by its own flooring), so only the two-sided bound
`colsum ≤ bond_totals[j] ≤ colsum + countTarget j` survives.  The exactness
claimed for the post-update state is refuted by `claim_C3_counterexample`. -/
theorem claim_C3 {ch : Chain} (h : WF ch) (log2Fn : ℕ → ℕ) (block e : ℕ)
    (hbma : ch.bonds_moving_average ≤ 1000000) :
    (∀ u, (ingestOf log2Fn block ch).bond_totals u =
      colsum (nOf ch) (ingestOf log2Fn block ch).bonds u) ∧
    (∀ u, colsum (nOf ch) (edgeOf log2Fn block e ch).bonds u ≤
        (edgeOf log2Fn block e ch).bond_totals u ∧
      (edgeOf log2Fn block e ch).bond_totals u ≤
        colsum (nOf ch) (edgeOf log2Fn block e ch).bonds u +
          countTarget (edgesOf log2Fn block ch) u) := by
  refine ⟨ingestOf_colsum h log2Fn block, ?_⟩
  have hinv : ∀ u,
      colsum (nOf ch) (ingestOf log2Fn block ch).bonds u ≤
        (ingestOf log2Fn block ch).bond_totals u ∧
      (ingestOf log2Fn block ch).bond_totals u ≤
        colsum (nOf ch) (ingestOf log2Fn block ch).bonds u + 0 := by
    intro u
    have hc := ingestOf_colsum h log2Fn block u
    omega
  obtain ⟨hb0, hb1⟩ := bmaFx_bounds ch hbma
  have hres := edge_go_colsum (ingestOf log2Fn block ch).active
    (normOf log2Fn block ch).stake (bmaFxOf ch) (Fx.ofU64 e) (nOf ch)
    hb0 hb1 (Fx.ofU64_nonneg e) (normOf_stake_nonneg log2Fn block ch)
    (edgesOf log2Fn block ch)
    { ranks := fun _ => 0
      trust := fun _ => 0
      total_ranks := 0
      total_trust := 0
      bonds := (ingestOf log2Fn block ch).bonds
      bond_totals := (ingestOf log2Fn block ch).bond_totals
      tbp := 0 }
    (fun _ => 0) (edgesOf_bounds h log2Fn block) hinv
  intro u
  have hu := hres u
  simp only [Nat.zero_add] at hu
  rw [edgeOf_eq]
  omega

/-- Claim C3, counterexample to the original statement: on `chC3` the
moving-average pass shrinks uid 0's bond in uid 1 from 1 to 0, but
`bond_totals[1]` keeps the value 1 while the column sum is 0. -/
theorem claim_C3_counterexample :
    (edgeOf log2Spec 0 1000000 chC3).bond_totals 1 = 1 ∧
    colsum (nOf chC3) (edgeOf log2Spec 0 1000000 chC3).bonds 1 = 0 := by decide

theorem claim_C3_witness :
    WF chC3 ∧ chC3.bonds_moving_average ≤ 1000000 ∧
    ((∀ u, (ingestOf log2Spec 0 chC3).bond_totals u =
        colsum (nOf chC3) (ingestOf log2Spec 0 chC3).bonds u) ∧
      (∀ u, colsum (nOf chC3) (edgeOf log2Spec 0 1000000 chC3).bonds u ≤
          (edgeOf log2Spec 0 1000000 chC3).bond_totals u ∧
        (edgeOf log2Spec 0 1000000 chC3).bond_totals u ≤
          colsum (nOf chC3) (edgeOf log2Spec 0 1000000 chC3).bonds u +
            countTarget (edgesOf log2Spec 0 chC3) u)) :=
  ⟨by unfold WF; decide, by decide,
    claim_C3 (by unfold WF; decide) log2Spec 0 1000000 (by decide)⟩

/-- Claim C5 (amended): with a nonzero `total_dividends`, the truncated
emission never overshoots the budget, and the total rounding loss of the two
truncation layers (dividend normalization, then fixed-point-to-integer
conversion of each share) is below `3 n` rather than the claimed `n`;
`claim_C5_counterexample` shows a loss of `2 n` reached at `n = 3`. -/
theorem claim_C5 {ch : Chain} (h : WF ch) (expFn : ℤ → ℕ) (log2Fn : ℕ → ℕ)
    (block e : ℕ) (he : e < 2 ^ 64)
    (htd : (divOf expFn log2Fn block e ch).total_dividends ≠ 0) :
    (∑ u ∈ Finset.range (nOf ch), (emitOf expFn log2Fn block e ch).emission u) ≤
      e ∧
    e - (∑ u ∈ Finset.range (nOf ch), (emitOf expFn log2Fn block e ch).emission u)
      < 3 * nOf ch :=
  emitOf_deficit h expFn log2Fn block e he htd

/-- Claim C5, counterexample to the original statement: on the three-neuron
ring `chC5` with the full `u64` budget, the committed emissions leave a
deficit of 6 = 2n, refuting the claimed bound `E - Σ emission < n`. -/
theorem claim_C5_counterexample :
    nOf chC5 = 3 ∧
    (divOf expSpec log2Spec 0 (2 ^ 64 - 1) chC5).total_dividends ≠ 0 ∧
    2 ^ 64 - 1 -
      (∑ u ∈ Finset.range (nOf chC5),
        (emitOf expSpec log2Spec 0 (2 ^ 64 - 1) chC5).emission u) = 6 := by decide

theorem claim_C5_witness :
    WF chW5 ∧ 10 < 2 ^ 64 ∧
    (divOf expSpec log2Spec 0 10 chW5).total_dividends ≠ 0 ∧
    ((∑ u ∈ Finset.range (nOf chW5),
        (emitOf expSpec log2Spec 0 10 chW5).emission u) ≤ 10 ∧
      10 - (∑ u ∈ Finset.range (nOf chW5),
        (emitOf expSpec log2Spec 0 10 chW5).emission u) < 3 * nOf chW5) :=
  ⟨by unfold WF; decide, by decide, by decide,
    claim_C5 (by unfold WF; decide) expSpec log2Spec 0 10 (by decide) (by decide)⟩

/-- Claim C10: per-participant and global token accounting stays consistent:
each committed stake is the input stake plus that neuron's committed emission,
`TotalIssuance` and `TotalStake` grow by exactly `total_emission`, which is
the sum of the committed emission values; hence a `TotalStake` that matched
the stake column before the step still matches it after. -/
theorem claim_C10 {ch : Chain} (h : WF ch) (expFn : ℤ → ℕ) (log2Fn : ℕ → ℕ)
    (block e : ℕ) :
    List.Forall₂
      (fun x y => y.stake = x.stake + y.emission ∧
        y.emission = (emitOf expFn log2Fn block e ch).emission x.uid)
      ch.neurons (mechanismStep expFn log2Fn block e ch).neurons ∧
    (mechanismStep expFn log2Fn block e ch).total_emission =
      (∑ u ∈ Finset.range (nOf ch), (emitOf expFn log2Fn block e ch).emission u) ∧
    (mechanismStep expFn log2Fn block e ch).total_issuance =
      ch.total_issuance + (mechanismStep expFn log2Fn block e ch).total_emission ∧
    (mechanismStep expFn log2Fn block e ch).total_stake =
      ch.total_stake + (mechanismStep expFn log2Fn block e ch).total_emission ∧
    (ch.total_stake = (ch.neurons.map Neuron.stake).sum →
      (mechanismStep expFn log2Fn block e ch).total_stake =
        ((mechanismStep expFn log2Fn block e ch).neurons.map Neuron.stake).sum) := by
  refine ⟨?_, ?_, rfl, rfl, ?_⟩
  · rw [mechanismStep_neurons, List.forall₂_map_right_iff]
    exact List.forall₂_same.mpr fun x hx => ⟨rfl, rfl⟩
  · have hg := (mechanismStep_globals expFn log2Fn block e ch).1
    rw [hg]
    exact (emitOf_total_sum h expFn log2Fn block e).symm
  · intro hts
    have hmap := commit_stake_sum (ingestOf log2Fn block ch).active
      (ingestOf log2Fn block ch).priority (emitOf expFn log2Fn block e ch).emission
      (rtOf log2Fn block e ch).ranks (rtOf log2Fn block e ch).trust
      (consOf expFn log2Fn block e ch).consensus (incNOf expFn log2Fn block e ch)
      (emitOf expFn log2Fn block e ch).dividends
      (divOf expFn log2Fn block e ch).sparse ch.neurons
    have hsum : ((ch.neurons.map Neuron.uid).map
        (emitOf expFn log2Fn block e ch).emission).sum =
        (emitOf expFn log2Fn block e ch).total_emission := by
      rw [sum_uids_eq_range h.1 (List.length_map _ _) (wf_uids_lt h)]
      exact emitOf_total_sum h expFn log2Fn block e
    rw [mechanismStep_neurons, hmap, hsum, ← hts]
    exact (mechanismStep_globals expFn log2Fn block e ch).2.2.2.1

theorem claim_C9_witness :
    List.Forall₂ NeuronRel chC9.neurons nsC9 ∧
    ((mechanismStep expSpec log2Spec 0 10 chC9).neurons.map fun x =>
      (x.rank, x.trust, x.bonds)) =
    ((mechanismStep expSpec log2Spec 0 10
        { chC9 with neurons := nsC9 }).neurons.map fun x =>
      (x.rank, x.trust, x.bonds)) := by
  have hrel : List.Forall₂ NeuronRel chC9.neurons nsC9 := by
    refine List.Forall₂.cons ?_ (List.Forall₂.cons ?_ List.Forall₂.nil)
    · exact ⟨rfl, rfl, rfl, rfl, rfl,
        List.Forall₂.cons ⟨rfl, fun hne => absurd rfl hne⟩
          (List.Forall₂.cons ⟨rfl, fun _ => rfl⟩ List.Forall₂.nil)⟩
    · exact ⟨rfl, rfl, rfl, rfl, rfl,
        List.Forall₂.cons ⟨rfl, fun _ => rfl⟩ List.Forall₂.nil⟩
  exact ⟨hrel, claim_C9 expSpec log2Spec 0 10 chC9 nsC9 hrel⟩

/-- Claim C1 (amended): under the guards the code actually tests, the
normalized rank vector sums to the fixed-point 1 within `n` units of least
precision, and so do the normalized incentive and dividend vectors -- the
exactness claimed for incentive and dividends also only holds within `n`
units (`claim_C1_counterexample`); the trust vector, however, is normalized
by `total_normalized_active_stake` rather than by its own total, so its sum
is not near 1 in general (`claim_C1_counterexample` reaches 3).  When a
normalizing total vanishes, the corresponding entries are all zero. -/
theorem claim_C1 {ch : Chain} (h : WF ch) (expFn : ℤ → ℕ) (log2Fn : ℕ → ℕ)
    (block e : ℕ) :
    (0 < (edgeOf log2Fn block e ch).total_trust ∧
        0 < (edgeOf log2Fn block e ch).total_ranks →
      (fscale - nOf ch <
        ∑ u ∈ Finset.range (nOf ch), (rtOf log2Fn block e ch).ranks u) ∧
      (∑ u ∈ Finset.range (nOf ch), (rtOf log2Fn block e ch).ranks u) ≤ fscale ∧
      ∀ u ∈ ch.neurons.map Neuron.uid,
        (rtOf log2Fn block e ch).trust u =
          Fx.div ((edgeOf log2Fn block e ch).trust u)
            ((normOf log2Fn block ch).tnas)) ∧
    ((edgeOf log2Fn block e ch).total_ranks = 0 →
      ∀ u, (rtOf log2Fn block e ch).ranks u = 0) ∧
    ((edgeOf log2Fn block e ch).total_trust = 0 →
      ∀ u, (rtOf log2Fn block e ch).trust u = 0) ∧
    (0 < (consOf expFn log2Fn block e ch).total_incentive →
      (fscale - nOf ch <
        ∑ u ∈ Finset.range (nOf ch), incNOf expFn log2Fn block e ch u) ∧
      (∑ u ∈ Finset.range (nOf ch), incNOf expFn log2Fn block e ch u) ≤ fscale) ∧
    ((consOf expFn log2Fn block e ch).total_incentive = 0 →
      ∀ u ∈ Finset.range (nOf ch), incNOf expFn log2Fn block e ch u = 0) ∧
    ((divOf expFn log2Fn block e ch).total_dividends ≠ 0 →
      (fscale - nOf ch <
        ∑ u ∈ Finset.range (nOf ch), (emitOf expFn log2Fn block e ch).dividends u) ∧
      (∑ u ∈ Finset.range (nOf ch),
        (emitOf expFn log2Fn block e ch).dividends u) ≤ fscale) ∧
    ((divOf expFn log2Fn block e ch).total_dividends = 0 →
      ∀ u ∈ Finset.range (nOf ch),
        (emitOf expFn log2Fn block e ch).dividends u = 0) := by
  refine ⟨?_, ?_, ?_, ?_, ?_, ?_, ?_⟩
  · intro hpos
    have htr := hpos.2
    have hn : 0 < nOf ch := by
      by_contra hn0
      have hn0' : nOf ch = 0 := by omega
      have hs := (edgeOf_sums h log2Fn block e).1
      rw [hn0'] at hs
      simp at hs
      omega
    have hslots := rtOf_slots_pos h log2Fn block e hpos
    have hsum_eq : (∑ u ∈ Finset.range (nOf ch), (rtOf log2Fn block e ch).ranks u) =
        ∑ u ∈ Finset.range (nOf ch),
          Fx.div ((edgeOf log2Fn block e ch).ranks u)
            ((edgeOf log2Fn block e ch).total_ranks) :=
      Finset.sum_congr rfl fun u hu =>
        (hslots u (wf_dense h u (Finset.mem_range.mp hu))).1
    obtain ⟨hlb, hub⟩ := norm_sum_bounds (nOf ch) (edgeOf log2Fn block e ch).ranks
      (edgeOf log2Fn block e ch).total_ranks hn htr
      (edgeOf_sums h log2Fn block e).1
    refine ⟨?_, ?_, fun u hu => (hslots u hu).2⟩
    · rw [hsum_eq]; exact hlb
    · rw [hsum_eq]; exact hub
  · intro h0 u
    have hneg : ¬ (0 < (edgeOf log2Fn block e ch).total_trust ∧
        0 < (edgeOf log2Fn block e ch).total_ranks) := by
      rw [h0]
      exact fun hc => lt_irrefl 0 hc.2
    rw [(rtOf_neg log2Fn block e hneg).1]
    exact (edgeOf_zero_of_total_zero h log2Fn block e).1 h0 u
  · intro h0 u
    have hneg : ¬ (0 < (edgeOf log2Fn block e ch).total_trust ∧
        0 < (edgeOf log2Fn block e ch).total_ranks) := by
      rw [h0]
      exact fun hc => lt_irrefl 0 hc.1
    rw [(rtOf_neg log2Fn block e hneg).2]
    exact (edgeOf_zero_of_total_zero h log2Fn block e).2 h0 u
  · intro hti
    have hsum := consOf_sum h expFn log2Fn block e
    have hn : 0 < nOf ch := by
      by_contra hn0
      have hn0' : nOf ch = 0 := by omega
      rw [hn0'] at hsum
      simp at hsum
      omega
    have hslots := incNOf_pos h expFn log2Fn block e hti
    have hsum_eq : (∑ u ∈ Finset.range (nOf ch), incNOf expFn log2Fn block e ch u) =
        ∑ u ∈ Finset.range (nOf ch),
          Fx.div ((consOf expFn log2Fn block e ch).incentive u)
            ((consOf expFn log2Fn block e ch).total_incentive) :=
      Finset.sum_congr rfl fun u hu =>
        hslots u (wf_dense h u (Finset.mem_range.mp hu))
    obtain ⟨hlb, hub⟩ := norm_sum_bounds (nOf ch)
      (consOf expFn log2Fn block e ch).incentive
      (consOf expFn log2Fn block e ch).total_incentive hn hti hsum
    constructor
    · rw [hsum_eq]; exact hlb
    · rw [hsum_eq]; exact hub
  · intro h0 u hu
    have hneg : ¬ 0 < (consOf expFn log2Fn block e ch).total_incentive := by
      rw [h0]
      exact lt_irrefl 0
    rw [incNOf_neg expFn log2Fn block e hneg]
    have hsum := consOf_sum h expFn log2Fn block e
    rw [h0] at hsum
    exact (Finset.sum_eq_zero_iff_of_nonneg fun v _ =>
      consOf_incentive_nonneg h expFn log2Fn block e v).mp hsum u hu
  · intro htd
    obtain ⟨hDsum, hdnn, hDnn⟩ := divOf_sum h expFn log2Fn block e
    have hDpos : 0 < (divOf expFn log2Fn block e ch).total_dividends :=
      lt_of_le_of_ne hDnn (Ne.symm htd)
    have hn : 0 < nOf ch := by
      by_contra hn0
      have hn0' : nOf ch = 0 := by omega
      rw [hn0'] at hDsum
      simp at hDsum
      omega
    obtain ⟨hs, hte⟩ := emitOf_pos h expFn log2Fn block e htd
    have hsum_eq : (∑ u ∈ Finset.range (nOf ch),
          (emitOf expFn log2Fn block e ch).dividends u) =
        ∑ u ∈ Finset.range (nOf ch),
          Fx.div ((divOf expFn log2Fn block e ch).dividends u)
            ((divOf expFn log2Fn block e ch).total_dividends) :=
      Finset.sum_congr rfl fun u hu =>
        (hs u (wf_dense h u (Finset.mem_range.mp hu))).1
    obtain ⟨hlb, hub⟩ := norm_sum_bounds (nOf ch)
      (divOf expFn log2Fn block e ch).dividends
      (divOf expFn log2Fn block e ch).total_dividends hn hDpos hDsum
    constructor
    · rw [hsum_eq]; exact hlb
    · rw [hsum_eq]; exact hub
  · intro h0 u hu
    have hneg : ¬ (divOf expFn log2Fn block e ch).total_dividends ≠ 0 := by
      rw [h0]
      exact fun hc => hc rfl
    obtain ⟨hdiv, _, _⟩ := emitOf_neg expFn log2Fn block e hneg
    rw [hdiv]
    obtain ⟨hDsum, hdnn, _⟩ := divOf_sum h expFn log2Fn block e
    rw [h0] at hDsum
    exact (Finset.sum_eq_zero_iff_of_nonneg fun v _ => hdnn v).mp hDsum u hu

/-- Claim C1, counterexample to the original statement: on `chC1` both edge
totals are nonzero, yet the normalized trust entries sum to three times the
fixed-point 1 (far beyond `n = 4` units of tolerance), and the normalized
incentive entries sum to `fscale - 2`, not exactly to `fscale`. -/
theorem claim_C1_counterexample :
    (edgeOf log2Spec 0 7 chC1).total_trust ≠ 0 ∧
    (edgeOf log2Spec 0 7 chC1).total_ranks ≠ 0 ∧
    (∑ u ∈ Finset.range (nOf chC1), (rtOf log2Spec 0 7 chC1).trust u) =
      3 * fscale ∧
    (consOf expSpec log2Spec 0 7 chC1).total_incentive ≠ 0 ∧
    (∑ u ∈ Finset.range (nOf chC1), incNOf expSpec log2Spec 0 7 chC1 u) =
      fscale - 2 := by decide

theorem claim_C1_witness :
    WF chW5 ∧
    ((0 < (edgeOf log2Spec 0 10 chW5).total_trust ∧
        0 < (edgeOf log2Spec 0 10 chW5).total_ranks →
      (fscale - nOf chW5 <
        ∑ u ∈ Finset.range (nOf chW5), (rtOf log2Spec 0 10 chW5).ranks u) ∧
      (∑ u ∈ Finset.range (nOf chW5), (rtOf log2Spec 0 10 chW5).ranks u) ≤
        fscale ∧
      ∀ u ∈ chW5.neurons.map Neuron.uid,
        (rtOf log2Spec 0 10 chW5).trust u =
          Fx.div ((edgeOf log2Spec 0 10 chW5).trust u)
            ((normOf log2Spec 0 chW5).tnas)) ∧
    ((edgeOf log2Spec 0 10 chW5).total_ranks = 0 →
      ∀ u, (rtOf log2Spec 0 10 chW5).ranks u = 0) ∧
    ((edgeOf log2Spec 0 10 chW5).total_trust = 0 →
      ∀ u, (rtOf log2Spec 0 10 chW5).trust u = 0) ∧
    (0 < (consOf expSpec log2Spec 0 10 chW5).total_incentive →
      (fscale - nOf chW5 <
        ∑ u ∈ Finset.range (nOf chW5), incNOf expSpec log2Spec 0 10 chW5 u) ∧
      (∑ u ∈ Finset.range (nOf chW5), incNOf expSpec log2Spec 0 10 chW5 u) ≤
        fscale) ∧
    ((consOf expSpec log2Spec 0 10 chW5).total_incentive = 0 →
      ∀ u ∈ Finset.range (nOf chW5), incNOf expSpec log2Spec 0 10 chW5 u = 0) ∧
    ((divOf expSpec log2Spec 0 10 chW5).total_dividends ≠ 0 →
      (fscale - nOf chW5 <
        ∑ u ∈ Finset.range (nOf chW5),
          (emitOf expSpec log2Spec 0 10 chW5).dividends u) ∧
      (∑ u ∈ Finset.range (nOf chW5),
        (emitOf expSpec log2Spec 0 10 chW5).dividends u) ≤ fscale) ∧
    ((divOf expSpec log2Spec 0 10 chW5).total_dividends = 0 →
      ∀ u ∈ Finset.range (nOf chW5),
        (emitOf expSpec log2Spec 0 10 chW5).dividends u = 0)) :=
  ⟨by unfold WF; decide, claim_C1 (by unfold WF; decide) expSpec log2Spec 0 10⟩

theorem claim_C8_witness :
    edgesOf log2Spec 0 chW5 = [(0, 1, 2 ^ 32 - 1)] ++ [(1, 0, 2 ^ 32 - 1)] ∧
    (mechanismStep expSpec log2Spec 0 10 chW5).total_bonds_purchased =
      edgeDelta (ingestOf log2Spec 0 chW5).active (normOf log2Spec 0 chW5).stake
        (bmaFxOf chW5) (Fx.ofU64 10)
        ([(0, 1, 2 ^ 32 - 1)].foldl
          (edgeStep (ingestOf log2Spec 0 chW5).active
            (normOf log2Spec 0 chW5).stake (bmaFxOf chW5) (Fx.ofU64 10))
          { ranks := fun _ => 0
            trust := fun _ => 0
            total_ranks := 0
            total_trust := 0
            bonds := (ingestOf log2Spec 0 chW5).bonds
            bond_totals := (ingestOf log2Spec 0 chW5).bond_totals
            tbp := 0 })
        (1, 0, 2 ^ 32 - 1) :=
  ⟨by decide,
    claim_C8 expSpec log2Spec 0 10 [(0, 1, 2 ^ 32 - 1)] (1, 0, 2 ^ 32 - 1)
      (by decide)⟩

theorem claim_C10_witness :
    WF chW5 ∧
    (List.Forall₂
      (fun x y => y.stake = x.stake + y.emission ∧
        y.emission = (emitOf expSpec log2Spec 0 10 chW5).emission x.uid)
      chW5.neurons (mechanismStep expSpec log2Spec 0 10 chW5).neurons ∧
    (mechanismStep expSpec log2Spec 0 10 chW5).total_emission =
      (∑ u ∈ Finset.range (nOf chW5),
        (emitOf expSpec log2Spec 0 10 chW5).emission u) ∧
    (mechanismStep expSpec log2Spec 0 10 chW5).total_issuance =
      chW5.total_issuance +
        (mechanismStep expSpec log2Spec 0 10 chW5).total_emission ∧
    (mechanismStep expSpec log2Spec 0 10 chW5).total_stake =
      chW5.total_stake +
        (mechanismStep expSpec log2Spec 0 10 chW5).total_emission ∧
    (chW5.total_stake = (chW5.neurons.map Neuron.stake).sum →
      (mechanismStep expSpec log2Spec 0 10 chW5).total_stake =
        ((mechanismStep expSpec log2Spec 0 10 chW5).neurons.map
          Neuron.stake).sum)) :=
  ⟨by unfold WF; decide, claim_C10 (by unfold WF; decide) expSpec log2Spec 0 10⟩

end Subtensor
